import Mathlib

/-!
# Register allocation by graph colouring (`main.go`)

A shallow embedding of the algorithmic core of `main.go`:

* the interval extraction and the graph building of `parseFile`,
* the backtracking colourer `colorGraph` / `isPossible`,
* the allocation step of `main` (`min`, `sortedKeys`, promotion and spill).

The global variables `adjacencyList`, `result`, `vertices` and `numberOfColors`
of the program are passed explicitly.  Slice indexing that Go checks at run time
is modelled by `Except Fault`, a failed bounds check being `Fault.indexOutOfRange`.
-/

namespace GraphColoring

/-! ## Faults -/

/-- Ways in which a run of the embedded code can stop without a value. -/
inductive Fault where
  /-- A Go run-time panic: index or slice bound out of range. -/
  | indexOutOfRange : Fault
  /-- The recursion budget of the embedding ran out (never the outcome of
  `colorGraph`, see `colorGraph_ne_outOfFuel`). -/
  | outOfFuel : Fault
  deriving DecidableEq, Repr

/-- Checked slice read `xs[i]`. -/
def index {α : Type} (xs : List α) (i : Nat) : Except Fault α :=
  match xs[i]? with
  | some x => .ok x
  | none => .error .indexOutOfRange

/-- Checked slice write `xs[i] = x`. -/
def assign {α : Type} (xs : List α) (i : Nat) (x : α) : Except Fault (List α) :=
  if i < xs.length then .ok (xs.set i x) else .error .indexOutOfRange

/-! ## The colourer -/

/-- The loop of `isPossible` over the neighbours `adjacencyList[vertex]`:
`false` at the first neighbour holding `color`, `true` when none does. -/
def isPossibleLoop (result : List Nat) (color : Nat) : List Nat → Except Fault Bool
  | [] => .ok true
  | adj :: rest =>
    match index result adj with
    | .error e => .error e
    | .ok c => if c = color then .ok false else isPossibleLoop result color rest

/-- Go `isPossible(vertex, color)`: can `color` be used at `vertex`? -/
def isPossible (adjacencyList : List (List Nat)) (result : List Nat)
    (vertex color : Nat) : Except Fault Bool :=
  match index adjacencyList vertex with
  | .error e => .error e
  | .ok neighbours => isPossibleLoop result color neighbours

/-- The colour loop `for i := 1; i < numberOfColors; i++` of `colorGraph(vertex)`,
entered at colour `i` with `todo = numberOfColors - i` iterations left.  `next`
is the recursive call `colorGraph(vertex + 1)` on the current `result`. -/
def colorLoop (adjacencyList : List (List Nat))
    (next : List Nat → Except Fault (Bool × List Nat)) (vertex : Nat) :
    Nat → Nat → List Nat → Except Fault (Bool × List Nat)
  | 0, _, result => .ok (false, result)
  | todo + 1, i, result =>
    match isPossible adjacencyList result vertex i with
    | .error e => .error e
    | .ok false => colorLoop adjacencyList next vertex todo (i + 1) result
    | .ok true =>
      match assign result vertex i with
      | .error e => .error e
      | .ok result1 =>
        if vertex + 1 < result1.length then
          match next result1 with
          | .error e => .error e
          | .ok (true, result2) => .ok (true, result2)
          | .ok (false, result2) =>
            colorLoop adjacencyList next vertex todo (i + 1) result2
        else .ok (true, result1)

/-- Go `colorGraph(vertex)` with a recursion budget: each recursive call is on
`vertex + 1` and spends one unit. -/
def colorGraphFuel (adjacencyList : List (List Nat)) (numberOfColors : Nat) :
    Nat → Nat → List Nat → Except Fault (Bool × List Nat)
  | 0, _, _ => .error .outOfFuel
  | fuel + 1, vertex, result =>
    colorLoop adjacencyList (colorGraphFuel adjacencyList numberOfColors fuel (vertex + 1))
      vertex (numberOfColors - 1) 1 result

/-- Go `colorGraph(vertex)`: the returned flag and the final `result`.  The
budget `len(result) + 1` is never exhausted (`colorGraph_ne_outOfFuel`). -/
def colorGraph (adjacencyList : List (List Nat)) (numberOfColors : Nat)
    (result : List Nat) (vertex : Nat) : Except Fault (Bool × List Nat) :=
  colorGraphFuel adjacencyList numberOfColors (result.length + 1) vertex result

/-! ## Predicates used to state the invariants of the search -/

/-- The entry of `result` at `i`, `0` outside the slice. -/
def colorAt (result : List Nat) (i : Nat) : Nat := result.getD i 0

/-- The final `r` has the length of `result` and agrees with it below `v`. -/
def Frame (v : Nat) (result r : List Nat) : Prop :=
  r.length = result.length ∧ ∀ j, j < v → colorAt r j = colorAt result j

/-- Every vertex from `v` on holds a colour in `1..K-1` that none of its
lower-numbered neighbours holds. -/
def ColouredFrom (adjacencyList : List (List Nat)) (K v : Nat) (r : List Nat) : Prop :=
  ∀ w, v ≤ w → w < r.length →
    1 ≤ colorAt r w ∧ colorAt r w < K ∧
      ∀ b ∈ adjacencyList.getD w [], b < w → colorAt r b ≠ colorAt r w

/-! ## Graphs and colourings -/

/-- The neighbour list `adjacencyList[a]` (empty outside the slice). -/
def neighbours (adjacencyList : List (List Nat)) (a : Nat) : List Nat :=
  adjacencyList.getD a []

/-- An adjacency list over the vertex ids `0..V-1`. -/
def InRange (adjacencyList : List (List Nat)) (V : Nat) : Prop :=
  adjacencyList.length = V ∧
    ∀ a, a < V → ∀ b ∈ neighbours adjacencyList a, b < V

/-- Whenever `b` is listed at `a`, `a` is listed at `b`. -/
def Symmetric (adjacencyList : List (List Nat)) : Prop :=
  ∀ a, a < adjacencyList.length →
    ∀ b ∈ neighbours adjacencyList a, a ∈ neighbours adjacencyList b

/-- No vertex is listed in its own neighbour list. -/
def Irreflexive (adjacencyList : List (List Nat)) : Prop :=
  ∀ a, a < adjacencyList.length → a ∉ neighbours adjacencyList a

/-- The assignment `r` gives every vertex a colour in `1..K-1`, and the two
ends of every listed adjacency differ. -/
def ProperColoring (adjacencyList : List (List Nat)) (K : Nat) (r : List Nat) : Prop :=
  r.length = adjacencyList.length ∧
    (∀ a, a < adjacencyList.length → 1 ≤ colorAt r a ∧ colorAt r a ≤ K - 1) ∧
    ∀ a, a < adjacencyList.length →
      ∀ b ∈ neighbours adjacencyList a, colorAt r a ≠ colorAt r b

instance (adjacencyList : List (List Nat)) (V : Nat) : Decidable (InRange adjacencyList V) := by
  unfold InRange; infer_instance

instance (adjacencyList : List (List Nat)) : Decidable (Symmetric adjacencyList) := by
  unfold Symmetric; infer_instance

instance (adjacencyList : List (List Nat)) : Decidable (Irreflexive adjacencyList) := by
  unfold Irreflexive; infer_instance

instance (adjacencyList : List (List Nat)) (K : Nat) (r : List Nat) :
    Decidable (ProperColoring adjacencyList K r) := by
  unfold ProperColoring; infer_instance

/-- The complete graph on `V` vertices: every vertex lists every other vertex,
and nothing else. -/
def IsComplete (adjacencyList : List (List Nat)) (V : Nat) : Prop :=
  adjacencyList.length = V ∧
    ∀ a, a < V →
      (∀ b ∈ neighbours adjacencyList a, b < V ∧ b ≠ a) ∧
      ∀ b, b < V → b ≠ a → b ∈ neighbours adjacencyList a

instance (adjacencyList : List (List Nat)) (V : Nat) :
    Decidable (IsComplete adjacencyList V) := by
  unfold IsComplete; infer_instance

/-- The assignment in which the vertices below `v` hold the colours `1..v` in
order and the others hold `0`: the state of the first-fit descent on a complete
graph when it reaches vertex `v`. -/
def firstColours (V v : Nat) : List Nat :=
  (List.range V).map (fun j => if j < v then j + 1 else 0)

/-! ## The input of `parseFile` -/

/-- A line of the input file after the header, as the extraction loop of
`parseFile` sees it: either blank (`strings.TrimSpace(line) == ""`) or an
instruction, split at the commas into `instruction[0]` (the opcode) and the
parameters `instruction[1:]`. -/
inductive Line where
  | blank : Line
  | instruction (opcode : String) (params : List String) : Line
  deriving DecidableEq, Repr

/-- Go `variableUsage`: the id of a variable with its first and last access. -/
structure variableUsage where
  index : Nat
  first : Nat
  last : Nat
  deriving DecidableEq, Repr

/-- The Go map `allVariables`, its entries kept in the order of insertion. -/
abbrev VarMap := List (String × variableUsage)

/-- Go `allVariables[param]` with the `ok` flag. -/
def mapGet (m : VarMap) (param : String) : Option variableUsage :=
  match m with
  | [] => none
  | (k, v) :: rest => if k = param then some v else mapGet rest param

/-- Go `allVariables[param] = value`: overwrite the entry of a known key, add the
entry of a new one. -/
def mapPut (m : VarMap) (param : String) (value : variableUsage) : VarMap :=
  match m with
  | [] => [(param, value)]
  | (k, v) :: rest =>
    if k = param then (k, value) :: rest else (k, v) :: mapPut rest param value

/-- Go `len(param)`: the length of a string in bytes. -/
def len (param : String) : Nat := param.utf8ByteSize

/-- The body of `for _, param := range instruction[1:]` at instruction index
`count`, on the pair `(allVariables, vertices)`. -/
def visitParam (count : Nat) (st : VarMap × List String) (param : String) :
    VarMap × List String :=
  if len param ≤ 2 then
    match mapGet st.1 param with
    | some value => (mapPut st.1 param { value with last := count }, st.2)
    | none =>
      (mapPut st.1 param { index := st.2.length, first := count, last := count },
        st.2 ++ [param])
  else st

/-- The variables of `parseFile` that the reading loop updates. -/
structure Extraction where
  allVariables : VarMap
  vertices : List String
  count : Nat
  deriving DecidableEq, Repr

/-- One turn of the reading loop of `parseFile`: a blank line is skipped, an
instruction has its parameters visited and advances `count`. -/
def visitLine (st : Extraction) : Line → Extraction
  | .blank => st
  | .instruction _ params =>
    let out := params.foldl (visitParam st.count) (st.allVariables, st.vertices)
    { allVariables := out.1, vertices := out.2, count := st.count + 1 }

/-- The reading loop of `parseFile` over the lines after the header. -/
def extract (lines : List Line) : Extraction :=
  lines.foldl visitLine { allVariables := [], vertices := [], count := 0 }

/-! ## The graph building of `parseFile` -/

/-- The test of `parseFile` for a time intersection: the first or the last
access of `each` lies between the first and the last access of `other`. -/
def intersects (each other : variableUsage) : Bool :=
  (each.first ≥ other.first && each.first ≤ other.last) ||
    (each.last ≥ other.first && each.last ≤ other.last)

/-- The inner loop `for _, other := range allVariables`, which appends to the
row `adjacencyList[each.index]`. -/
def appendNeighbours (each : variableUsage) : List Nat → List variableUsage → List Nat
  | row, [] => row
  | row, other :: rest =>
    if each.index ≠ other.index ∧ intersects each other = true then
      appendNeighbours each (row ++ [other.index]) rest
    else appendNeighbours each row rest

/-- The outer loop `for _, each := range allVariables` on the pair
`(adjacencyList, result)`.  Go enumerates a map in an order of its own choosing:
`inner k` is the order in which the inner loop of turn `k` meets the values. -/
def buildLoop (inner : Nat → List variableUsage) :
    Nat → List variableUsage → List (List Nat) × List Nat →
      Except Fault (List (List Nat) × List Nat)
  | _, [], st => .ok st
  | k, each :: rest, (adjacencyList, result) =>
    match assign adjacencyList each.index [] with
    | .error e => .error e
    | .ok adjacencyList1 =>
      match assign adjacencyList1 each.index (appendNeighbours each [] (inner k)) with
      | .error e => .error e
      | .ok adjacencyList2 =>
        match assign result each.index 0 with
        | .error e => .error e
        | .ok result1 => buildLoop inner (k + 1) rest (adjacencyList2, result1)

/-- What `parseFile` leaves in the global variables. -/
structure Parsed where
  allVariables : VarMap
  vertices : List String
  adjacencyList : List (List Nat)
  result : List Nat
  deriving DecidableEq, Repr

/-- Go `parseFile` after the header: the reading loop, then the graph building.
`outer` is the order in which the outer loop meets the values of `allVariables`,
`inner k` the order of the inner loop of its turn `k`. -/
def parseFile (lines : List Line) (outer : List variableUsage)
    (inner : Nat → List variableUsage) : Except Fault Parsed :=
  let e := extract lines
  match buildLoop inner 0 outer
      (List.replicate e.vertices.length [], List.replicate e.vertices.length 0) with
  | .error err => .error err
  | .ok (adjacencyList, result) =>
    .ok { allVariables := e.allVariables, vertices := e.vertices,
          adjacencyList := adjacencyList, result := result }

/-- The values of the map, in the order of insertion. -/
def values (m : VarMap) : List variableUsage := m.map Prod.snd

/-- The orders `outer` and `inner` are enumerations of the map `m`: each lists
every value exactly once. -/
def Enumerates (m : VarMap) (outer : List variableUsage)
    (inner : Nat → List variableUsage) : Prop :=
  outer.Perm (values m) ∧ ∀ k, (inner k).Perm (values m)

/-! ## Reference notions for the interval extraction -/

/-- The parameter lists of the instructions of a stream, in order: the entry at
`t` belongs to the instruction of index `t`, blank lines not being counted. -/
def instructions : List Line → List (List String)
  | [] => []
  | .blank :: rest => instructions rest
  | .instruction _ params :: rest => params :: instructions rest

/-- The parameters of the instruction of index `t` (none past the end). -/
def paramsAt (L : List (List String)) (t : Nat) : List String := L.getD t []

/-- The instruction of index `f` is the first one containing `name`. -/
def FirstAt (L : List (List String)) (name : String) (f : Nat) : Prop :=
  name ∈ paramsAt L f ∧ ∀ t, t < f → name ∉ paramsAt L t

/-- The instruction of index `l` is the last one containing `name`. -/
def LastAt (L : List (List String)) (name : String) (l : Nat) : Prop :=
  name ∈ paramsAt L l ∧ ∀ t, l < t → name ∉ paramsAt L t

/-- The variable table `(m, vs)` is the one of the instructions `L`:
the keys of the map are the vertices, in id order; the vertices are the distinct
parameters of length at most 2, in the order of their first occurrence; the
entry at position `id` carries the index `id`, and its `first` and `last` are
the indices of the first and of the last instruction containing the name. -/
structure IsTableOf (L : List (List String)) (m : VarMap) (vs : List String) : Prop where
  keys : m.map Prod.fst = vs
  nodup : vs.Nodup
  mem : ∀ x, x ∈ vs ↔ (x ∈ L.flatten ∧ len x ≤ 2)
  order : vs.Pairwise (fun x y => L.flatten.indexOf x < L.flatten.indexOf y)
  ids : (values m).map (fun u => u.index) = List.range m.length
  first : ∀ e ∈ m, FirstAt L e.1 e.2.first
  last : ∀ e ∈ m, LastAt L e.1 e.2.last

/-- The overlap of two intervals with inclusive bounds, as the specification
words it: `a.firstUse <= b.lastUse && a.lastUse >= b.firstUse`. -/
def overlaps (a b : variableUsage) : Prop := a.first ≤ b.last ∧ a.last ≥ b.first

instance (a b : variableUsage) : Decidable (overlaps a b) := by
  unfold overlaps; infer_instance

/-- The map enumerated in the order of insertion, in every loop. -/
def insertionOrder (m : VarMap) : Nat → List variableUsage := fun _ => values m

/-- A stream in which `B` is used strictly inside the interval of `A`:
`A` at the instructions 0 and 2, `B` at the instruction 1. -/
def enclosedStream : List Line :=
  [.instruction "LOAD" ["A", "FA10"], .blank, .instruction "LOAD" ["B", "FA14"],
   .instruction "ADD" ["A", "FA18"]]

/-! ## The allocation step of `main` -/

/-- The Go map `memory` from a colour to the number of vertices holding it, its
entries kept in the order of insertion. -/
abbrev Memory := List (Nat × Nat)

/-- Go `memory[k]` read: the count of `k`, `0` for a key that is not there. -/
def memGet (memory : Memory) (k : Nat) : Nat :=
  match memory with
  | [] => 0
  | (k0, n) :: rest => if k0 = k then n else memGet rest k

/-- Go `memory[v]++`. -/
def memIncr (memory : Memory) (v : Nat) : Memory :=
  match memory with
  | [] => [(v, 1)]
  | (k0, n) :: rest => if k0 = v then (k0, n + 1) :: rest else (k0, n) :: memIncr rest v

/-- The body of `for _, v := range result` on the pair `(memory, max)`. -/
def tallyStep (st : Memory × Int) (v : Nat) : Memory × Int :=
  (memIncr st.1 v, if (v : Int) > st.2 then (v : Int) else st.2)

/-- The counting loop of `main`, from the empty map and `max := -1`. -/
def tally (result : List Nat) : Memory × Int :=
  result.foldl tallyStep ([], -1)

/-- Go `min(a, b)`. -/
def min (a b : Int) : Int := if a ≤ b then a else b

/-- Go `(sm *sortedMap).Less`, on the keys at the two positions: the first
key has the greater count. -/
def less (m : Memory) (a b : Nat) : Bool := decide (memGet m a > memGet m b)

/-- Go `sortedKeys(m)`: the keys of `m`, met in the order `keys` when the map is
enumerated, then sorted by `sort.Sort` with `Less`.  The library routine
`sort.Sort` is the parameter `sort`. -/
def sortedKeys (sort : (Nat → Nat → Bool) → List Nat → List Nat) (m : Memory)
    (keys : List Nat) : List Nat :=
  sort (less m) keys

/-- What the library promises of `sort.Sort` for an order by a count: the outcome
is a rearrangement of the input in which no element is `Less` than one before it. -/
def IsSort (sort : (Nat → Nat → Bool) → List Nat → List Nat) : Prop :=
  ∀ (f : Nat → Nat) (l : List Nat),
    (sort (fun a b => decide (f a > f b)) l).Perm l ∧
      (sort (fun a b => decide (f a > f b)) l).Pairwise (fun a b => f b ≤ f a)

/-- The inner loop of the library's `insertionSort`: the element `x` moves
towards the front while it is `Less` than the element before it.  The sorted
part is given nearest element first. -/
def sink (lessFn : Nat → Nat → Bool) (x : Nat) : List Nat → List Nat
  | [] => [x]
  | y :: rest => if lessFn x y = true then y :: sink lessFn x rest else x :: y :: rest

/-- The library's `insertionSort`, which `sort.Sort` runs on slices of at most
12 elements. -/
def insertionSort (lessFn : Nat → Nat → Bool) (l : List Nat) : List Nat :=
  (l.foldl (fun sorted x => sink lessFn x sorted) []).reverse

/-- Go slice expression `xs[:h]`, with its bounds check. -/
def sliceTo {α : Type} (xs : List α) (h : Int) : Except Fault (List α) :=
  if 0 ≤ h ∧ h ≤ (xs.length : Int) then .ok (xs.take h.toNat) else .error .indexOutOfRange

/-- Go slice expression `xs[l:]`, with its bounds check. -/
def sliceFrom {α : Type} (xs : List α) (l : Int) : Except Fault (List α) :=
  if 0 ≤ l ∧ l ≤ (xs.length : Int) then .ok (xs.drop l.toNat) else .error .indexOutOfRange

/-- The loop `for vindex, vcolor := range result` of the spill part for one
colour `mem`: every entry equal to `mem` is reset to 0. -/
def spill (result : List Nat) (mem : Nat) : List Nat :=
  result.map (fun vcolor => if vcolor = mem then 0 else vcolor)

/-- What the allocation step of `main` computes. -/
structure Allocation where
  /-- The value printed as the number of needed registers. -/
  max : Int
  memory : Memory
  sortedMem : List Nat
  /-- The colours of `sortedMem[:min(len(sortedMem), registers)]`. -/
  promoted : List Nat
  /-- The colours of `sortedMem[min(len(sortedMem), registers):]`. -/
  spilled : List Nat
  /-- The slice `result` at the end. -/
  result : List Nat
  deriving DecidableEq, Repr

/-- The allocation step of `main` after a successful `colorGraph(0)`: the
counting loop, `sortedKeys`, the two slices of `sortedMem` and the reset of the
vertices of the colours left in memory.  `keys` is the order in which the keys
of `memory` are met by `sortedKeys`.  The printing is left out. -/
def allocate (sort : (Nat → Nat → Bool) → List Nat → List Nat) (keys : List Nat)
    (registers : Int) (result : List Nat) : Except Fault Allocation :=
  let counted := tally result
  let sortedMem := sortedKeys sort counted.1 keys
  match sliceTo sortedMem (min sortedMem.length registers) with
  | .error e => .error e
  | .ok promoted =>
    match sliceFrom sortedMem (min sortedMem.length registers) with
    | .error e => .error e
    | .ok spilled =>
      .ok { max := counted.2, memory := counted.1, sortedMem := sortedMem,
            promoted := promoted, spilled := spilled,
            result := spilled.foldl spill result }

/-- The keys of `memory`, in the order of insertion. -/
def memKeys (memory : Memory) : List Nat := memory.map Prod.fst

/-- The order of the specification on colours: descending population, ties
broken by ascending colour id. -/
def rankedBefore (result : List Nat) (a b : Nat) : Prop :=
  result.count b < result.count a ∨ (result.count a = result.count b ∧ a ≤ b)

instance (result : List Nat) : DecidableRel (rankedBefore result) := by
  intro a b; unfold rankedBefore; infer_instance

/-- The ranking of the specification: the distinct colours of `result` by
descending population, ties broken by ascending colour id. -/
def ranking (result : List Nat) : List Nat :=
  result.dedup.insertionSort (rankedBefore result)

/-! ## The run of `main` -/

/-- What a run of `main` leaves: the globals set by `parseFile`, the flag and the
`result` of `colorGraph(0)`, and the outcome of the allocation step when the
flag is true. -/
structure Outcome where
  parsed : Parsed
  ok : Bool
  colouring : List Nat
  allocation : Option Allocation
  deriving DecidableEq, Repr

/-- Go `main` up to the plotting: `parseFile()`, `ok := colorGraph(0)` and, if
`ok`, the allocation step.  `registers` is the budget read from the header. -/
def main (numberOfColors : Nat) (lines : List Line) (outer : List variableUsage)
    (inner : Nat → List variableUsage)
    (sort : (Nat → Nat → Bool) → List Nat → List Nat) (keys : List Nat)
    (registers : Int) : Except Fault Outcome :=
  match parseFile lines outer inner with
  | .error e => .error e
  | .ok p =>
    match colorGraph p.adjacencyList numberOfColors p.result 0 with
    | .error e => .error e
    | .ok (false, r) => .ok { parsed := p, ok := false, colouring := r, allocation := none }
    | .ok (true, r) =>
      match allocate sort keys registers r with
      | .error e => .error e
      | .ok a => .ok { parsed := p, ok := true, colouring := r, allocation := some a }

/-- The stream of the end-to-end example: `A` at the instructions 0 and 2, `B`
at the instruction 1, `C` at the instruction 3. -/
def exampleStream : List Line :=
  [.instruction "LOAD" ["A"], .instruction "LOAD" ["B"], .instruction "STORE" ["A"],
   .instruction "LOAD" ["C"]]

/-- A symmetric, irreflexive graph on 5 vertices, the path `3 - 0 - 4 - 2 - 1`,
which has a proper colouring with two colours. -/
def pathGraph : List (List Nat) := [[3, 4], [2], [1, 4], [0], [0, 2]]

/-- The graph `pathGraph` on the vertices 9..13, joined to a clique on the
vertices 0..8: it has a proper colouring with 11 colours. -/
def cliquePathGraph : List (List Nat) :=
  [[1, 2, 3, 4, 5, 6, 7, 8, 9, 10, 11, 12, 13],
   [0, 2, 3, 4, 5, 6, 7, 8, 9, 10, 11, 12, 13],
   [0, 1, 3, 4, 5, 6, 7, 8, 9, 10, 11, 12, 13],
   [0, 1, 2, 4, 5, 6, 7, 8, 9, 10, 11, 12, 13],
   [0, 1, 2, 3, 5, 6, 7, 8, 9, 10, 11, 12, 13],
   [0, 1, 2, 3, 4, 6, 7, 8, 9, 10, 11, 12, 13],
   [0, 1, 2, 3, 4, 5, 7, 8, 9, 10, 11, 12, 13],
   [0, 1, 2, 3, 4, 5, 6, 8, 9, 10, 11, 12, 13],
   [0, 1, 2, 3, 4, 5, 6, 7, 9, 10, 11, 12, 13],
   [0, 1, 2, 3, 4, 5, 6, 7, 8, 12, 13],
   [0, 1, 2, 3, 4, 5, 6, 7, 8, 11],
   [0, 1, 2, 3, 4, 5, 6, 7, 8, 10, 13],
   [0, 1, 2, 3, 4, 5, 6, 7, 8, 9],
   [0, 1, 2, 3, 4, 5, 6, 7, 8, 9, 11]]

/-! ## The search as the specification words it -/

/-- Admissibility in the words of the specification: a colour is admissible at
a vertex iff no already-coloured neighbour, that is no neighbour of lower id,
currently holds it. -/
def admissible (adjacencyList : List (List Nat)) (assignment : List Nat)
    (vertex color : Nat) : Bool :=
  (neighbours adjacencyList vertex).all
    (fun b => !(decide (b < vertex) && decide (colorAt assignment b = color)))

/-- The specified treatment of one vertex: try the colours in ascending order;
on an admissible colour go on with the next vertex (`next`); on exhaustion of
the colours undo (reset the vertex to 0) and backtrack. -/
def specLoop (adjacencyList : List (List Nat)) (next : List Nat → Bool × List Nat)
    (vertex : Nat) : Nat → Nat → List Nat → Bool × List Nat
  | 0, _, assignment => (false, assignment.set vertex 0)
  | todo + 1, color, assignment =>
    if admissible adjacencyList assignment vertex color = true then
      match next (assignment.set vertex color) with
      | (true, found) => (true, found)
      | (false, undone) => specLoop adjacencyList next vertex todo (color + 1) undone
    else specLoop adjacencyList next vertex todo (color + 1) assignment

/-- The specified depth-first search from `vertex` on, `remaining` vertices
being left to colour: success once all are coloured. -/
def specSearchFrom (adjacencyList : List (List Nat)) (K : Nat) :
    Nat → Nat → List Nat → Bool × List Nat
  | 0, _, assignment => (true, assignment)
  | remaining + 1, vertex, assignment =>
    specLoop adjacencyList (specSearchFrom adjacencyList K remaining (vertex + 1))
      vertex (K - 1) 1 assignment

/-- The reference search of the specification on a graph with `V` vertices and
the palette size `K`, from the all-zero assignment. -/
def specSearch (adjacencyList : List (List Nat)) (K V : Nat) : Bool × List Nat :=
  specSearchFrom adjacencyList K V 0 (List.replicate V 0)

/-- A symmetric, irreflexive graph on 4 vertices: the path `1 - 2 - 3 - 0`. -/
def bentPath : List (List Nat) := [[3], [2], [1, 3], [0, 2]]

/-- A stream whose single instruction names twelve variables, which all
interfere with one another. -/
def twelveStream : List Line :=
  [.instruction "CALL" ["A", "B", "C", "D", "E", "F", "G", "H", "I", "J", "K", "L"]]

/-- A stream without qualifying operand: its only instruction names two memory
addresses. -/
def addressStream : List Line := [.instruction "LOAD" ["FA10", "FB20"]]

/-! ## The colourer with a count of the exhausted calls -/

/-- The colour loop of `colorGraph(vertex)` as in `colorLoop`, which also counts
the calls of `colorGraph` that returned false: `n` such calls have been seen in
the nested calls so far, and the call itself is one more when its loop ends. -/
def colorLoopCount (adjacencyList : List (List Nat))
    (next : List Nat → Except Fault (Bool × List Nat × Nat)) (vertex : Nat) :
    Nat → Nat → List Nat → Nat → Except Fault (Bool × List Nat × Nat)
  | 0, _, result, n => .ok (false, result, n + 1)
  | todo + 1, i, result, n =>
    match isPossible adjacencyList result vertex i with
    | .error e => .error e
    | .ok false => colorLoopCount adjacencyList next vertex todo (i + 1) result n
    | .ok true =>
      match assign result vertex i with
      | .error e => .error e
      | .ok result1 =>
        if vertex + 1 < result1.length then
          match next result1 with
          | .error e => .error e
          | .ok (true, result2, k) => .ok (true, result2, n + k)
          | .ok (false, result2, k) =>
            colorLoopCount adjacencyList next vertex todo (i + 1) result2 (n + k)
        else .ok (true, result1, n)

/-- Go `colorGraph(vertex)` with a recursion budget, as in `colorGraphFuel`,
and the count of the calls that exhausted their colours. -/
def colorGraphFuelCount (adjacencyList : List (List Nat)) (numberOfColors : Nat) :
    Nat → Nat → List Nat → Except Fault (Bool × List Nat × Nat)
  | 0, _, _ => .error .outOfFuel
  | fuel + 1, vertex, result =>
    colorLoopCount adjacencyList
      (colorGraphFuelCount adjacencyList numberOfColors fuel (vertex + 1))
      vertex (numberOfColors - 1) 1 result 0

/-- Go `colorGraph(vertex)` as in `colorGraph`: the flag, the final `result`,
and the number of calls of `colorGraph` in the run that returned false, that is
the number of times the search backtracked. -/
def colorGraphCount (adjacencyList : List (List Nat)) (numberOfColors : Nat)
    (result : List Nat) (vertex : Nat) : Except Fault (Bool × List Nat × Nat) :=
  colorGraphFuelCount adjacencyList numberOfColors (result.length + 1) vertex result

/-- Forget the count. -/
def dropCount : Except Fault (Bool × List Nat × Nat) → Except Fault (Bool × List Nat)
  | .error e => .error e
  | .ok (flag, result, _) => .ok (flag, result)

/-! ## First-fit colourings -/

/-- The neighbours of `v` of lower id: the vertices coloured before `v`. -/
def lowerNeighbours (adjacencyList : List (List Nat)) (v : Nat) : List Nat :=
  (neighbours adjacencyList v).filter (fun b => decide (b < v))

/-- Every vertex has fewer distinct neighbours of lower id than there are
usable colours. -/
def FewLower (adjacencyList : List (List Nat)) (K : Nat) : Prop :=
  ∀ v, v < adjacencyList.length →
    (lowerNeighbours adjacencyList v).toFinset.card + 1 ≤ K - 1

/-- From `v` on, every vertex holds the first colour of `1..K-1` that none of
its neighbours of lower id holds. -/
def FirstFitFrom (adjacencyList : List (List Nat)) (K v : Nat) (r : List Nat) : Prop :=
  ∀ w, v ≤ w → w < r.length →
    1 ≤ colorAt r w ∧ colorAt r w < K ∧
      (∀ b ∈ neighbours adjacencyList w, b < w → colorAt r b ≠ colorAt r w) ∧
      ∀ j, 1 ≤ j → j < colorAt r w →
        ∃ b ∈ neighbours adjacencyList w, b < w ∧ colorAt r b = j

/-! ## Instructions covered by intervals -/

/-- The instruction index `t` lies in the interval of `u`. -/
def covers (u : variableUsage) (t : Nat) : Bool := decide (u.first ≤ t ∧ t ≤ u.last)

/-- The number of variables with `first ≤ t ≤ last`. -/
def cover (vals : List variableUsage) (t : Nat) : Nat :=
  (vals.filter (fun u => covers u t)).length

/-- The assignment `r` comes before `c` in the lexicographic order on the
vertices `0..V-1`: they agree below some vertex, at which `r` holds the smaller
colour. -/
def LexBefore (V : Nat) (r c : List Nat) : Prop :=
  ∃ v, v < V ∧ (∀ w, w < v → colorAt c w = colorAt r w) ∧ colorAt r v < colorAt c v

/-! # Properties -/

/-! ## Basic facts on checked indexing -/

theorem index_eq_ok {α : Type} {xs : List α} {i : Nat} {x : α} :
    index xs i = .ok x ↔ xs[i]? = some x := by
  unfold index
  cases h : xs[i]? <;> simp

theorem index_of_lt {α : Type} {xs : List α} {i : Nat} (h : i < xs.length) :
    index xs i = .ok xs[i] := by
  rw [index_eq_ok]; exact List.getElem?_eq_getElem h

theorem index_eq_error {α : Type} {xs : List α} {i : Nat} {e : Fault}
    (h : index xs i = .error e) : xs.length ≤ i := by
  unfold index at h
  cases h1 : xs[i]? with
  | none => exact List.getElem?_eq_none_iff.mp h1
  | some x => rw [h1] at h; cases h

theorem assign_eq_ok {α : Type} {xs ys : List α} {i : Nat} {x : α} :
    assign xs i x = .ok ys ↔ i < xs.length ∧ ys = xs.set i x := by
  unfold assign
  split <;> simp_all [eq_comm]

/-- The value `isPossibleLoop` returns when no read faults. -/
theorem isPossibleLoop_eq_ok_true {result : List Nat} {color : Nat} {nbrs : List Nat} :
    isPossibleLoop result color nbrs = .ok true ↔
      ∀ b ∈ nbrs, ∃ c, result[b]? = some c ∧ c ≠ color := by
  induction nbrs with
  | nil => simp [isPossibleLoop]
  | cons b rest ih =>
    unfold isPossibleLoop
    cases h : index result b with
    | error e =>
      have := index_eq_error h
      simp only [List.mem_cons, forall_eq_or_imp]
      constructor
      · intro h0; cases h0
      · rintro ⟨⟨c, hc, -⟩, -⟩
        have := List.getElem?_eq_none_iff.mpr this
        rw [this] at hc; cases hc
    | ok c =>
      rw [index_eq_ok] at h
      by_cases hc : c = color
      · simp [hc, h] 
      · simp [hc, h, ih]

/-- When every neighbour is a valid index, `isPossibleLoop` returns a value. -/
theorem isPossibleLoop_total {result : List Nat} {color : Nat} {nbrs : List Nat}
    (h : ∀ b ∈ nbrs, b < result.length) :
    ∃ ok, isPossibleLoop result color nbrs = .ok ok := by
  induction nbrs with
  | nil => exact ⟨true, rfl⟩
  | cons b rest ih =>
    unfold isPossibleLoop
    rw [index_of_lt (h b (List.mem_cons_self _ _))]
    obtain ⟨ok, hok⟩ := ih (fun b hb => h b (List.mem_cons_of_mem _ hb))
    dsimp only
    split
    · exact ⟨false, rfl⟩
    · exact ⟨ok, hok⟩

/-! ## Invariants of the search -/

theorem Frame.refl (v : Nat) (result : List Nat) : Frame v result result :=
  ⟨rfl, fun _ _ => rfl⟩

theorem Frame.trans {v : Nat} {a b c : List Nat} (h1 : Frame v a b) (h2 : Frame v b c) :
    Frame v a c :=
  ⟨h2.1.trans h1.1, fun j hj => (h2.2 j hj).trans (h1.2 j hj)⟩

theorem Frame.mono {v w : Nat} {a b : List Nat} (h : Frame w a b) (hvw : v ≤ w) :
    Frame v a b :=
  ⟨h.1, fun j hj => h.2 j (lt_of_lt_of_le hj hvw)⟩

theorem colorAt_set_self {result : List Nat} {v : Nat} (i : Nat) (h : v < result.length) :
    colorAt (result.set v i) v = i := by
  simp [colorAt, List.getD_eq_getElem?_getD, h]

theorem colorAt_set_ne {result : List Nat} {v j : Nat} (i : Nat) (h : v ≠ j) :
    colorAt (result.set v i) j = colorAt result j := by
  simp [colorAt, List.getD_eq_getElem?_getD, List.getElem?_set_ne h]

theorem Frame.set {result : List Nat} (v i : Nat) : Frame v result (result.set v i) :=
  ⟨by simp, fun j hj => colorAt_set_ne i (Nat.ne_of_gt hj)⟩

theorem isPossible_eq_ok_true {adjacencyList : List (List Nat)} {result : List Nat}
    {vertex color : Nat} (h : isPossible adjacencyList result vertex color = .ok true) :
    ∀ b ∈ adjacencyList.getD vertex [], colorAt result b ≠ color := by
  unfold isPossible at h
  cases h1 : index adjacencyList vertex with
  | error e => rw [h1] at h; cases h
  | ok nbrs =>
    rw [h1] at h
    rw [index_eq_ok] at h1
    intro b hb
    have hb1 : b ∈ nbrs := by simpa [List.getD_eq_getElem?_getD, h1] using hb
    obtain ⟨c, hc, hne⟩ := isPossibleLoop_eq_ok_true.mp h b hb1
    simpa [colorAt, List.getD_eq_getElem?_getD, hc] using hne

/-- What a call `colorGraph(v)` guarantees about its outcome. -/
theorem colorLoop_spec {adjacencyList : List (List Nat)} {K v : Nat}
    {next : List Nat → Except Fault (Bool × List Nat)}
    (hnext : ∀ res flag r, next res = .ok (flag, r) →
      Frame (v + 1) res r ∧ (flag = true → ColouredFrom adjacencyList K (v + 1) r)) :
    ∀ (todo i : Nat) (result : List Nat) (flag : Bool) (r : List Nat),
      1 ≤ i → todo ≤ K - i →
      colorLoop adjacencyList next v todo i result = .ok (flag, r) →
      Frame v result r ∧ (flag = true → ColouredFrom adjacencyList K v r) := by
  intro todo
  induction todo with
  | zero =>
    intro i result flag r _ _ h
    simp only [colorLoop, Except.ok.injEq, Prod.mk.injEq] at h
    obtain ⟨rfl, rfl⟩ := h
    exact ⟨Frame.refl _ _, fun h => by cases h⟩
  | succ todo ih =>
    intro i result flag r hi hK h
    unfold colorLoop at h
    cases hp : isPossible adjacencyList result v i with
    | error e => rw [hp] at h; cases h
    | ok p =>
      rw [hp] at h
      cases p with
      | false => exact ih (i + 1) result flag r (by omega) (by omega) h
      | true =>
        dsimp only at h
        cases ha : assign result v i with
        | error e => rw [ha] at h; cases h
        | ok result1 =>
          rw [ha] at h
          obtain ⟨hv, rfl⟩ := assign_eq_ok.mp ha
          have hposs := isPossible_eq_ok_true hp
          dsimp only at h
          -- the facts about the vertex `v` itself, for any final `r` framed by `result.set v i`
          have key : ∀ r, Frame (v + 1) (result.set v i) r →
              ColouredFrom adjacencyList K (v + 1) r → ColouredFrom adjacencyList K v r := by
            intro r hf hc w hw hlt
            rcases Nat.eq_or_lt_of_le hw with rfl | hw1
            · have e1 : colorAt r v = i := by
                rw [hf.2 v (Nat.lt_succ_self v), colorAt_set_self i hv]
              refine ⟨by omega, by omega, fun b hb hbv => ?_⟩
              rw [e1, hf.2 b (by omega), colorAt_set_ne i (Nat.ne_of_gt hbv)]
              exact hposs b hb
            · exact hc w hw1 hlt
          split at h
          · cases hn : next (result.set v i) with
            | error e => rw [hn] at h; cases h
            | ok out =>
              rw [hn] at h
              obtain ⟨flag2, r2⟩ := out
              obtain ⟨hf2, hc2⟩ := hnext _ _ _ hn
              cases flag2 with
              | true =>
                simp only [Except.ok.injEq, Prod.mk.injEq] at h
                obtain ⟨rfl, rfl⟩ := h
                exact ⟨(Frame.set v i).trans (hf2.mono (Nat.le_succ v)),
                  fun _ => key _ hf2 (hc2 rfl)⟩
              | false =>
                dsimp only at h
                obtain ⟨hf3, hc3⟩ := ih (i + 1) r2 flag r (by omega) (by omega) h
                exact ⟨((Frame.set v i).trans (hf2.mono (Nat.le_succ v))).trans hf3, hc3⟩
          · rename_i hlast
            simp only [Except.ok.injEq, Prod.mk.injEq] at h
            obtain ⟨rfl, rfl⟩ := h
            refine ⟨Frame.set v i, fun _ => key _ (Frame.refl _ _) ?_⟩
            intro w hw hlt
            omega

/-- The outcome of `colorGraph(v)` with any budget: entries below `v` are left
alone, and on success every vertex from `v` on is properly coloured with
respect to its lower-numbered neighbours. -/
theorem colorGraphFuel_spec (adjacencyList : List (List Nat)) (K : Nat) :
    ∀ (fuel v : Nat) (result : List Nat) (flag : Bool) (r : List Nat),
      colorGraphFuel adjacencyList K fuel v result = .ok (flag, r) →
      Frame v result r ∧ (flag = true → ColouredFrom adjacencyList K v r) := by
  intro fuel
  induction fuel with
  | zero => intro v result flag r h; cases h
  | succ fuel ih =>
    intro v result flag r h
    unfold colorGraphFuel at h
    exact colorLoop_spec (fun res flag r h => ih (v + 1) res flag r h)
      (K - 1) 1 result flag r (le_refl 1) (le_refl _) h

/-! ## C1: a successful search leaves a proper colouring -/

/-- On a symmetric, irreflexive adjacency list over `0..V-1`, a call
`colorGraph(0)` that returns true leaves a proper colouring. -/
theorem properColoring_of_colorGraph {adjacencyList : List (List Nat)} {K V : Nat}
    {result r : List Nat} (hrange : InRange adjacencyList V)
    (hsymm : Symmetric adjacencyList) (hirr : Irreflexive adjacencyList)
    (hres : result.length = V)
    (h : colorGraph adjacencyList K result 0 = .ok (true, r)) :
    ProperColoring adjacencyList K r := by
  obtain ⟨hf, hc⟩ := colorGraphFuel_spec adjacencyList K _ 0 result true r h
  have hc := hc rfl
  have hlen : r.length = adjacencyList.length := by rw [hf.1, hres, hrange.1]
  refine ⟨hlen, fun a ha => ?_, fun a ha b hb => ?_⟩
  · obtain ⟨h1, h2, -⟩ := hc a (Nat.zero_le a) (by omega)
    exact ⟨h1, by omega⟩
  · have hbV : b < V := hrange.2 a (by rw [← hrange.1]; exact ha) b hb
    have hbl : b < adjacencyList.length := by rw [hrange.1]; exact hbV
    rcases Nat.lt_trichotomy a b with hab | hab | hab
    · have hba : a ∈ neighbours adjacencyList b := hsymm a ha b hb
      exact (hc b (Nat.zero_le b) (by omega)).2.2 a hba hab
    · subst hab
      exact absurd hb (hirr a ha)
    · exact ((hc a (Nat.zero_le a) (by omega)).2.2 b hb hab).symm

/-- C1. Coloring validity: for every palette size `K`, every `V ≥ 1` and every
symmetric, irreflexive adjacency list over the vertex ids `0..V-1`, if
`colorGraph(0)` returns true (from any initial `result` of length `V`) then every
vertex holds a colour in `1..K-1` and `result[a] ≠ result[b]` for every `a` and
every `b` in `adjacencyList[a]`.  (For `V = 0` no call returns true, so the bound
`V ≥ 1` is not a hypothesis.) -/
theorem colorGraph_valid (adjacencyList : List (List Nat)) (K V : Nat)
    (result r : List Nat) (hrange : InRange adjacencyList V)
    (hsymm : Symmetric adjacencyList) (hirr : Irreflexive adjacencyList)
    (hres : result.length = V)
    (h : colorGraph adjacencyList K result 0 = .ok (true, r)) :
    ProperColoring adjacencyList K r :=
  properColoring_of_colorGraph hrange hsymm hirr hres h

/-- The theorem `colorGraph_valid` applied to the path `0 - 1 - 2` with three
colours. -/
theorem colorGraph_valid_witness :
    InRange [[1], [0, 2], [1]] 3 ∧ Symmetric [[1], [0, 2], [1]] ∧
    Irreflexive [[1], [0, 2], [1]] ∧
    colorGraph [[1], [0, 2], [1]] 4 [0, 0, 0] 0 = .ok (true, [1, 2, 1]) ∧
      ProperColoring [[1], [0, 2], [1]] 4 [1, 2, 1] :=
  ⟨by decide, by decide, by decide, rfl, colorGraph_valid [[1], [0, 2], [1]] 4 3 [0, 0, 0] [1, 2, 1] (by decide)
    (by decide) (by decide) rfl rfl⟩

/-! ## The search returns: no fault, no exhausted budget -/

theorem isPossible_total {adjacencyList : List (List Nat)} {V : Nat} {result : List Nat}
    (hrange : InRange adjacencyList V) (hres : result.length = V) {v : Nat} (hv : v < V)
    (color : Nat) : ∃ ok, isPossible adjacencyList result v color = .ok ok := by
  unfold isPossible
  have hv1 : v < adjacencyList.length := by rw [hrange.1]; exact hv
  rw [index_of_lt hv1]
  apply isPossibleLoop_total
  intro b hb
  rw [hres]
  apply hrange.2 v hv b
  simpa [neighbours, List.getD_eq_getElem?_getD, List.getElem?_eq_getElem hv1] using hb

theorem colorLoop_total {adjacencyList : List (List Nat)} {V v : Nat}
    {next : List Nat → Except Fault (Bool × List Nat)}
    (hrange : InRange adjacencyList V) (hv : v < V)
    (hnext : v + 1 < V → ∀ res, res.length = V →
      ∃ flag r, next res = .ok (flag, r) ∧ r.length = V) :
    ∀ (todo i : Nat) (result : List Nat), result.length = V →
      ∃ flag r, colorLoop adjacencyList next v todo i result = .ok (flag, r) ∧
        r.length = V := by
  intro todo
  induction todo with
  | zero => intro i result hres; exact ⟨false, result, rfl, hres⟩
  | succ todo ih =>
    intro i result hres
    unfold colorLoop
    obtain ⟨p, hp⟩ := isPossible_total hrange hres hv i
    rw [hp]
    cases p with
    | false => exact ih (i + 1) result hres
    | true =>
      dsimp only
      have ha : assign result v i = .ok (result.set v i) :=
        assign_eq_ok.mpr ⟨by omega, rfl⟩
      rw [ha]
      dsimp only
      have hlen : (result.set v i).length = V := by simpa using hres
      split
      · rename_i hlt
        obtain ⟨flag2, r2, hn, hr2⟩ := hnext (by omega) _ hlen
        rw [hn]
        cases flag2 with
        | true => exact ⟨true, r2, rfl, hr2⟩
        | false => exact ih (i + 1) r2 hr2
      · exact ⟨true, _, rfl, hlen⟩

/-- On an adjacency list over `0..V-1`, `colorGraph(v)` with `v < V` returns a
flag and a `result` of the same length whenever the budget covers the `V - v`
nested calls. -/
theorem colorGraphFuel_total {adjacencyList : List (List Nat)} {V : Nat} (K : Nat)
    (hrange : InRange adjacencyList V) :
    ∀ (fuel v : Nat) (result : List Nat), v < V → V ≤ fuel + v → result.length = V →
      ∃ flag r, colorGraphFuel adjacencyList K fuel v result = .ok (flag, r) ∧
        r.length = V := by
  intro fuel
  induction fuel with
  | zero => intro v result hv hf; omega
  | succ fuel ih =>
    intro v result hv hf hres
    unfold colorGraphFuel
    exact colorLoop_total hrange hv
      (fun hlt res hr => ih (v + 1) res hlt (by omega) hr) _ _ result hres

theorem colorGraph_total {adjacencyList : List (List Nat)} {V : Nat} (K : Nat)
    (hrange : InRange adjacencyList V) {v : Nat} (hv : v < V) {result : List Nat}
    (hres : result.length = V) :
    ∃ flag r, colorGraph adjacencyList K result v = .ok (flag, r) ∧ r.length = V :=
  colorGraphFuel_total K hrange _ v result hv (by omega) hres

/-! ## First-fit steps of the colour loop -/

/-- A colour held by a neighbour is rejected by `isPossible`. -/
theorem isPossible_eq_ok_false {adjacencyList : List (List Nat)} {V : Nat}
    {result : List Nat} (hrange : InRange adjacencyList V) (hres : result.length = V)
    {v : Nat} (hv : v < V) {color b : Nat} (hb : b ∈ neighbours adjacencyList v)
    (hc : colorAt result b = color) :
    isPossible adjacencyList result v color = .ok false := by
  obtain ⟨p, hp⟩ := isPossible_total hrange hres hv color
  cases p with
  | false => exact hp
  | true => exact absurd hc (isPossible_eq_ok_true hp b hb)

/-- A colour held by no neighbour is accepted by `isPossible`. -/
theorem isPossible_eq_ok_true_of {adjacencyList : List (List Nat)} {V : Nat}
    {result : List Nat} (hrange : InRange adjacencyList V) (hres : result.length = V)
    {v : Nat} (hv : v < V) {color : Nat}
    (hc : ∀ b ∈ neighbours adjacencyList v, colorAt result b ≠ color) :
    isPossible adjacencyList result v color = .ok true := by
  have hv1 : v < adjacencyList.length := by rw [hrange.1]; exact hv
  unfold isPossible
  rw [index_of_lt hv1, isPossibleLoop_eq_ok_true]
  intro b hb
  have hb1 : b ∈ neighbours adjacencyList v := by
    simpa [neighbours, List.getD_eq_getElem?_getD, List.getElem?_eq_getElem hv1] using hb
  have hbV : b < result.length := by rw [hres]; exact hrange.2 v hv b hb1
  refine ⟨result[b], List.getElem?_eq_getElem hbV, ?_⟩
  have := hc b hb1
  simpa [colorAt, List.getD_eq_getElem?_getD, List.getElem?_eq_getElem hbV] using this

/-- Colours that `isPossible` rejects are passed over by the loop. -/
theorem colorLoop_skip {adjacencyList : List (List Nat)}
    {next : List Nat → Except Fault (Bool × List Nat)} {v : Nat} {result : List Nat} :
    ∀ (k todo i : Nat),
      (∀ j, i ≤ j → j < i + k → isPossible adjacencyList result v j = .ok false) →
      colorLoop adjacencyList next v (todo + k) i result =
        colorLoop adjacencyList next v todo (i + k) result := by
  intro k
  induction k with
  | zero => intro todo i _; rfl
  | succ k ih =>
    intro todo i h
    have h0 := h i (le_refl i) (by omega)
    have e : todo + (k + 1) = (todo + k) + 1 := by omega
    rw [e, colorLoop, h0]
    dsimp only
    rw [ih todo (i + 1) (fun j h1 h2 => h j (by omega) (by omega))]
    congr 1
    omega

/-- First fit at the last vertex: when the colours `1..c-1` are rejected and
`c ≤ K-1` is accepted, the call at the last vertex stores `c` and returns true. -/
theorem colorLoop_first_fit_last {adjacencyList : List (List Nat)}
    {next : List Nat → Except Fault (Bool × List Nat)} {K v c : Nat} {result : List Nat}
    (hc1 : 1 ≤ c) (hcK : c < K) (hv : v + 1 = result.length)
    (hrej : ∀ j, 1 ≤ j → j < c → isPossible adjacencyList result v j = .ok false)
    (hacc : isPossible adjacencyList result v c = .ok true) :
    colorLoop adjacencyList next v (K - 1) 1 result = .ok (true, result.set v c) := by
  have e : K - 1 = (K - 1 - (c - 1)) + (c - 1) := by omega
  rw [e, colorLoop_skip (c - 1) _ 1 (fun j h1 h2 => hrej j h1 (by omega))]
  have e1 : 1 + (c - 1) = c := by omega
  have e2 : K - 1 - (c - 1) = (K - 1 - c) + 1 := by omega
  rw [e1, e2, colorLoop, hacc]
  dsimp only
  rw [assign_eq_ok.mpr ⟨by omega, rfl⟩]
  simp [hv]

/-- First fit at an inner vertex: when the colours `1..c-1` are rejected,
`c ≤ K-1` is accepted and the nested call succeeds, the call returns true with
the `result` of the nested call. -/
theorem colorLoop_first_fit_inner {adjacencyList : List (List Nat)}
    {next : List Nat → Except Fault (Bool × List Nat)} {K v c : Nat} {result r : List Nat}
    (hc1 : 1 ≤ c) (hcK : c < K) (hv : v + 1 < result.length)
    (hrej : ∀ j, 1 ≤ j → j < c → isPossible adjacencyList result v j = .ok false)
    (hacc : isPossible adjacencyList result v c = .ok true)
    (hnext : next (result.set v c) = .ok (true, r)) :
    colorLoop adjacencyList next v (K - 1) 1 result = .ok (true, r) := by
  have e : K - 1 = (K - 1 - (c - 1)) + (c - 1) := by omega
  rw [e, colorLoop_skip (c - 1) _ 1 (fun j h1 h2 => hrej j h1 (by omega))]
  have e1 : 1 + (c - 1) = c := by omega
  have e2 : K - 1 - (c - 1) = (K - 1 - c) + 1 := by omega
  rw [e1, e2, colorLoop, hacc]
  dsimp only
  rw [assign_eq_ok.mpr ⟨by omega, rfl⟩]
  simp [hv, hnext]

/-! ## C8: complete graphs -/

theorem length_firstColours (V v : Nat) : (firstColours V v).length = V := by
  simp [firstColours]

theorem colorAt_firstColours {V v j : Nat} (hj : j < V) :
    colorAt (firstColours V v) j = if j < v then j + 1 else 0 := by
  simp [colorAt, firstColours, List.getD_eq_getElem?_getD, hj]

theorem firstColours_zero (V : Nat) : firstColours V 0 = List.replicate V 0 := by
  apply List.ext_getElem
  · simp [firstColours]
  · intro n h1 h2
    simp [firstColours]

theorem firstColours_set {V v : Nat} (hv : v < V) :
    (firstColours V v).set v (v + 1) = firstColours V (v + 1) := by
  apply List.ext_getElem
  · simp [firstColours]
  · intro n h1 h2
    simp only [firstColours, List.getElem_set, List.getElem_map, List.getElem_range]
    split
    · subst_vars; simp
    · rename_i hne
      by_cases h : n < v
      · simp [h, Nat.lt_succ_of_lt h]
      · have : ¬ n < v + 1 := by omega
        simp [h, this]

theorem IsComplete.inRange {adjacencyList : List (List Nat)} {V : Nat}
    (h : IsComplete adjacencyList V) : InRange adjacencyList V :=
  ⟨h.1, fun a ha b hb => ((h.2 a ha).1 b hb).1⟩

/-- On a complete graph with at least `V` usable colours the descent from vertex
`v` gives vertex `j` the colour `j + 1` and never comes back. -/
theorem colorGraphFuel_complete {adjacencyList : List (List Nat)} {K V : Nat}
    (hc : IsComplete adjacencyList V) (hK : V ≤ K - 1) :
    ∀ (fuel v : Nat), v < V → V ≤ fuel + v →
      colorGraphFuel adjacencyList K fuel v (firstColours V v) =
        .ok (true, firstColours V V) := by
  intro fuel
  induction fuel with
  | zero => intro v hv hf; omega
  | succ fuel ih =>
    intro v hv hf
    have hrange := hc.inRange
    have hlen := length_firstColours V v
    have hrej : ∀ j, 1 ≤ j → j < v + 1 →
        isPossible adjacencyList (firstColours V v) v j = .ok false := by
      intro j h1 h2
      apply isPossible_eq_ok_false hrange hlen hv (b := j - 1)
      · exact (hc.2 v hv).2 (j - 1) (by omega) (by omega)
      · rw [colorAt_firstColours (by omega)]
        have : j - 1 < v := by omega
        simp [this]; omega
    have hacc : isPossible adjacencyList (firstColours V v) v (v + 1) = .ok true := by
      apply isPossible_eq_ok_true_of hrange hlen hv
      intro b hb
      obtain ⟨hbV, hbv⟩ := (hc.2 v hv).1 b hb
      rw [colorAt_firstColours hbV]
      split <;> omega
    unfold colorGraphFuel
    by_cases hlast : v + 1 < V
    · apply colorLoop_first_fit_inner (c := v + 1) (by omega) (by omega)
        (by rw [hlen]; exact hlast) hrej hacc
      rw [firstColours_set hv]
      exact ih (v + 1) hlast (by omega)
    · have hV : v + 1 = V := by omega
      rw [colorLoop_first_fit_last (c := v + 1) (by omega) (by omega)
        (by rw [hlen]; exact hV) hrej hacc, firstColours_set hv, hV]

/-- A proper colouring of the complete graph on `V` vertices needs `V` colours. -/
theorem IsComplete.card_le {adjacencyList : List (List Nat)} {K V : Nat} {r : List Nat}
    (hc : IsComplete adjacencyList V) (hp : ProperColoring adjacencyList K r) :
    V ≤ K - 1 := by
  obtain ⟨-, hcol, hne⟩ := hp
  rw [hc.1] at hcol hne
  have h := Finset.card_le_card_of_injOn (s := Finset.range V) (t := Finset.Icc 1 (K - 1))
    (colorAt r)
    (fun a ha => Finset.mem_Icc.mpr (hcol a (Finset.mem_range.mp ha)))
    (by
      intro a ha b hb hab
      by_contra hne1
      have ha1 := Finset.mem_range.mp (Finset.mem_coe.mp ha)
      have hb1 := Finset.mem_range.mp (Finset.mem_coe.mp hb)
      exact hne a ha1 b ((hc.2 a ha1).2 b hb1 (fun e => hne1 e.symm)) hab)
  simpa using h

/-- C8. Feasibility boundary: for every `V ≥ 1` and every palette size `K`, on
the complete graph on `V` vertices, starting from the all-zero assignment,
`colorGraph(0)` returns a flag, and the flag is true if and only if `K - 1 ≥ V`. -/
theorem colorGraph_complete_iff (adjacencyList : List (List Nat)) (K V : Nat)
    (hV : 1 ≤ V) (hc : IsComplete adjacencyList V) :
    ∃ flag r, colorGraph adjacencyList K (List.replicate V 0) 0 = .ok (flag, r) ∧
      (flag = true ↔ V ≤ K - 1) := by
  by_cases hK : V ≤ K - 1
  · refine ⟨true, firstColours V V, ?_, by simp [hK]⟩
    rw [← firstColours_zero]
    exact colorGraphFuel_complete hc hK _ 0 (by omega) (by simp [length_firstColours])
  · have h0 : 0 < V := by omega
    obtain ⟨flag, r, h, -⟩ := colorGraph_total K hc.inRange h0
      (List.length_replicate V 0)
    refine ⟨flag, r, h, ?_⟩
    constructor
    · intro hflag
      subst hflag
      have hsymm : Symmetric adjacencyList := by
        intro a ha b hb
        rw [hc.1] at ha
        obtain ⟨hbV, hba⟩ := (hc.2 a ha).1 b hb
        exact (hc.2 b hbV).2 a ha (fun e => hba e.symm)
      have hirr : Irreflexive adjacencyList := by
        intro a ha hmem
        rw [hc.1] at ha
        exact ((hc.2 a ha).1 a hmem).2 rfl
      exact hc.card_le (properColoring_of_colorGraph hc.inRange hsymm hirr
        (List.length_replicate V 0) h)
    · intro h1; exact absurd h1 hK

/-- The theorem `colorGraph_complete_iff` applied to the triangle with the
palette of size 3: two usable colours are too few. -/
theorem colorGraph_complete_iff_witness :
    1 ≤ 3 ∧ IsComplete [[1, 2], [0, 2], [0, 1]] 3 ∧
    ∃ flag r, colorGraph [[1, 2], [0, 2], [0, 1]] 3 (List.replicate 3 0) 0 = .ok (flag, r) ∧
      (flag = true ↔ 3 ≤ 3 - 1) :=
  ⟨by decide, by decide,
    colorGraph_complete_iff [[1, 2], [0, 2], [0, 1]] 3 3 (by decide) (by decide)⟩

/-! ## C2: the search can miss a colouring -/

/-- C2 as stated fails. The claim speaks of every symmetric, irreflexive
adjacency list: with the palette of size 12, the graph `cliquePathGraph` on 14
vertices has a proper colouring with the colours `1..11`, yet `colorGraph(0)`
started from the all-zero assignment returns false; so does the call on
`pathGraph` with the palette of size 3, although `1,2,1,2,2` is a proper
colouring.  The colours left at the higher vertices by an abandoned branch are
never reset, and `isPossible` rejects them at the lower vertices when the search
comes back.  (Neither graph is one that `parseFile` builds; on those the search
is complete, see `parsed_search`.) -/
theorem colorGraph_misses_colouring :
    (InRange cliquePathGraph 14 ∧ Symmetric cliquePathGraph ∧
      Irreflexive cliquePathGraph ∧
      ProperColoring cliquePathGraph 12 [1, 2, 3, 4, 5, 6, 7, 8, 9, 10, 11, 10, 11, 11] ∧
      colorGraph cliquePathGraph 12 (List.replicate 14 0) 0 =
        .ok (false, [1, 2, 3, 4, 5, 6, 7, 8, 9, 10, 10, 11, 11, 0])) ∧
    (InRange pathGraph 5 ∧ Symmetric pathGraph ∧ Irreflexive pathGraph ∧
      ProperColoring pathGraph 3 [1, 2, 1, 2, 2] ∧
      colorGraph pathGraph 3 [0, 0, 0, 0, 0] 0 = .ok (false, [1, 1, 2, 2, 0])) :=
  ⟨⟨by decide, by decide, by decide, by decide, rfl⟩,
    ⟨by decide, by decide, by decide, by decide, rfl⟩⟩

/-! ## The map `allVariables` -/

theorem mapGet_eq_none {m : VarMap} {k : String} :
    mapGet m k = none ↔ k ∉ m.map Prod.fst := by
  induction m with
  | nil => simp [mapGet]
  | cons e rest ih =>
    obtain ⟨k0, v0⟩ := e
    unfold mapGet
    by_cases h : k0 = k
    · simp [h]
    · simp [h, ih, Ne.symm h]

theorem mem_of_mapGet {m : VarMap} {k : String} {v : variableUsage}
    (h : mapGet m k = some v) : (k, v) ∈ m := by
  induction m with
  | nil => simp [mapGet] at h
  | cons e rest ih =>
    obtain ⟨k0, v0⟩ := e
    unfold mapGet at h
    by_cases h0 : k0 = k
    · simp [h0] at h; simp [h0, h]
    · simp [h0] at h; exact List.mem_cons_of_mem _ (ih h)

theorem keys_mapPut_of_mem {m : VarMap} {k : String} (v : variableUsage)
    (h : k ∈ m.map Prod.fst) : (mapPut m k v).map Prod.fst = m.map Prod.fst := by
  induction m with
  | nil => simp at h
  | cons e rest ih =>
    obtain ⟨k0, v0⟩ := e
    unfold mapPut
    by_cases h0 : k0 = k
    · simp [h0]
    · have : k ∈ rest.map Prod.fst := by
        simpa [Ne.symm h0] using h
      simp [h0, ih this]

theorem mapPut_of_not_mem {m : VarMap} {k : String} (v : variableUsage)
    (h : k ∉ m.map Prod.fst) : mapPut m k v = m ++ [(k, v)] := by
  induction m with
  | nil => rfl
  | cons e rest ih =>
    obtain ⟨k0, v0⟩ := e
    unfold mapPut
    have h0 : k0 ≠ k := by
      intro e; apply h; simp [e]
    have : k ∉ rest.map Prod.fst := by
      intro hm; apply h; simp only [List.map_cons, List.mem_cons]; exact Or.inr hm
    simp [h0, ih this]

/-- With distinct keys, an entry of the map after `allVariables[k] = v` is the
entry `(k, v)` or an entry of another key that was there before. -/
theorem mem_mapPut {m : VarMap} {k : String} {v : variableUsage} {e : String × variableUsage}
    (hn : (m.map Prod.fst).Nodup) (h : e ∈ mapPut m k v) :
    e = (k, v) ∨ (e ∈ m ∧ e.1 ≠ k) := by
  induction m with
  | nil => simp [mapPut] at h; exact Or.inl h
  | cons e0 rest ih =>
    obtain ⟨k0, v0⟩ := e0
    rw [List.map_cons, List.nodup_cons] at hn
    unfold mapPut at h
    by_cases h0 : k0 = k
    · simp only [h0, if_true, List.mem_cons] at h
      rcases h with h | h
      · exact Or.inl h
      · refine Or.inr ⟨List.mem_cons_of_mem _ h, ?_⟩
        intro he
        apply hn.1
        rw [h0, ← he]
        exact List.mem_map.mpr ⟨e, h, rfl⟩
    · simp only [h0, if_false, List.mem_cons] at h
      rcases h with h | h
      · refine Or.inr ⟨by simp [h], ?_⟩
        rw [h]; exact h0
      · rcases ih hn.2 h with h1 | ⟨h1, h2⟩
        · exact Or.inl h1
        · exact Or.inr ⟨List.mem_cons_of_mem _ h1, h2⟩

theorem mem_mapPut_self {m : VarMap} {k : String} {v : variableUsage} :
    (k, v) ∈ mapPut m k v := by
  induction m with
  | nil => simp [mapPut]
  | cons e0 rest ih =>
    obtain ⟨k0, v0⟩ := e0
    unfold mapPut
    by_cases h0 : k0 = k
    · simp [h0]
    · simp [h0, ih]

/-- Overwriting an entry by one of the same `index` keeps the ids in place. -/
theorem ids_mapPut_of_get {m : VarMap} {k : String} {u v : variableUsage}
    (h : mapGet m k = some u) (hv : v.index = u.index) :
    (values (mapPut m k v)).map (fun x => x.index) = (values m).map (fun x => x.index) := by
  induction m with
  | nil => simp [mapGet] at h
  | cons e0 rest ih =>
    obtain ⟨k0, v0⟩ := e0
    unfold mapGet at h
    unfold mapPut
    by_cases h0 : k0 = k
    · simp only [h0, if_true, Option.some.injEq] at h
      simp [h0, values, hv, h]
    · simp only [h0, if_false] at h
      have := ih h
      simp only [values] at this
      simp [h0, values, this]

/-! ## The instruction under the reading head -/

theorem paramsAt_snoc_lt {ins : List (List String)} {c : List String} {t : Nat}
    (h : t < ins.length) : paramsAt (ins ++ [c]) t = paramsAt ins t := by
  simp [paramsAt, List.getD_eq_getElem?_getD, List.getElem?_append_left h]

theorem paramsAt_snoc_eq (ins : List (List String)) (c : List String) :
    paramsAt (ins ++ [c]) ins.length = c := by
  simp [paramsAt, List.getD_eq_getElem?_getD]

theorem paramsAt_of_le {L : List (List String)} {t : Nat} (h : L.length ≤ t) :
    paramsAt L t = [] := by
  simp [paramsAt, List.getD_eq_getElem?_getD, List.getElem?_eq_none_iff.mpr h]

theorem mem_flatten_of_mem_paramsAt {L : List (List String)} {t : Nat} {x : String}
    (h : x ∈ paramsAt L t) : x ∈ L.flatten := by
  by_cases ht : t < L.length
  · rw [List.mem_flatten]
    refine ⟨L[t], List.getElem_mem ht, ?_⟩
    simpa [paramsAt, List.getD_eq_getElem?_getD, List.getElem?_eq_getElem ht] using h
  · rw [paramsAt_of_le (by omega)] at h
    cases h

theorem exists_mem_paramsAt {L : List (List String)} {x : String} (h : x ∈ L.flatten) :
    ∃ t, t < L.length ∧ x ∈ paramsAt L t := by
  rw [List.mem_flatten] at h
  obtain ⟨l, hl, hx⟩ := h
  obtain ⟨t, ht, rfl⟩ := List.getElem_of_mem hl
  exact ⟨t, ht, by
    simpa [paramsAt, List.getD_eq_getElem?_getD, List.getElem?_eq_getElem ht] using hx⟩

theorem mem_paramsAt_snoc_snoc {ins : List (List String)} {cur : List String}
    {p x : String} {t : Nat} :
    x ∈ paramsAt (ins ++ [cur ++ [p]]) t ↔
      x ∈ paramsAt (ins ++ [cur]) t ∨ (t = ins.length ∧ x = p) := by
  rcases Nat.lt_trichotomy t ins.length with h | h | h
  · rw [paramsAt_snoc_lt h, paramsAt_snoc_lt h]
    constructor
    · exact Or.inl
    · rintro (h1 | ⟨h1, -⟩)
      · exact h1
      · omega
  · subst h
    rw [paramsAt_snoc_eq, paramsAt_snoc_eq]
    simp
  · rw [paramsAt_of_le (by simp; omega), paramsAt_of_le (by simp; omega)]
    constructor
    · intro h1; cases h1
    · rintro (h1 | ⟨h1, -⟩)
      · cases h1
      · omega

theorem flatten_snoc_snoc (ins : List (List String)) (cur : List String) (p : String) :
    (ins ++ [cur ++ [p]]).flatten = (ins ++ [cur]).flatten ++ [p] := by
  simp [List.flatten_append]

theorem mem_paramsAt_snoc_nil {L : List (List String)} {x : String} {t : Nat} :
    x ∈ paramsAt (L ++ [[]]) t ↔ x ∈ paramsAt L t := by
  rcases Nat.lt_trichotomy t L.length with h | h | h
  · rw [paramsAt_snoc_lt h]
  · subst h
    rw [paramsAt_snoc_eq, paramsAt_of_le (le_refl _)]
  · rw [paramsAt_of_le (by simp; omega), paramsAt_of_le (by omega)]
/-! ## The reading loop keeps the variable table -/

theorem FirstAt.extend {ins : List (List String)} {cur : List String} {x : String} {f : Nat}
    (p : String) (h : FirstAt (ins ++ [cur]) x f) : FirstAt (ins ++ [cur ++ [p]]) x f := by
  refine ⟨mem_paramsAt_snoc_snoc.mpr (Or.inl h.1), fun t ht hx => ?_⟩
  rcases mem_paramsAt_snoc_snoc.mp hx with h1 | ⟨h1, -⟩
  · exact h.2 t ht h1
  · have hf : f < (ins ++ [cur]).length := by
      by_contra hge
      have := h.1
      rw [paramsAt_of_le (by omega)] at this
      cases this
    simp at hf
    omega

theorem LastAt.extend_ne {ins : List (List String)} {cur : List String} {x p : String} {l : Nat}
    (hne : x ≠ p) (h : LastAt (ins ++ [cur]) x l) : LastAt (ins ++ [cur ++ [p]]) x l := by
  refine ⟨mem_paramsAt_snoc_snoc.mpr (Or.inl h.1), fun t ht hx => ?_⟩
  rcases mem_paramsAt_snoc_snoc.mp hx with h1 | ⟨-, h1⟩
  · exact h.2 t ht h1
  · exact hne h1

theorem lastAt_snoc_self (ins : List (List String)) (cur : List String) (p : String) :
    LastAt (ins ++ [cur ++ [p]]) p ins.length := by
  refine ⟨by rw [paramsAt_snoc_eq]; simp, fun t ht => ?_⟩
  rw [paramsAt_of_le (by simp; omega)]
  simp

theorem order_snoc {F : List String} {vs : List String} (p : String)
    (hmem : ∀ x ∈ vs, x ∈ F)
    (h : vs.Pairwise (fun x y => F.indexOf x < F.indexOf y)) :
    vs.Pairwise (fun x y => (F ++ [p]).indexOf x < (F ++ [p]).indexOf y) := by
  refine h.imp_of_mem ?_
  intro a b ha hb hab
  rw [List.indexOf_append_of_mem (hmem a ha), List.indexOf_append_of_mem (hmem b hb)]
  exact hab

/-- Visiting one more parameter `p` of the instruction under the reading head
turns the table of the instructions read so far into the table of the
instructions with `p` added. -/
theorem IsTableOf.visitParam {ins : List (List String)} {cur : List String}
    {m : VarMap} {vs : List String} (p : String) (h : IsTableOf (ins ++ [cur]) m vs) :
    IsTableOf (ins ++ [cur ++ [p]]) (visitParam ins.length (m, vs) p).1
      (visitParam ins.length (m, vs) p).2 := by
  have hmemF : ∀ x ∈ vs, x ∈ (ins ++ [cur]).flatten := fun x hx => ((h.mem x).mp hx).1
  have hkeys : ∀ e ∈ m, e.1 ∈ vs := fun e he => by
    rw [← h.keys]; exact List.mem_map.mpr ⟨e, he, rfl⟩
  have hlenm : m.length = vs.length := by rw [← h.keys]; simp
  unfold GraphColoring.visitParam
  by_cases hq : len p ≤ 2
  · rw [if_pos hq]
    dsimp only
    cases hg : mapGet m p with
    | some u =>
      dsimp only
      have hpm : (p, u) ∈ m := mem_of_mapGet hg
      have hpk : p ∈ m.map Prod.fst := List.mem_map.mpr ⟨(p, u), hpm, rfl⟩
      have hpv : p ∈ vs := hkeys _ hpm
      have hnk : (m.map Prod.fst).Nodup := by rw [h.keys]; exact h.nodup
      refine ⟨?_, h.nodup, ?_, ?_, ?_, ?_, ?_⟩
      · rw [keys_mapPut_of_mem _ hpk, h.keys]
      · intro x
        rw [flatten_snoc_snoc, List.mem_append, h.mem x]
        constructor
        · rintro ⟨h1, h2⟩; exact ⟨Or.inl h1, h2⟩
        · rintro ⟨h1 | h1, h2⟩
          · exact ⟨h1, h2⟩
          · simp only [List.mem_singleton] at h1
            subst h1
            exact (h.mem x).mp hpv
      · rw [flatten_snoc_snoc]; exact order_snoc p hmemF h.order
      · have e1 : (mapPut m p { u with last := ins.length }).length = m.length := by
          have := congrArg List.length (keys_mapPut_of_mem { u with last := ins.length } hpk)
          simpa using this
        rw [e1, ← h.ids]
        exact ids_mapPut_of_get hg rfl
      · intro e he
        rcases mem_mapPut hnk he with rfl | ⟨h1, -⟩
        · exact (h.first _ hpm).extend p
        · exact (h.first e h1).extend p
      · intro e he
        rcases mem_mapPut hnk he with rfl | ⟨h1, h2⟩
        · exact lastAt_snoc_self ins cur p
        · exact (h.last e h1).extend_ne h2
    | none =>
      dsimp only
      have hpk : p ∉ m.map Prod.fst := mapGet_eq_none.mp hg
      have hpv : p ∉ vs := by rw [← h.keys]; exact hpk
      have hpF : p ∉ (ins ++ [cur]).flatten := fun hF => hpv ((h.mem p).mpr ⟨hF, hq⟩)
      rw [mapPut_of_not_mem _ hpk]
      refine ⟨?_, ?_, ?_, ?_, ?_, ?_, ?_⟩
      · simp [h.keys]
      · exact List.Nodup.append h.nodup (List.nodup_singleton p) (by simpa using hpv)
      · intro x
        rw [flatten_snoc_snoc, List.mem_append, List.mem_append, h.mem x]
        constructor
        · rintro (⟨h1, h2⟩ | h1)
          · exact ⟨Or.inl h1, h2⟩
          · simp only [List.mem_singleton] at h1
            subst h1
            exact ⟨Or.inr (List.mem_singleton_self _), hq⟩
        · rintro ⟨h1 | h1, h2⟩
          · exact Or.inl ⟨h1, h2⟩
          · exact Or.inr h1
      · rw [flatten_snoc_snoc, List.pairwise_append]
        refine ⟨order_snoc p hmemF h.order, List.pairwise_singleton _ _, ?_⟩
        intro a ha b hb
        simp only [List.mem_singleton] at hb
        subst hb
        rw [List.indexOf_append_of_mem (hmemF a ha), List.indexOf_append_of_not_mem hpF]
        have := List.indexOf_lt_length.mpr (hmemF a ha)
        omega
      · simp only [values, List.map_append, List.map_map, List.map_cons, List.map_nil,
          List.length_append, List.length_singleton, List.range_succ]
        have := h.ids
        simp only [values, List.map_map] at this
        rw [this, hlenm]
      · intro e he
        rcases List.mem_append.mp he with h1 | h1
        · exact (h.first e h1).extend p
        · simp only [List.mem_singleton] at h1
          subst h1
          refine ⟨by rw [paramsAt_snoc_eq]; simp, fun t ht hx => ?_⟩
          rcases mem_paramsAt_snoc_snoc.mp hx with h2 | ⟨h2, -⟩
          · exact hpF (mem_flatten_of_mem_paramsAt h2)
          · dsimp only at ht
            omega
      · intro e he
        rcases List.mem_append.mp he with h1 | h1
        · refine (h.last e h1).extend_ne ?_
          intro e1
          exact hpv (e1 ▸ hkeys e h1)
        · simp only [List.mem_singleton] at h1
          subst h1
          exact lastAt_snoc_self ins cur p
  · rw [if_neg hq]
    have hne : ∀ x ∈ vs, x ≠ p := by
      intro x hx e1
      exact hq (e1 ▸ ((h.mem x).mp hx).2)
    refine ⟨h.keys, h.nodup, ?_, ?_, h.ids, ?_, ?_⟩
    · intro x
      rw [flatten_snoc_snoc, List.mem_append, h.mem x]
      constructor
      · rintro ⟨h1, h2⟩; exact ⟨Or.inl h1, h2⟩
      · rintro ⟨h1 | h1, h2⟩
        · exact ⟨h1, h2⟩
        · simp only [List.mem_singleton] at h1
          subst h1
          exact absurd h2 hq
    · rw [flatten_snoc_snoc]; exact order_snoc p hmemF h.order
    · intro e he; exact (h.first e he).extend p
    · intro e he; exact (h.last e he).extend_ne (hne _ (hkeys e he))

theorem IsTableOf.visitParams {ins : List (List String)} (ps : List String) :
    ∀ {cur : List String} {m : VarMap} {vs : List String},
      IsTableOf (ins ++ [cur]) m vs →
      IsTableOf (ins ++ [cur ++ ps])
        (ps.foldl (GraphColoring.visitParam ins.length) (m, vs)).1
        (ps.foldl (GraphColoring.visitParam ins.length) (m, vs)).2 := by
  induction ps with
  | nil => intro cur m vs h; simpa using h
  | cons p ps ih =>
    intro cur m vs h
    have h1 := ih (h.visitParam p)
    simpa using h1

/-- An instruction without parameters at the end changes nothing in the table. -/
theorem isTableOf_snoc_nil {L : List (List String)} {m : VarMap} {vs : List String} :
    IsTableOf (L ++ [[]]) m vs ↔ IsTableOf L m vs := by
  have hF : (L ++ [[]]).flatten = L.flatten := by simp [List.flatten_append]
  constructor
  · intro h
    refine ⟨h.keys, h.nodup, ?_, ?_, h.ids, ?_, ?_⟩
    · intro x; rw [← hF]; exact h.mem x
    · rw [← hF]; exact h.order
    · intro e he
      obtain ⟨h1, h2⟩ := h.first e he
      exact ⟨mem_paramsAt_snoc_nil.mp h1, fun t ht hx => h2 t ht (mem_paramsAt_snoc_nil.mpr hx)⟩
    · intro e he
      obtain ⟨h1, h2⟩ := h.last e he
      exact ⟨mem_paramsAt_snoc_nil.mp h1, fun t ht hx => h2 t ht (mem_paramsAt_snoc_nil.mpr hx)⟩
  · intro h
    refine ⟨h.keys, h.nodup, ?_, ?_, h.ids, ?_, ?_⟩
    · intro x; rw [hF]; exact h.mem x
    · rw [hF]; exact h.order
    · intro e he
      obtain ⟨h1, h2⟩ := h.first e he
      exact ⟨mem_paramsAt_snoc_nil.mpr h1, fun t ht hx => h2 t ht (mem_paramsAt_snoc_nil.mp hx)⟩
    · intro e he
      obtain ⟨h1, h2⟩ := h.last e he
      exact ⟨mem_paramsAt_snoc_nil.mpr h1, fun t ht hx => h2 t ht (mem_paramsAt_snoc_nil.mp hx)⟩

/-- The reading loop, resumed after the instructions `ins`, ends with the table
of `ins` followed by the instructions of the remaining lines. -/
theorem foldl_visitLine_isTableOf (lines : List Line) :
    ∀ (ins : List (List String)) (st : Extraction),
      IsTableOf ins st.allVariables st.vertices → st.count = ins.length →
      IsTableOf (ins ++ instructions lines) (lines.foldl visitLine st).allVariables
          (lines.foldl visitLine st).vertices ∧
        (lines.foldl visitLine st).count = (ins ++ instructions lines).length := by
  induction lines with
  | nil => intro ins st h hc; simpa [instructions] using ⟨h, hc⟩
  | cons l rest ih =>
    intro ins st h hc
    cases l with
    | blank => simpa [instructions, visitLine] using ih ins st h hc
    | instruction opcode params =>
      have h1 := (isTableOf_snoc_nil.mpr h).visitParams params
      rw [List.nil_append, ← hc] at h1
      have h2 := ih (ins ++ [params])
        { allVariables := (params.foldl (visitParam st.count) (st.allVariables, st.vertices)).1
          vertices := (params.foldl (visitParam st.count) (st.allVariables, st.vertices)).2
          count := st.count + 1 } h1 (by simp [hc])
      simpa [instructions, visitLine] using h2

theorem isTableOf_nil : IsTableOf [] [] [] :=
  ⟨rfl, List.nodup_nil, fun x => (by simp), List.Pairwise.nil, rfl,
    fun e he => (by cases he), fun e he => (by cases he)⟩

/-- The reading loop of `parseFile` builds the variable table of the
instructions of the stream, and counts them. -/
theorem extract_isTableOf (lines : List Line) :
    IsTableOf (instructions lines) (extract lines).allVariables (extract lines).vertices ∧
      (extract lines).count = (instructions lines).length := by
  have := foldl_visitLine_isTableOf lines []
    { allVariables := [], vertices := [], count := 0 } isTableOf_nil rfl
  simpa [extract] using this

theorem first_le_last_of {L : List (List String)} {x : String} {f l : Nat}
    (hf : FirstAt L x f) (hl : LastAt L x l) : f ≤ l := by
  by_contra h
  exact hl.2 f (by omega) hf.1

/-! ## The graph building -/

theorem appendNeighbours_eq (each : variableUsage) (others : List variableUsage) :
    ∀ row : List Nat, appendNeighbours each row others =
      row ++ (others.filter (fun other =>
        decide (each.index ≠ other.index ∧ intersects each other = true))).map
          (fun other => other.index) := by
  induction others with
  | nil => intro row; simp [appendNeighbours]
  | cons other rest ih =>
    intro row
    unfold appendNeighbours
    by_cases h : each.index ≠ other.index ∧ intersects each other = true
    · rw [if_pos h, ih, List.filter_cons_of_pos (by simpa using h)]
      simp
    · rw [if_neg h, ih, List.filter_cons_of_neg (by simpa using h)]

/-- The ids that the inner loop puts in the row of `each`. -/
theorem mem_appendNeighbours {each : variableUsage} {others : List variableUsage} {b : Nat} :
    b ∈ appendNeighbours each [] others ↔
      ∃ other ∈ others, other.index = b ∧ each.index ≠ other.index ∧
        intersects each other = true := by
  rw [appendNeighbours_eq]
  simp only [List.nil_append, List.mem_map, List.mem_filter, decide_eq_true_eq]
  constructor
  · rintro ⟨o, ⟨h1, h2⟩, h3⟩; exact ⟨o, h1, h3, h2⟩
  · rintro ⟨o, h1, h3, h2⟩; exact ⟨o, ⟨h1, h2⟩, h3⟩

theorem set_replicate_zero (n i : Nat) :
    (List.replicate n 0).set i 0 = List.replicate n 0 := by
  apply List.ext_getElem
  · simp
  · intro j h1 h2
    simp [List.getElem_set]

/-- The outer loop over values of distinct, valid ids never faults; it leaves
`result` all zero, gives each value met the row computed by its inner loop and
leaves the other rows alone. -/
theorem buildLoop_spec (inner : Nat → List variableUsage) (outer : List variableUsage) :
    ∀ (k n : Nat) (adj : List (List Nat)), adj.length = n →
      (∀ u ∈ outer, u.index < n) → (outer.map (fun u => u.index)).Nodup →
      ∃ adj1, buildLoop inner k outer (adj, List.replicate n 0) =
          .ok (adj1, List.replicate n 0) ∧
        adj1.length = n ∧
        (∀ u ∈ outer, ∃ j, adj1[u.index]? = some (appendNeighbours u [] (inner j))) ∧
        ∀ i, (∀ u ∈ outer, u.index ≠ i) → adj1[i]? = adj[i]? := by
  induction outer with
  | nil =>
    intro k n adj hlen _ _
    exact ⟨adj, rfl, hlen, fun u hu => (by cases hu), fun i _ => rfl⟩
  | cons each rest ih =>
    intro k n adj hlen hlt hnd
    rw [List.map_cons, List.nodup_cons] at hnd
    have hi : each.index < n := hlt each (List.mem_cons_self _ _)
    have ha1 : assign adj each.index [] = .ok (adj.set each.index []) :=
      assign_eq_ok.mpr ⟨by omega, rfl⟩
    have ha2 : assign (adj.set each.index []) each.index
        (appendNeighbours each [] (inner k)) =
        .ok ((adj.set each.index []).set each.index (appendNeighbours each [] (inner k))) :=
      assign_eq_ok.mpr ⟨by simp; omega, rfl⟩
    have ha3 : assign (List.replicate n 0) each.index 0 = .ok (List.replicate n 0) := by
      rw [assign_eq_ok]; exact ⟨by simp; omega, (set_replicate_zero n _).symm⟩
    obtain ⟨adj1, h1, h2, h3, h4⟩ := ih (k + 1) n
      ((adj.set each.index []).set each.index (appendNeighbours each [] (inner k)))
      (by simp [hlen]) (fun u hu => hlt u (List.mem_cons_of_mem _ hu)) hnd.2
    refine ⟨adj1, ?_, h2, ?_, ?_⟩
    · unfold buildLoop
      rw [ha1]; dsimp only
      rw [ha2]; dsimp only
      rw [ha3]; dsimp only
      exact h1
    · intro u hu
      rcases List.mem_cons.mp hu with rfl | hu1
      · refine ⟨k, ?_⟩
        rw [h4 u.index (fun w hw e => hnd.1 (List.mem_map.mpr ⟨w, hw, e⟩))]
        simp [List.getElem?_set, hlen, hi]
      · exact h3 u hu1
    · intro i hne
      rw [h4 i (fun u hu => hne u (List.mem_cons_of_mem _ hu))]
      have : each.index ≠ i := hne each (List.mem_cons_self _ _)
      simp [List.getElem?_set, this]

theorem IsTableOf.length_eq {L : List (List String)} {m : VarMap} {vs : List String}
    (h : IsTableOf L m vs) : (values m).length = vs.length := by
  rw [← h.keys]; simp [values]

theorem IsTableOf.index_lt {L : List (List String)} {m : VarMap} {vs : List String}
    (h : IsTableOf L m vs) {u : variableUsage} (hu : u ∈ values m) : u.index < vs.length := by
  have h1 : u.index ∈ (values m).map (fun u => u.index) := List.mem_map.mpr ⟨u, hu, rfl⟩
  rw [h.ids, List.mem_range] at h1
  rw [← h.length_eq]
  simpa [values] using h1

theorem IsTableOf.nodup_ids {L : List (List String)} {m : VarMap} {vs : List String}
    (h : IsTableOf L m vs) : ((values m).map (fun u => u.index)).Nodup := by
  rw [h.ids]; exact List.nodup_range _

/-- Two values of the table with the same id are the same value. -/
theorem IsTableOf.eq_of_index_eq {L : List (List String)} {m : VarMap} {vs : List String}
    (h : IsTableOf L m vs) {u w : variableUsage} (hu : u ∈ values m) (hw : w ∈ values m)
    (e : u.index = w.index) : u = w :=
  List.inj_on_of_nodup_map h.nodup_ids hu hw e

theorem appendNeighbours_perm (each : variableUsage) {xs ys : List variableUsage}
    (h : xs.Perm ys) :
    (appendNeighbours each [] xs).Perm (appendNeighbours each [] ys) := by
  rw [appendNeighbours_eq, appendNeighbours_eq]
  exact ((h.filter _).map _).append_left _

/-- The graph building of `parseFile` never faults, whatever the enumeration
orders of the map: `result` is all zero, and the row of each variable is, up to
the order of its entries, the one computed by its inner loop. -/
theorem parseFile_spec (lines : List Line) (outer : List variableUsage)
    (inner : Nat → List variableUsage)
    (h : Enumerates (extract lines).allVariables outer inner) :
    ∃ adj, parseFile lines outer inner =
        .ok { allVariables := (extract lines).allVariables
              vertices := (extract lines).vertices
              adjacencyList := adj
              result := List.replicate (extract lines).vertices.length 0 } ∧
      adj.length = (extract lines).vertices.length ∧
      ∀ a ∈ values (extract lines).allVariables, ∃ row, adj[a.index]? = some row ∧
        row.Perm (appendNeighbours a [] (values (extract lines).allVariables)) := by
  have ht := (extract_isTableOf lines).1
  obtain ⟨adj, h1, h2, h3, -⟩ := buildLoop_spec inner outer 0
    (extract lines).vertices.length (List.replicate (extract lines).vertices.length [])
    (by simp) (fun u hu => ht.index_lt (h.1.subset hu))
    ((h.1.map _).nodup_iff.mpr ht.nodup_ids)
  refine ⟨adj, ?_, h2, ?_⟩
  · unfold parseFile
    dsimp only
    rw [h1]
  · intro a ha
    obtain ⟨j, hj⟩ := h3 a (h.1.symm.subset ha)
    exact ⟨_, hj, appendNeighbours_perm a (h.2 j)⟩

/-- The neighbours listed for a variable of the table, whatever the enumeration
orders: the ids of the other variables that `intersects` accepts. -/
theorem parseFile_neighbours {lines : List Line} {outer : List variableUsage}
    {inner : Nat → List variableUsage} {p : Parsed}
    (h : Enumerates (extract lines).allVariables outer inner)
    (hp : parseFile lines outer inner = .ok p) :
    ∀ a ∈ values p.allVariables, ∀ b, b ∈ neighbours p.adjacencyList a.index ↔
      ∃ other ∈ values p.allVariables, other.index = b ∧ a.index ≠ other.index ∧
        intersects a other = true := by
  obtain ⟨adj, h1, -, h3⟩ := parseFile_spec lines outer inner h
  rw [h1] at hp
  cases hp
  intro a ha b
  obtain ⟨row, hrow, hperm⟩ := h3 a ha
  rw [← mem_appendNeighbours, ← hperm.mem_iff]
  simp [neighbours, List.getD_eq_getElem?_getD, hrow]

/-! ## C5: the interval extraction -/

/-- C5. Interval extraction equals its reference definition: for every
instruction stream, the table built by the reading loop of `parseFile` is the
table of its instructions (`IsTableOf`): the vertices are exactly the distinct
parameters of length at most 2, each once, in the order of first occurrence; the
keys of the map are the vertices and the entry of `vertices[id]` has index `id`;
`first` and `last` of an entry are the indices of the first and of the last
instruction containing the name, blank lines not being counted (`count` ends as
the number of instructions).  Hence `first ≤ last`, with equality when the name
occurs in a single instruction. -/
theorem extract_eq_reference (lines : List Line) :
    IsTableOf (instructions lines) (extract lines).allVariables (extract lines).vertices ∧
    (extract lines).count = (instructions lines).length ∧
    ∀ e ∈ (extract lines).allVariables,
      e.2.first ≤ e.2.last ∧
      ((∀ t s, e.1 ∈ paramsAt (instructions lines) t →
          e.1 ∈ paramsAt (instructions lines) s → t = s) → e.2.first = e.2.last) := by
  obtain ⟨h, hc⟩ := extract_isTableOf lines
  refine ⟨h, hc, fun e he => ⟨first_le_last_of (h.first e he) (h.last e he), fun hs => ?_⟩⟩
  exact hs _ _ (h.first e he).1 (h.last e he).1

/-! ## C3 and C4: the edges of the built graph -/

/-- No vertex of the built graph lists itself. -/
theorem parseFile_irreflexive {lines : List Line} {outer : List variableUsage}
    {inner : Nat → List variableUsage} {p : Parsed}
    (h : Enumerates (extract lines).allVariables outer inner)
    (hp : parseFile lines outer inner = .ok p) : Irreflexive p.adjacencyList := by
  have hn := parseFile_neighbours h hp
  obtain ⟨adj, h1, h2, -⟩ := parseFile_spec lines outer inner h
  rw [h1] at hp
  cases hp
  have ht := (extract_isTableOf lines).1
  intro a ha hmem
  dsimp only at ha hmem hn
  -- the value of id `a`
  have : a ∈ (values (extract lines).allVariables).map (fun u => u.index) := by
    rw [ht.ids, List.mem_range]
    have := ht.length_eq
    simp only [values, List.length_map] at this
    omega
  obtain ⟨u, hu, rfl⟩ := List.mem_map.mp this
  obtain ⟨o, ho, e1, e2, -⟩ := (hn u hu u.index).mp hmem
  exact e2 e1.symm

theorem enclosedStream_table :
    (extract enclosedStream).allVariables = [("A", ⟨0, 0, 2⟩), ("B", ⟨1, 1, 1⟩)] ∧
      (extract enclosedStream).vertices = ["A", "B"] := by
  decide

/-- The rows of the graph built from `enclosedStream`, on every run. -/
theorem enclosedStream_rows {outer : List variableUsage} {inner : Nat → List variableUsage}
    (h : Enumerates (extract enclosedStream).allVariables outer inner) :
    ∃ adj, parseFile enclosedStream outer inner =
        .ok { allVariables := [("A", ⟨0, 0, 2⟩), ("B", ⟨1, 1, 1⟩)]
              vertices := ["A", "B"]
              adjacencyList := adj
              result := [0, 0] } ∧
      adj.length = 2 ∧ 0 ∈ neighbours adj 1 ∧ 1 ∉ neighbours adj 0 := by
  obtain ⟨adj, h1, h2, -⟩ := parseFile_spec enclosedStream outer inner h
  have hn := parseFile_neighbours h h1
  simp only [enclosedStream_table.1, enclosedStream_table.2] at h1 h2 hn
  have hA : (⟨0, 0, 2⟩ : variableUsage) ∈ values [("A", ⟨0, 0, 2⟩), ("B", ⟨1, 1, 1⟩)] := by
    decide
  have hB : (⟨1, 1, 1⟩ : variableUsage) ∈ values [("A", ⟨0, 0, 2⟩), ("B", ⟨1, 1, 1⟩)] := by
    decide
  refine ⟨adj, h1, h2, ?_, ?_⟩
  · exact (hn _ hB 0).mpr ⟨⟨0, 0, 2⟩, hA, rfl, by decide, by decide⟩
  · intro hmem
    obtain ⟨o, ho, e1, -, e3⟩ := (hn _ hA 1).mp hmem
    have ho1 : o = ⟨0, 0, 2⟩ ∨ o = ⟨1, 1, 1⟩ := by
      simpa [values] using ho
    rcases ho1 with rfl | rfl
    · exact absurd e1 (by decide)
    · exact absurd e3 (by decide)

/-- C3 (the code departs from the claim). In `enclosedStream` the variables `A`
(id 0, interval `[0,2]`) and `B` (id 1, interval `[1,1]`) are distinct and their
intervals overlap, yet on every run (whatever the enumeration orders of the map)
the id of `B` is not listed in `adjacencyList[0]`: the test of `parseFile` only
looks for an end of `each` inside `other`, and misses an `other` strictly inside
`each`. -/
theorem parseFile_misses_overlap (outer : List variableUsage)
    (inner : Nat → List variableUsage)
    (h : Enumerates (extract enclosedStream).allVariables outer inner) :
    ∃ p, parseFile enclosedStream outer inner = .ok p ∧
      p.allVariables = [("A", ⟨0, 0, 2⟩), ("B", ⟨1, 1, 1⟩)] ∧
      overlaps ⟨0, 0, 2⟩ ⟨1, 1, 1⟩ ∧ 1 ∉ neighbours p.adjacencyList 0 := by
  obtain ⟨adj, h1, -, -, h01⟩ := enclosedStream_rows h
  exact ⟨_, h1, rfl, by decide, h01⟩

/-- The theorem `parseFile_misses_overlap` on the run that enumerates the map
in the order of insertion. -/
theorem parseFile_misses_overlap_witness :
    Enumerates (extract enclosedStream).allVariables
      (values (extract enclosedStream).allVariables)
      (insertionOrder (extract enclosedStream).allVariables) ∧
    ∃ p, parseFile enclosedStream (values (extract enclosedStream).allVariables)
        (insertionOrder (extract enclosedStream).allVariables) = .ok p ∧
      p.allVariables = [("A", ⟨0, 0, 2⟩), ("B", ⟨1, 1, 1⟩)] ∧
      overlaps ⟨0, 0, 2⟩ ⟨1, 1, 1⟩ ∧ 1 ∉ neighbours p.adjacencyList 0 :=
  ⟨⟨List.Perm.refl _, fun _ => List.Perm.refl _⟩,
    parseFile_misses_overlap _ _ ⟨List.Perm.refl _, fun _ => List.Perm.refl _⟩⟩

/-- C4 (the code departs from the claim). On every run over `enclosedStream` the
built graph lists `A` (id 0) at `B` (id 1) but not `B` at `A`: the adjacency
list is not symmetric.  (It is irreflexive, see `parseFile_irreflexive`.) -/
theorem parseFile_not_symmetric (outer : List variableUsage)
    (inner : Nat → List variableUsage)
    (h : Enumerates (extract enclosedStream).allVariables outer inner) :
    ∃ p, parseFile enclosedStream outer inner = .ok p ∧
      0 ∈ neighbours p.adjacencyList 1 ∧ 1 ∉ neighbours p.adjacencyList 0 ∧
      ¬ Symmetric p.adjacencyList := by
  obtain ⟨adj, h1, h2, h10, h01⟩ := enclosedStream_rows h
  refine ⟨_, h1, h10, h01, fun hs => h01 ?_⟩
  exact hs 1 (by rw [h2]; decide) 0 h10

/-- The theorem `parseFile_not_symmetric` on the run that enumerates the map in
the order of insertion. -/
theorem parseFile_not_symmetric_witness :
    Enumerates (extract enclosedStream).allVariables
      (values (extract enclosedStream).allVariables)
      (insertionOrder (extract enclosedStream).allVariables) ∧
    ∃ p, parseFile enclosedStream (values (extract enclosedStream).allVariables)
        (insertionOrder (extract enclosedStream).allVariables) = .ok p ∧
      0 ∈ neighbours p.adjacencyList 1 ∧ 1 ∉ neighbours p.adjacencyList 0 ∧
      ¬ Symmetric p.adjacencyList :=
  ⟨⟨List.Perm.refl _, fun _ => List.Perm.refl _⟩,
    parseFile_not_symmetric _ _ ⟨List.Perm.refl _, fun _ => List.Perm.refl _⟩⟩

/-! ## The counting loop -/

theorem memKeys_memIncr (m : Memory) (v : Nat) :
    memKeys (memIncr m v) = if v ∈ memKeys m then memKeys m else memKeys m ++ [v] := by
  induction m with
  | nil => simp [memIncr, memKeys]
  | cons e rest ih =>
    obtain ⟨k0, n⟩ := e
    unfold memIncr
    by_cases h : k0 = v
    · simp [h, memKeys]
    · have h1 : memKeys ((k0, n) :: memIncr rest v) = k0 :: memKeys (memIncr rest v) := rfl
      have h2 : memKeys ((k0, n) :: rest) = k0 :: memKeys rest := rfl
      rw [if_neg h, h1, ih, h2]
      by_cases hv : v ∈ memKeys rest
      · simp [hv]
      · simp [hv, Ne.symm h]

theorem memGet_memIncr (m : Memory) (v k : Nat) :
    memGet (memIncr m v) k = memGet m k + if v = k then 1 else 0 := by
  induction m with
  | nil => simp [memIncr, memGet]
  | cons e rest ih =>
    obtain ⟨k0, n⟩ := e
    unfold memIncr
    by_cases h : k0 = v
    · subst h
      by_cases hk : k0 = k
      · simp [memGet, hk]
      · simp [memGet, hk]
    · rw [if_neg h]
      by_cases hk : k0 = k
      · have : v ≠ k := fun e => h (hk.trans e.symm)
        simp [memGet, hk, this]
      · simp [memGet, hk, ih]

/-- The counting loop resumed on a map with distinct keys. -/
theorem foldl_tallyStep (l : List Nat) :
    ∀ (st : Memory × Int), (memKeys st.1).Nodup →
      (memKeys (l.foldl tallyStep st).1).Nodup ∧
      (∀ k, k ∈ memKeys (l.foldl tallyStep st).1 ↔ k ∈ memKeys st.1 ∨ k ∈ l) ∧
      ∀ k, memGet (l.foldl tallyStep st).1 k = memGet st.1 k + l.count k := by
  induction l with
  | nil => intro st h; simp [h]
  | cons v rest ih =>
    intro st h
    have hn : (memKeys (tallyStep st v).1).Nodup := by
      simp only [tallyStep, memKeys_memIncr]
      split
      · exact h
      · rename_i hv
        exact List.Nodup.append h (List.nodup_singleton v) (by simpa using hv)
    obtain ⟨h1, h2, h3⟩ := ih (tallyStep st v) hn
    refine ⟨h1, fun k => ?_, fun k => ?_⟩
    · rw [List.foldl_cons, h2 k]
      simp only [tallyStep, memKeys_memIncr, List.mem_cons]
      split
      · rename_i hv
        constructor
        · rintro (h4 | h4)
          · exact Or.inl h4
          · exact Or.inr (Or.inr h4)
        · rintro (h4 | h4 | h4)
          · exact Or.inl h4
          · exact Or.inl (h4 ▸ hv)
          · exact Or.inr h4
      · simp only [List.mem_append, List.mem_singleton]
        tauto
    · rw [List.foldl_cons, h3 k]
      simp only [tallyStep, memGet_memIncr, List.count_cons]
      by_cases hk : v = k
      · simp [hk]; omega
      · simp [hk]

/-- The map `memory` after the counting loop: its keys are the distinct colours
of `result`, and the count of a colour is the number of vertices holding it. -/
theorem tally_spec (result : List Nat) :
    (memKeys (tally result).1).Nodup ∧
      (∀ k, k ∈ memKeys (tally result).1 ↔ k ∈ result) ∧
      ∀ k, memGet (tally result).1 k = result.count k := by
  obtain ⟨h1, h2, h3⟩ := foldl_tallyStep result ([], -1) List.nodup_nil
  refine ⟨h1, fun k => ?_, fun k => ?_⟩
  · rw [tally, h2 k]; simp [memKeys]
  · rw [tally, h3 k]; simp [memGet]

theorem length_memKeys_tally (result : List Nat) :
    (memKeys (tally result).1).length = result.toFinset.card := by
  obtain ⟨h1, h2, -⟩ := tally_spec result
  rw [← List.toFinset_card_of_nodup h1]
  congr 1
  ext k
  simp [h2 k]

/-! ## The library sort -/

theorem sink_perm (lessFn : Nat → Nat → Bool) (x : Nat) (sorted : List Nat) :
    (sink lessFn x sorted).Perm (x :: sorted) := by
  induction sorted with
  | nil => exact List.Perm.refl _
  | cons y rest ih =>
    unfold sink
    split
    · exact ((ih.cons y).trans (List.Perm.swap x y rest))
    · exact List.Perm.refl _

theorem sink_sorted (f : Nat → Nat) (x : Nat) (sorted : List Nat)
    (h : sorted.Pairwise (fun a b => f a ≤ f b)) :
    (sink (fun a b => decide (f a > f b)) x sorted).Pairwise (fun a b => f a ≤ f b) := by
  induction sorted with
  | nil => simp [sink]
  | cons y rest ih =>
    rw [List.pairwise_cons] at h
    unfold sink
    split
    · rename_i hlt
      have hlt1 : f y < f x := by simpa using hlt
      rw [List.pairwise_cons]
      refine ⟨fun b hb => ?_, ih h.2⟩
      rcases List.mem_cons.mp ((sink_perm _ x rest).subset hb) with rfl | hb1
      · omega
      · exact h.1 b hb1
    · rename_i hge
      have hge1 : f x ≤ f y := by simpa using hge
      rw [List.pairwise_cons]
      refine ⟨fun b hb => ?_, List.pairwise_cons.mpr h⟩
      rcases List.mem_cons.mp hb with rfl | hb1
      · exact hge1
      · exact le_trans hge1 (h.1 b hb1)

theorem foldl_sink (f : Nat → Nat) (l : List Nat) :
    ∀ sorted : List Nat, sorted.Pairwise (fun a b => f a ≤ f b) →
      (l.foldl (fun sorted x => sink (fun a b => decide (f a > f b)) x sorted) sorted).Perm
          (l.reverse ++ sorted) ∧
        (l.foldl (fun sorted x => sink (fun a b => decide (f a > f b)) x sorted)
          sorted).Pairwise (fun a b => f a ≤ f b) := by
  induction l with
  | nil => intro sorted h; exact ⟨by simp, h⟩
  | cons x rest ih =>
    intro sorted h
    obtain ⟨h1, h2⟩ := ih _ (sink_sorted f x sorted h)
    refine ⟨?_, h2⟩
    rw [List.foldl_cons]
    refine h1.trans ?_
    rw [List.reverse_cons, List.append_assoc]
    exact ((sink_perm _ x sorted).append_left _)

/-- The library's insertion sort keeps what `sort.Sort` promises. -/
theorem isSort_insertionSort : IsSort insertionSort := by
  intro f l
  obtain ⟨h1, h2⟩ := foldl_sink f l [] List.Pairwise.nil
  constructor
  · unfold insertionSort
    refine (List.reverse_perm _).trans (h1.trans ?_)
    simp
  · unfold insertionSort
    rw [List.pairwise_reverse]
    exact h2

/-! ## The two slices and the spill loop -/

theorem min_spec (n : Nat) {R : Int} (hR : 0 ≤ R) :
    0 ≤ min (n : Int) R ∧ min (n : Int) R ≤ (n : Int) ∧
      (min (n : Int) R).toNat = Nat.min n R.toNat := by
  unfold min
  split
  · rename_i h
    refine ⟨by omega, le_refl _, ?_⟩
    rw [Int.toNat_ofNat]
    exact (Nat.min_eq_left (by omega)).symm
  · rename_i h
    refine ⟨hR, by omega, ?_⟩
    exact (Nat.min_eq_right (by omega)).symm

/-- With a budget `R ≥ 0` the two slice expressions are in range: the promoted
colours are the first `min(len(sortedMem), R)` entries of `sortedMem`, the
others are left in memory. -/
theorem allocate_of_nonneg (sort : (Nat → Nat → Bool) → List Nat → List Nat)
    (keys : List Nat) {R : Int} (hR : 0 ≤ R) (result : List Nat) :
    allocate sort keys R result =
      .ok { max := (tally result).2
            memory := (tally result).1
            sortedMem := sortedKeys sort (tally result).1 keys
            promoted := (sortedKeys sort (tally result).1 keys).take
              (Nat.min (sortedKeys sort (tally result).1 keys).length R.toNat)
            spilled := (sortedKeys sort (tally result).1 keys).drop
              (Nat.min (sortedKeys sort (tally result).1 keys).length R.toNat)
            result := ((sortedKeys sort (tally result).1 keys).drop
              (Nat.min (sortedKeys sort (tally result).1 keys).length R.toNat)).foldl
                spill result } := by
  obtain ⟨h1, h2, h3⟩ := min_spec (sortedKeys sort (tally result).1 keys).length hR
  unfold allocate
  simp only [sliceTo, sliceFrom, h1, h2, h3, and_self, if_true]

/-- With a negative budget the first slice expression is out of range. -/
theorem allocate_of_neg (sort : (Nat → Nat → Bool) → List Nat → List Nat)
    (keys : List Nat) {R : Int} (hR : R < 0) (result : List Nat) :
    allocate sort keys R result = .error .indexOutOfRange := by
  have h : ¬ (0 ≤ min ((sortedKeys sort (tally result).1 keys).length : Int) R) := by
    unfold min
    split <;> omega
  unfold allocate
  simp only [sliceTo, h, false_and, if_false]

theorem foldl_spill (spilled : List Nat) :
    ∀ result : List Nat,
      spilled.foldl spill result = result.map (fun c => if c ∈ spilled then 0 else c) := by
  induction spilled with
  | nil => intro result; simp
  | cons mem rest ih =>
    intro result
    rw [List.foldl_cons, ih, spill, List.map_map]
    apply List.map_congr_left
    intro c _
    simp only [Function.comp_apply, List.mem_cons]
    by_cases hc : c = mem
    · simp [hc]
    · by_cases hr : c ∈ rest
      · simp [hc, hr]
      · simp [hc, hr]

theorem colorAt_map_of_lt {result : List Nat} {i : Nat} (g : Nat → Nat)
    (h : i < result.length) : colorAt (result.map g) i = g (colorAt result i) := by
  simp [colorAt, List.getD_eq_getElem?_getD, h]

theorem colorAt_mem {result : List Nat} {i : Nat} (h : i < result.length) :
    colorAt result i ∈ result := by
  have : colorAt result i = result[i] := by
    simp [colorAt, List.getD_eq_getElem?_getD, h]
  rw [this]
  exact List.getElem_mem h
/-- The allocation step with a budget `R ≥ 0`, for a library sort that keeps its
promise and any enumeration `keys` of the keys of `memory`: `sortedMem` lists the
distinct colours of `result` by non-increasing population, its first
`min(len(sortedMem), R)` entries are promoted, and the vertices of the other
colours are reset to 0. -/
theorem allocate_spec {sort : (Nat → Nat → Bool) → List Nat → List Nat} {keys : List Nat}
    {R : Int} (result : List Nat) (hsort : IsSort sort)
    (hkeys : keys.Perm (memKeys (tally result).1)) (hR : 0 ≤ R) :
    ∃ S, S.Perm (memKeys (tally result).1) ∧
      S.Pairwise (fun a b => result.count b ≤ result.count a) ∧
      allocate sort keys R result =
        .ok { max := (tally result).2
              memory := (tally result).1
              sortedMem := S
              promoted := S.take (Nat.min S.length R.toNat)
              spilled := S.drop (Nat.min S.length R.toNat)
              result := result.map
                (fun c => if c ∈ S.drop (Nat.min S.length R.toNat) then 0 else c) } := by
  have hS : sortedKeys sort (tally result).1 keys =
      sort (fun a b => decide (memGet (tally result).1 a > memGet (tally result).1 b)) keys :=
    rfl
  obtain ⟨h1, h2⟩ := hsort (memGet (tally result).1) keys
  rw [← hS] at h1 h2
  refine ⟨sortedKeys sort (tally result).1 keys, h1.trans hkeys, ?_, ?_⟩
  · refine h2.imp ?_
    intro a b hab
    rw [← (tally_spec result).2.2 a, ← (tally_spec result).2.2 b]
    exact hab
  · rw [allocate_of_nonneg sort keys hR result, foldl_spill]

theorem mem_take_or_drop {S : List Nat} (n : Nat) {c : Nat} (h : c ∈ S) :
    c ∈ S.take n ∨ c ∈ S.drop n := by
  rw [← List.take_append_drop n S] at h
  exact List.mem_append.mp h

theorem not_mem_drop_of_mem_take {S : List Nat} (hn : S.Nodup) (n : Nat) {c : Nat}
    (h : c ∈ S.take n) : c ∉ S.drop n := by
  rw [← List.take_append_drop n S] at hn
  exact fun hd => (List.nodup_append.mp hn).2.2 h hd

/-! ## C6: what the allocation step keeps -/

/-- C6. Allocator conservation: for every `result` (with `C` distinct colours),
every budget `R ≥ 0`, every library sort keeping its promise and every
enumeration of the keys of `memory`, the allocation step promotes exactly
`min(R, C)` colours of `result`; every vertex whose colour is not promoted has
its entry reset to 0, and every vertex whose colour is promoted keeps its colour.
In particular `R = 0` resets every vertex and `R ≥ C` changes nothing. -/
theorem allocate_conservation (sort : (Nat → Nat → Bool) → List Nat → List Nat)
    (keys : List Nat) (R : Int) (result : List Nat) (hsort : IsSort sort)
    (hkeys : keys.Perm (memKeys (tally result).1)) (hR : 0 ≤ R) :
    ∃ a, allocate sort keys R result = .ok a ∧
      a.promoted.length = Nat.min R.toNat result.toFinset.card ∧
      a.promoted.Nodup ∧ (∀ c ∈ a.promoted, c ∈ result) ∧
      a.result.length = result.length ∧
      (∀ i, i < result.length →
        (colorAt result i ∈ a.promoted → colorAt a.result i = colorAt result i) ∧
        (colorAt result i ∉ a.promoted → colorAt a.result i = 0)) ∧
      (R = 0 → a.result = List.replicate result.length 0) ∧
      ((result.toFinset.card : Int) ≤ R → a.result = result) := by
  obtain ⟨S, hp, -, ha⟩ := allocate_spec result hsort hkeys hR
  obtain ⟨hnd, hmem, -⟩ := tally_spec result
  have hSn : S.Nodup := hp.nodup_iff.mpr hnd
  have hSm : ∀ c, c ∈ S ↔ c ∈ result := fun c => (hp.mem_iff).trans (hmem c)
  have hSl : S.length = result.toFinset.card := by
    rw [hp.length_eq, length_memKeys_tally]
  refine ⟨_, ha, ?_, ?_, ?_, ?_, ?_, ?_, ?_⟩
  · simp only [List.length_take, hSl, Nat.min_def, min_def]
    split_ifs <;> omega
  · exact (List.take_sublist _ _).nodup hSn
  · exact fun c hc => (hSm c).mp (List.mem_of_mem_take hc)
  · simp
  · intro i hi
    dsimp only
    rw [colorAt_map_of_lt _ hi]
    constructor
    · intro h1
      rw [if_neg (not_mem_drop_of_mem_take hSn _ h1)]
    · intro h1
      have h2 := (mem_take_or_drop (Nat.min S.length R.toNat)
        ((hSm _).mpr (colorAt_mem hi))).resolve_left h1
      rw [if_pos h2]
  · intro h0
    subst h0
    dsimp only
    have e : Nat.min S.length (0 : Int).toNat = 0 := by simp
    rw [e, List.drop_zero, List.eq_replicate_iff]
    refine ⟨by simp, fun b hb => ?_⟩
    obtain ⟨c, hc, rfl⟩ := List.mem_map.mp hb
    rw [if_pos ((hSm c).mpr hc)]
  · intro hC
    dsimp only
    have e : Nat.min S.length R.toNat = S.length := Nat.min_eq_left (by omega)
    rw [e, List.drop_length]
    simp

/-- The theorem `allocate_conservation` applied to three colours of the
populations 2, 3, 3 and two registers, with the library's insertion sort. -/
theorem allocate_conservation_witness :
    IsSort insertionSort ∧
    [3, 1, 2].Perm (memKeys (tally [1, 2, 1, 3, 3, 3, 2, 2]).1) ∧ (0 : Int) ≤ 2 ∧
    ∃ a, allocate insertionSort [3, 1, 2] 2 [1, 2, 1, 3, 3, 3, 2, 2] = .ok a ∧
      a.promoted.length = Nat.min (2 : Int).toNat [1, 2, 1, 3, 3, 3, 2, 2].toFinset.card ∧
      a.promoted.Nodup ∧ (∀ c ∈ a.promoted, c ∈ [1, 2, 1, 3, 3, 3, 2, 2]) ∧
      a.result.length = [1, 2, 1, 3, 3, 3, 2, 2].length ∧
      (∀ i, i < [1, 2, 1, 3, 3, 3, 2, 2].length →
        (colorAt [1, 2, 1, 3, 3, 3, 2, 2] i ∈ a.promoted →
          colorAt a.result i = colorAt [1, 2, 1, 3, 3, 3, 2, 2] i) ∧
        (colorAt [1, 2, 1, 3, 3, 3, 2, 2] i ∉ a.promoted → colorAt a.result i = 0)) ∧
      ((2 : Int) = 0 → a.result = List.replicate [1, 2, 1, 3, 3, 3, 2, 2].length 0) ∧
      (([1, 2, 1, 3, 3, 3, 2, 2].toFinset.card : Int) ≤ 2 →
        a.result = [1, 2, 1, 3, 3, 3, 2, 2]) :=
  ⟨isSort_insertionSort, by decide, by decide,
    allocate_conservation insertionSort [3, 1, 2] 2 [1, 2, 1, 3, 3, 3, 2, 2]
      isSort_insertionSort (by decide) (by decide)⟩

/-! ## C10: a negative budget -/

/-- C10 (the code departs from the claim). For every negative register budget,
which `strconv.Atoi` delivers for a header such as `registers: -1`, the slice
expression `sortedMem[:min(len(sortedMem), registers)]` has a negative bound and
the allocation step stops with a run-time panic, whatever the colouring. -/
theorem allocate_negative_budget (sort : (Nat → Nat → Bool) → List Nat → List Nat)
    (keys : List Nat) (R : Int) (result : List Nat) (hR : R < 0) :
    allocate sort keys R result = .error .indexOutOfRange :=
  allocate_of_neg sort keys hR result

/-- The theorem `allocate_negative_budget` applied to the colouring `1, 2, 1`
and the budget `-1`. -/
theorem allocate_negative_budget_witness :
    (-1 : Int) < 0 ∧
      allocate insertionSort [1, 2] (-1) [1, 2, 1] = .error .indexOutOfRange :=
  ⟨by decide, allocate_negative_budget insertionSort [1, 2] (-1) [1, 2, 1] (by decide)⟩

/-! ## C7: which colours are promoted -/

instance (result : List Nat) : IsTotal Nat (rankedBefore result) :=
  ⟨fun a b => by unfold rankedBefore; omega⟩

instance (result : List Nat) : IsTrans Nat (rankedBefore result) :=
  ⟨fun a b c => by unfold rankedBefore; omega⟩

instance (result : List Nat) : IsAntisymm Nat (rankedBefore result) :=
  ⟨fun a b => by unfold rankedBefore; omega⟩

theorem ranking_perm (result : List Nat) : (ranking result).Perm result.dedup :=
  List.perm_insertionSort _ _

theorem ranking_sorted (result : List Nat) :
    (ranking result).Pairwise (rankedBefore result) :=
  List.sorted_insertionSort _ _

/-- When no two colours have the same population, a list of the distinct
colours by non-increasing population is the ranking of the specification. -/
theorem eq_ranking_of_distinct {result S : List Nat}
    (hp : S.Perm (memKeys (tally result).1))
    (hs : S.Pairwise (fun a b => result.count b ≤ result.count a))
    (hd : ∀ c ∈ result, ∀ d ∈ result, result.count c = result.count d → c = d) :
    S = ranking result := by
  obtain ⟨hnd, hmem, -⟩ := tally_spec result
  have hperm : S.Perm (ranking result) := by
    refine hp.trans (List.Perm.trans ?_ (ranking_perm result).symm)
    rw [List.perm_ext_iff_of_nodup hnd (List.nodup_dedup result)]
    intro c
    rw [hmem c, List.mem_dedup]
  refine List.eq_of_perm_of_sorted hperm ?_ (ranking_sorted result)
  have hSn : S.Nodup := hp.nodup_iff.mpr hnd
  refine (hs.and hSn).imp_of_mem ?_
  intro a b ha hb hab
  have ha1 : a ∈ result := (hmem a).mp (hp.subset ha)
  have hb1 : b ∈ result := (hmem b).mp (hp.subset hb)
  have hne : result.count a ≠ result.count b := fun e => hab.2 (hd a ha1 b hb1 e)
  exact Or.inl (lt_of_le_of_ne hab.1 (Ne.symm hne))

/-- C7 as stated fails. Two adjacent vertices are coloured `1, 2` by
`colorGraph(0)`: two colours of population 1.  With one register, the run in
which the map `memory` hands out the key 2 before the key 1 promotes colour 2
and resets vertex 0; the run in which it hands out the key 1 first promotes
colour 1.  The ranking by descending population and ascending colour id puts
colour 1 first. -/
theorem promotion_depends_on_enumeration :
    colorGraph [[1], [0]] 12 [0, 0] 0 = .ok (true, [1, 2]) ∧
    IsSort insertionSort ∧
    [2, 1].Perm (memKeys (tally [1, 2]).1) ∧ [1, 2].Perm (memKeys (tally [1, 2]).1) ∧
    allocate insertionSort [2, 1] 1 [1, 2] =
      .ok { max := 2, memory := [(1, 1), (2, 1)], sortedMem := [2, 1], promoted := [2],
            spilled := [1], result := [0, 2] } ∧
    allocate insertionSort [1, 2] 1 [1, 2] =
      .ok { max := 2, memory := [(1, 1), (2, 1)], sortedMem := [1, 2], promoted := [1],
            spilled := [2], result := [1, 0] } ∧
    (ranking [1, 2]).take 1 = [1] :=
  ⟨rfl, isSort_insertionSort, by decide, by decide, rfl, rfl, by decide⟩

/-- C7, amended. For every `result`, every budget `R ≥ 0`, every library sort
keeping its promise and every enumeration of the keys of `memory`: the promoted
colours are the first `min(R, C)` entries of `sortedMem`, a list of the distinct
colours by non-increasing population, so every promoted colour has at least the
population of every colour left in memory; and when no two colours have the same
population, they are exactly the first `min(R, C)` colours of the ranking by
descending population (the same on every run). -/
theorem promoted_by_population (sort : (Nat → Nat → Bool) → List Nat → List Nat)
    (keys : List Nat) (R : Int) (result : List Nat) (hsort : IsSort sort)
    (hkeys : keys.Perm (memKeys (tally result).1)) (hR : 0 ≤ R) :
    ∃ a, allocate sort keys R result = .ok a ∧
      a.sortedMem.Perm result.dedup ∧
      a.sortedMem.Pairwise (fun c d => result.count d ≤ result.count c) ∧
      a.promoted = a.sortedMem.take (Nat.min R.toNat result.toFinset.card) ∧
      a.spilled = a.sortedMem.drop (Nat.min R.toNat result.toFinset.card) ∧
      (∀ c ∈ a.promoted, ∀ d ∈ a.spilled, result.count d ≤ result.count c) ∧
      ((∀ c ∈ result, ∀ d ∈ result, result.count c = result.count d → c = d) →
        a.promoted = (ranking result).take (Nat.min R.toNat result.toFinset.card)) := by
  obtain ⟨S, hp, hs, ha⟩ := allocate_spec result hsort hkeys hR
  obtain ⟨hnd, hmem, -⟩ := tally_spec result
  have hSl : S.length = result.toFinset.card := by
    rw [hp.length_eq, length_memKeys_tally]
  have hn : Nat.min S.length R.toNat = Nat.min R.toNat result.toFinset.card := by
    rw [hSl]
    simp only [Nat.min_def]
    split_ifs <;> omega
  rw [hn] at ha
  refine ⟨_, ha, ?_, hs, rfl, rfl, ?_, ?_⟩
  · refine hp.trans ?_
    rw [List.perm_ext_iff_of_nodup hnd (List.nodup_dedup result)]
    intro c
    rw [hmem c, List.mem_dedup]
  · intro c hc d hd
    dsimp only at hc hd
    have h1 : (S.take (Nat.min R.toNat result.toFinset.card) ++
        S.drop (Nat.min R.toNat result.toFinset.card)).Pairwise
          (fun a b => result.count b ≤ result.count a) := by
      rw [List.take_append_drop]; exact hs
    exact (List.pairwise_append.mp h1).2.2 c hc d hd
  · intro hd
    dsimp only
    rw [eq_ranking_of_distinct hp hs hd]

/-- The theorem `promoted_by_population` applied to the colouring `1, 2, 1` with
one register, the key 2 being handed out first. -/
theorem promoted_by_population_witness :
    IsSort insertionSort ∧ [2, 1].Perm (memKeys (tally [1, 2, 1]).1) ∧ (0 : Int) ≤ 1 ∧
    ∃ a, allocate insertionSort [2, 1] 1 [1, 2, 1] = .ok a ∧
      a.sortedMem.Perm [1, 2, 1].dedup ∧
      a.sortedMem.Pairwise (fun c d => [1, 2, 1].count d ≤ [1, 2, 1].count c) ∧
      a.promoted = a.sortedMem.take (Nat.min (1 : Int).toNat [1, 2, 1].toFinset.card) ∧
      a.spilled = a.sortedMem.drop (Nat.min (1 : Int).toNat [1, 2, 1].toFinset.card) ∧
      (∀ c ∈ a.promoted, ∀ d ∈ a.spilled, [1, 2, 1].count d ≤ [1, 2, 1].count c) ∧
      ((∀ c ∈ [1, 2, 1], ∀ d ∈ [1, 2, 1], [1, 2, 1].count c = [1, 2, 1].count d → c = d) →
        a.promoted = (ranking [1, 2, 1]).take
          (Nat.min (1 : Int).toNat [1, 2, 1].toFinset.card)) :=
  ⟨isSort_insertionSort, by decide, by decide,
    promoted_by_population insertionSort [2, 1] 1 [1, 2, 1] isSort_insertionSort
      (by decide) (by decide)⟩

/-! ## C9: the end-to-end example -/

theorem exampleStream_table :
    (extract exampleStream).allVariables =
        [("A", ⟨0, 0, 2⟩), ("B", ⟨1, 1, 1⟩), ("C", ⟨2, 3, 3⟩)] ∧
      (extract exampleStream).vertices = ["A", "B", "C"] := by
  decide

/-- The graph built from `exampleStream`, on every run: the only adjacency
recorded is `A` in the row of `B`. -/
theorem exampleStream_parse {outer : List variableUsage} {inner : Nat → List variableUsage}
    (h : Enumerates (extract exampleStream).allVariables outer inner) :
    parseFile exampleStream outer inner =
      .ok { allVariables := [("A", ⟨0, 0, 2⟩), ("B", ⟨1, 1, 1⟩), ("C", ⟨2, 3, 3⟩)]
            vertices := ["A", "B", "C"]
            adjacencyList := [[], [0], []]
            result := [0, 0, 0] } := by
  obtain ⟨adj, h1, h2, h3⟩ := parseFile_spec exampleStream outer inner h
  simp only [exampleStream_table.1, exampleStream_table.2] at h1 h2 h3
  obtain ⟨r0, hr0, hp0⟩ := h3 ⟨0, 0, 2⟩ (by decide)
  obtain ⟨r1, hr1, hp1⟩ := h3 ⟨1, 1, 1⟩ (by decide)
  obtain ⟨r2, hr2, hp2⟩ := h3 ⟨2, 3, 3⟩ (by decide)
  have e0 : r0 = [] := List.Perm.eq_nil hp0
  have e1 : r1 = [0] := List.perm_singleton.mp hp1
  have e2 : r2 = [] := List.Perm.eq_nil hp2
  subst e0 e1 e2
  have hadj : adj = [[], [0], []] := by
    apply List.ext_getElem? 
    intro i
    rcases i with _ | _ | _ | i
    · exact hr0
    · exact hr1
    · exact hr2
    · have : adj.length ≤ i + 1 + 1 + 1 := by rw [h2]; simp
      rw [List.getElem?_eq_none_iff.mpr this]
      rfl
  rw [h1, hadj]
  rfl

/-- The only list of the colours 1 and 2 by non-increasing population when
colour 1 has the greater population. -/
theorem sortedMem_example {S : List Nat} (hp : S.Perm [1, 2])
    (hs : S.Pairwise (fun a b => [1, 2, 1].count b ≤ [1, 2, 1].count a)) : S = [1, 2] := by
  have hl : S.length = 2 := hp.length_eq
  obtain ⟨x, y, rfl⟩ := List.length_eq_two.mp hl
  have hx : x = 1 ∨ x = 2 := by simpa using hp.subset (List.mem_cons_self x [y])
  have hy : y = 1 ∨ y = 2 := by
    simpa using hp.subset (List.mem_cons_of_mem x (List.mem_cons_self y []))
  have hn : [x, y].Nodup := hp.nodup_iff.mpr (by decide)
  have hxy : [1, 2, 1].count y ≤ [1, 2, 1].count x := by
    simpa using hs
  rcases hx with rfl | rfl <;> rcases hy with rfl | rfl
  · simp at hn
  · rfl
  · exact absurd hxy (by decide)
  · simp at hn

/-- C9. End-to-end example: for the stream with `A` at the instructions 0 and 2,
`B` at 1 and `C` at 3, and the register budget 2, every run of `main` (whatever
the enumeration orders of the two maps, for every library sort keeping its
promise), with the palette size 3 and with the palette size 12, records the
interference between `A` and `B` only (in the row of `B`), colours `A=1`, `B=2`,
`C=1`, counts the populations `{1:2, 2:1}`, promotes both colours, resets no
vertex and reports 2 needed registers. -/
theorem main_example (outer : List variableUsage) (inner : Nat → List variableUsage)
    (sort : (Nat → Nat → Bool) → List Nat → List Nat) (keys : List Nat)
    (h : Enumerates (extract exampleStream).allVariables outer inner)
    (hsort : IsSort sort) (hkeys : keys.Perm (memKeys (tally [1, 2, 1]).1)) :
    ∀ K, K = 3 ∨ K = 12 →
      main K exampleStream outer inner sort keys 2 =
        .ok { parsed :=
                { allVariables := [("A", ⟨0, 0, 2⟩), ("B", ⟨1, 1, 1⟩), ("C", ⟨2, 3, 3⟩)]
                  vertices := ["A", "B", "C"]
                  adjacencyList := [[], [0], []]
                  result := [0, 0, 0] }
              ok := true
              colouring := [1, 2, 1]
              allocation := some
                { max := 2, memory := [(1, 2), (2, 1)], sortedMem := [1, 2],
                  promoted := [1, 2], spilled := [], result := [1, 2, 1] } } := by
  obtain ⟨S, hp, hs, ha⟩ := allocate_spec [1, 2, 1] hsort hkeys (by decide : (0 : Int) ≤ 2)
  have hS : S = [1, 2] := sortedMem_example hp hs
  subst hS
  have hc3 : colorGraph [[], [0], []] 3 [0, 0, 0] 0 = .ok (true, [1, 2, 1]) := rfl
  have hc12 : colorGraph [[], [0], []] 12 [0, 0, 0] 0 = .ok (true, [1, 2, 1]) := rfl
  intro K hK
  unfold main
  rw [exampleStream_parse h]
  dsimp only
  rcases hK with rfl | rfl
  · rw [hc3]; dsimp only; rw [ha]; rfl
  · rw [hc12]; dsimp only; rw [ha]; rfl

/-- The theorem `main_example` on the run that enumerates both maps in the
order of insertion and sorts with the library's insertion sort. -/
theorem main_example_witness :
    Enumerates (extract exampleStream).allVariables
      (values (extract exampleStream).allVariables)
      (insertionOrder (extract exampleStream).allVariables) ∧
    IsSort insertionSort ∧ [1, 2].Perm (memKeys (tally [1, 2, 1]).1) ∧
    ∀ K, K = 3 ∨ K = 12 →
      main K exampleStream (values (extract exampleStream).allVariables)
          (insertionOrder (extract exampleStream).allVariables) insertionSort [1, 2] 2 =
        .ok { parsed :=
                { allVariables := [("A", ⟨0, 0, 2⟩), ("B", ⟨1, 1, 1⟩), ("C", ⟨2, 3, 3⟩)]
                  vertices := ["A", "B", "C"]
                  adjacencyList := [[], [0], []]
                  result := [0, 0, 0] }
              ok := true
              colouring := [1, 2, 1]
              allocation := some
                { max := 2, memory := [(1, 2), (2, 1)], sortedMem := [1, 2],
                  promoted := [1, 2], spilled := [], result := [1, 2, 1] } } :=
  ⟨⟨List.Perm.refl _, fun _ => List.Perm.refl _⟩, isSort_insertionSort, by decide,
    main_example _ _ insertionSort [1, 2]
      ⟨List.Perm.refl _, fun _ => List.Perm.refl _⟩ isSort_insertionSort (by decide)⟩

/-! ## The recursion budget is never exhausted -/

theorem colorLoop_ne_outOfFuel {adjacencyList : List (List Nat)} {v n : Nat}
    {next : List Nat → Except Fault (Bool × List Nat)}
    (hfuel : ∀ res, res.length = n → v + 1 < n → next res ≠ .error .outOfFuel)
    (hlen : ∀ res flag r, next res = .ok (flag, r) → r.length = res.length) :
    ∀ (todo i : Nat) (result : List Nat), result.length = n →
      colorLoop adjacencyList next v todo i result ≠ .error .outOfFuel := by
  intro todo
  induction todo with
  | zero => intro i result _ h; cases h
  | succ todo ih =>
    intro i result hres h
    unfold colorLoop at h
    cases hp : isPossible adjacencyList result v i with
    | error e =>
      rw [hp] at h
      dsimp only at h
      unfold isPossible at hp
      cases h1 : index adjacencyList v with
      | error e1 =>
        rw [h1] at hp
        unfold index at h1
        split at h1
        · cases h1
        · cases h1; cases hp; cases h
      | ok nbrs =>
        rw [h1] at hp
        dsimp only at hp
        have : ∀ (l : List Nat) (e : Fault), isPossibleLoop result i l = .error e →
            e = .indexOutOfRange := by
          intro l
          induction l with
          | nil => intro e he; cases he
          | cons b rest ihl =>
            intro e he
            unfold isPossibleLoop at he
            cases h2 : index result b with
            | error e2 =>
              rw [h2] at he
              unfold index at h2
              split at h2
              · cases h2
              · cases h2; cases he; rfl
            | ok c =>
              rw [h2] at he
              dsimp only at he
              split at he
              · cases he
              · exact ihl e he
        have := this nbrs e hp
        subst this
        cases h
    | ok p =>
      rw [hp] at h
      cases p with
      | false => exact ih (i + 1) result hres h
      | true =>
        dsimp only at h
        cases ha : assign result v i with
        | error e =>
          rw [ha] at h
          unfold assign at ha
          split at ha
          · cases ha
          · cases ha; cases h
        | ok result1 =>
          rw [ha] at h
          obtain ⟨hv, rfl⟩ := assign_eq_ok.mp ha
          dsimp only at h
          have hl1 : (result.set v i).length = n := by simpa using hres
          split at h
          · rename_i hlt
            cases hn : next (result.set v i) with
            | error e =>
              rw [hn] at h
              dsimp only at h
              cases h
              exact hfuel _ hl1 (by omega) hn
            | ok out =>
              rw [hn] at h
              obtain ⟨flag2, r2⟩ := out
              cases flag2 with
              | true => cases h
              | false =>
                dsimp only at h
                exact ih (i + 1) r2 ((hlen _ _ _ hn).trans hl1) h
          · cases h

/-- A call `colorGraph(vertex)` never stops for lack of budget, on any input. -/
theorem colorGraphFuel_ne_outOfFuel (adjacencyList : List (List Nat)) (K : Nat) :
    ∀ (fuel v : Nat) (result : List Nat), 1 ≤ fuel → result.length + 1 ≤ fuel + v →
      colorGraphFuel adjacencyList K fuel v result ≠ .error .outOfFuel := by
  intro fuel
  induction fuel with
  | zero => intro v result h; omega
  | succ fuel ih =>
    intro v result _ hf
    unfold colorGraphFuel
    exact colorLoop_ne_outOfFuel
      (fun res hres hlt => ih (v + 1) res (by omega) (by omega))
      (fun res flag r h => (colorGraphFuel_spec adjacencyList K fuel (v + 1) res flag r h).1.1)
      _ _ result rfl

theorem colorGraph_ne_outOfFuel (adjacencyList : List (List Nat)) (K : Nat)
    (result : List Nat) (v : Nat) :
    colorGraph adjacencyList K result v ≠ .error .outOfFuel :=
  colorGraphFuel_ne_outOfFuel adjacencyList K _ v result (by omega) (by omega)

/-! ## C11: the search of the code and the search of the specification -/

/-- C11 as stated fails. The claim speaks of every symmetric, irreflexive
adjacency list: on the graph `cliquePathGraph` with the palette of size 12 the
reference search of the specification succeeds with the assignment
`1,...,9,10,11,10,11,11`, while `colorGraph(0)` started from the all-zero
assignment returns false; on the path `bentPath` with the palette of size 3 both
succeed, the reference search with `1,2,1,2` and `colorGraph(0)` with `2,1,2,1`.
(Neither graph is one that `parseFile` builds; on those the two searches agree,
see `parsed_search`.) -/
theorem colorGraph_differs_from_specSearch :
    (InRange cliquePathGraph 14 ∧ Symmetric cliquePathGraph ∧
      Irreflexive cliquePathGraph ∧
      specSearch cliquePathGraph 12 14 =
        (true, [1, 2, 3, 4, 5, 6, 7, 8, 9, 10, 11, 10, 11, 11]) ∧
      colorGraph cliquePathGraph 12 (List.replicate 14 0) 0 =
        .ok (false, [1, 2, 3, 4, 5, 6, 7, 8, 9, 10, 10, 11, 11, 0])) ∧
    (InRange bentPath 4 ∧ Symmetric bentPath ∧ Irreflexive bentPath ∧
      specSearch bentPath 3 4 = (true, [1, 2, 1, 2]) ∧
      colorGraph bentPath 3 (List.replicate 4 0) 0 = .ok (true, [2, 1, 2, 1])) :=
  ⟨⟨by decide, by decide, by decide, rfl, rfl⟩,
    ⟨by decide, by decide, by decide, rfl, rfl⟩⟩

/-! ## C12: what a failed call leaves in `result` -/

/-- C12 (the code departs from the claim). The run of `main` on `twelveStream`
(twelve variables used by one instruction, palette of size 12) ends with
`colorGraph(0)` returning false and `result` holding the colours `1..11` at the
vertices `0..10`: nothing is reset.  Likewise the call `colorGraph(1)` on the
graph `pathGraph` with the palette of size 3, started at vertex 1 from the
assignment `1,0,0,0,0`, returns false and leaves `1,1,2,2,0`. -/
theorem colorGraph_leaves_colours :
    main 12 twelveStream (values (extract twelveStream).allVariables)
        (insertionOrder (extract twelveStream).allVariables) insertionSort [] 2 =
      .ok { parsed :=
              { allVariables := (extract twelveStream).allVariables
                vertices := ["A", "B", "C", "D", "E", "F", "G", "H", "I", "J", "K", "L"]
                adjacencyList :=
                  [[1, 2, 3, 4, 5, 6, 7, 8, 9, 10, 11], [0, 2, 3, 4, 5, 6, 7, 8, 9, 10, 11],
                   [0, 1, 3, 4, 5, 6, 7, 8, 9, 10, 11], [0, 1, 2, 4, 5, 6, 7, 8, 9, 10, 11],
                   [0, 1, 2, 3, 5, 6, 7, 8, 9, 10, 11], [0, 1, 2, 3, 4, 6, 7, 8, 9, 10, 11],
                   [0, 1, 2, 3, 4, 5, 7, 8, 9, 10, 11], [0, 1, 2, 3, 4, 5, 6, 8, 9, 10, 11],
                   [0, 1, 2, 3, 4, 5, 6, 7, 9, 10, 11], [0, 1, 2, 3, 4, 5, 6, 7, 8, 10, 11],
                   [0, 1, 2, 3, 4, 5, 6, 7, 8, 9, 11], [0, 1, 2, 3, 4, 5, 6, 7, 8, 9, 10]]
                result := List.replicate 12 0 }
            ok := false
            colouring := [1, 2, 3, 4, 5, 6, 7, 8, 9, 10, 11, 0]
            allocation := none } ∧
    colorGraph pathGraph 3 [1, 0, 0, 0, 0] 1 = .ok (false, [1, 1, 2, 2, 0]) :=
  ⟨rfl, rfl⟩

/-! ## C13: the order of the neighbour lists -/

theorem index_of_le {α : Type} {xs : List α} {i : Nat} (h : xs.length ≤ i) :
    index xs i = .error .indexOutOfRange := by
  unfold index
  rw [List.getElem?_eq_none_iff.mpr h]

/-- On adjacency lists over `0..V-1` with the same neighbours at every vertex,
`isPossible` returns the same. -/
theorem isPossible_congr {adj1 adj2 : List (List Nat)} {V : Nat} {result : List Nat}
    (h1 : InRange adj1 V) (h2 : InRange adj2 V)
    (hmem : ∀ a, a < V → ∀ b, b ∈ neighbours adj1 a ↔ b ∈ neighbours adj2 a)
    (hres : result.length = V) (v c : Nat) :
    isPossible adj1 result v c = isPossible adj2 result v c := by
  by_cases hv : v < V
  · obtain ⟨p1, hp1⟩ := isPossible_total h1 hres hv c
    obtain ⟨p2, hp2⟩ := isPossible_total h2 hres hv c
    rw [hp1, hp2]
    cases p1 with
    | true =>
      have : isPossible adj2 result v c = .ok true :=
        isPossible_eq_ok_true_of h2 hres hv
          (fun b hb => isPossible_eq_ok_true hp1 b ((hmem v hv b).mpr hb))
      rw [hp2] at this
      exact this.symm
    | false =>
      cases p2 with
      | false => rfl
      | true =>
        have : isPossible adj1 result v c = .ok true :=
          isPossible_eq_ok_true_of h1 hres hv
            (fun b hb => isPossible_eq_ok_true hp2 b ((hmem v hv b).mp hb))
        rw [hp1] at this
        exact this
  · unfold isPossible
    rw [index_of_le (by rw [h1.1]; omega), index_of_le (by rw [h2.1]; omega)]

theorem colorLoop_congr {adj1 adj2 : List (List Nat)} {V v : Nat}
    {next1 next2 : List Nat → Except Fault (Bool × List Nat)}
    (h1 : InRange adj1 V) (h2 : InRange adj2 V)
    (hmem : ∀ a, a < V → ∀ b, b ∈ neighbours adj1 a ↔ b ∈ neighbours adj2 a)
    (hnext : ∀ res, res.length = V → next1 res = next2 res)
    (hlen : ∀ res flag r, next1 res = .ok (flag, r) → r.length = res.length) :
    ∀ (todo i : Nat) (result : List Nat), result.length = V →
      colorLoop adj1 next1 v todo i result = colorLoop adj2 next2 v todo i result := by
  intro todo
  induction todo with
  | zero => intro i result _; rfl
  | succ todo ih =>
    intro i result hres
    rw [colorLoop, colorLoop, ← isPossible_congr h1 h2 hmem hres v i]
    cases hp : isPossible adj1 result v i with
    | error e => rfl
    | ok p =>
      cases p with
      | false => exact ih (i + 1) result hres
      | true =>
        dsimp only
        cases ha : assign result v i with
        | error e => rfl
        | ok result1 =>
          obtain ⟨hv, rfl⟩ := assign_eq_ok.mp ha
          have hl1 : (result.set v i).length = V := by simpa using hres
          dsimp only
          split
          · rw [← hnext _ hl1]
            cases hn : next1 (result.set v i) with
            | error e => rfl
            | ok out =>
              obtain ⟨flag2, r2⟩ := out
              cases flag2 with
              | true => rfl
              | false => exact ih (i + 1) r2 ((hlen _ _ _ hn).trans hl1)
          · rfl

theorem colorGraphFuel_congr {adj1 adj2 : List (List Nat)} {V : Nat} (K : Nat)
    (h1 : InRange adj1 V) (h2 : InRange adj2 V)
    (hmem : ∀ a, a < V → ∀ b, b ∈ neighbours adj1 a ↔ b ∈ neighbours adj2 a) :
    ∀ (fuel v : Nat) (result : List Nat), result.length = V →
      colorGraphFuel adj1 K fuel v result = colorGraphFuel adj2 K fuel v result := by
  intro fuel
  induction fuel with
  | zero => intro v result _; rfl
  | succ fuel ih =>
    intro v result hres
    unfold colorGraphFuel
    exact colorLoop_congr h1 h2 hmem (fun res hr => ih (v + 1) res hr)
      (fun res flag r h => (colorGraphFuel_spec adj1 K fuel (v + 1) res flag r h).1.1)
      _ _ result hres

theorem inRange_of_perm {adj1 adj2 : List (List Nat)} {V : Nat} (h1 : InRange adj1 V)
    (hlen : adj2.length = V)
    (hperm : ∀ a, a < V → (neighbours adj1 a).Perm (neighbours adj2 a)) :
    InRange adj2 V :=
  ⟨hlen, fun a ha b hb => h1.2 a ha b ((hperm a ha).mem_iff.mpr hb)⟩

/-- C13. Independence from adjacency order: for every palette size `K` and any
two adjacency lists over the vertices `0..V-1` in which the neighbour list of
each vertex is a permutation of the other's, `colorGraph(0)` started from the
all-zero assignment returns the same flag and leaves the same `result` (and so
does every call `colorGraph(v)` from any `result` of length `V`). -/
theorem colorGraph_order_independent (adj1 adj2 : List (List Nat)) (K V : Nat)
    (h1 : InRange adj1 V) (hlen : adj2.length = V)
    (hperm : ∀ a, a < V → (neighbours adj1 a).Perm (neighbours adj2 a)) :
    colorGraph adj1 K (List.replicate V 0) 0 = colorGraph adj2 K (List.replicate V 0) 0 ∧
    ∀ (result : List Nat) (v : Nat), result.length = V →
      colorGraph adj1 K result v = colorGraph adj2 K result v := by
  have key : ∀ (result : List Nat) (v : Nat), result.length = V →
      colorGraph adj1 K result v = colorGraph adj2 K result v := fun result v hres =>
    colorGraphFuel_congr K h1 (inRange_of_perm h1 hlen hperm)
      (fun a ha b => (hperm a ha).mem_iff) _ v result hres
  exact ⟨key _ 0 (List.length_replicate V 0), key⟩

/-- The theorem `colorGraph_order_independent` applied to the path `0 - 1 - 2`
with the row of vertex 1 in its two orders. -/
theorem colorGraph_order_independent_witness :
    InRange [[1], [0, 2], [1]] 3 ∧ [[1], [2, 0], [1]].length = 3 ∧
    (∀ a, a < 3 → (neighbours [[1], [0, 2], [1]] a).Perm (neighbours [[1], [2, 0], [1]] a)) ∧
    (colorGraph [[1], [0, 2], [1]] 4 (List.replicate 3 0) 0 =
        colorGraph [[1], [2, 0], [1]] 4 (List.replicate 3 0) 0 ∧
      ∀ (result : List Nat) (v : Nat), result.length = 3 →
        colorGraph [[1], [0, 2], [1]] 4 result v = colorGraph [[1], [2, 0], [1]] 4 result v) :=
  ⟨by decide, by decide, by decide,
    colorGraph_order_independent [[1], [0, 2], [1]] [[1], [2, 0], [1]] 4 3
      (by decide) (by decide) (by decide)⟩

/-! ## C14: termination -/

/-- The colour loop returns the same when the nested call is replaced by one
that returns at least as often. -/
theorem colorLoop_mono {adjacencyList : List (List Nat)} {v : Nat}
    {next1 next2 : List Nat → Except Fault (Bool × List Nat)}
    (hnext : ∀ res out, next1 res = .ok out → next2 res = .ok out) :
    ∀ (todo i : Nat) (result : List Nat) (out : Bool × List Nat),
      colorLoop adjacencyList next1 v todo i result = .ok out →
      colorLoop adjacencyList next2 v todo i result = .ok out := by
  intro todo
  induction todo with
  | zero => intro i result out h; exact h
  | succ todo ih =>
    intro i result out h
    rw [colorLoop] at h ⊢
    cases hp : isPossible adjacencyList result v i with
    | error e => rw [hp] at h; cases h
    | ok p =>
      rw [hp] at h
      cases p with
      | false => exact ih (i + 1) result out h
      | true =>
        dsimp only at h ⊢
        cases ha : assign result v i with
        | error e => rw [ha] at h; cases h
        | ok result1 =>
          rw [ha] at h
          dsimp only at h ⊢
          split
          · rename_i hlt
            rw [if_pos hlt] at h
            cases hn : next1 result1 with
            | error e => rw [hn] at h; cases h
            | ok out1 =>
              rw [hn] at h
              rw [hnext _ _ hn]
              obtain ⟨flag2, r2⟩ := out1
              cases flag2 with
              | true => exact h
              | false => exact ih (i + 1) r2 out h
          · rename_i hlt
            rw [if_neg hlt] at h
            exact h

/-- A larger budget does not change what a call returns. -/
theorem colorGraphFuel_succ (adjacencyList : List (List Nat)) (K : Nat) :
    ∀ (fuel v : Nat) (result : List Nat) (out : Bool × List Nat),
      colorGraphFuel adjacencyList K fuel v result = .ok out →
      colorGraphFuel adjacencyList K (fuel + 1) v result = .ok out := by
  intro fuel
  induction fuel with
  | zero => intro v result out h; cases h
  | succ fuel ih =>
    intro v result out h
    rw [colorGraphFuel] at h ⊢
    exact colorLoop_mono (fun res o ho => ih (v + 1) res o ho) _ _ result out h

theorem colorGraphFuel_le (adjacencyList : List (List Nat)) (K : Nat) {fuel1 fuel2 : Nat}
    (hle : fuel1 ≤ fuel2) (v : Nat) (result : List Nat) (out : Bool × List Nat)
    (h : colorGraphFuel adjacencyList K fuel1 v result = .ok out) :
    colorGraphFuel adjacencyList K fuel2 v result = .ok out := by
  induction hle with
  | refl => exact h
  | step _ ih => exact colorGraphFuel_succ adjacencyList K _ v result out ih

/-- On an adjacency list over `0..V-1`, a call `colorGraph(v)` with `v < V`
returns a flag and a `result`, the same for every budget of at least `V - v`
nested calls. -/
theorem colorGraph_returns {adjacencyList : List (List Nat)} {V : Nat} (K : Nat)
    (hrange : InRange adjacencyList V) {v : Nat} (hv : v < V) {result : List Nat}
    (hres : result.length = V) :
    ∃ flag r, r.length = V ∧ colorGraph adjacencyList K result v = .ok (flag, r) ∧
      ∀ fuel, V - v ≤ fuel → colorGraphFuel adjacencyList K fuel v result = .ok (flag, r) := by
  obtain ⟨flag, r, h, hr⟩ := colorGraphFuel_total K hrange (V - v) v result hv (by omega) hres
  refine ⟨flag, r, hr, ?_, fun fuel hf => colorGraphFuel_le adjacencyList K hf v result _ h⟩
  exact colorGraphFuel_le adjacencyList K (by omega) v result _ h

/-- C14. Termination: for every palette size `K`, every `V ≥ 1`, every
adjacency list with neighbour ids in `0..V-1` and every start vertex `v < V`,
`colorGraph(v)` terminates with a flag and a `result`.  Each nested call is on
`v + 1` with `v + 1 < V` (see `colorLoop`), and a budget of `V - v ≤ V` nested
calls is never exceeded: every such budget gives the same outcome.  (`V ≥ 1`
follows from `v < V`.) -/
theorem colorGraph_terminates (adjacencyList : List (List Nat)) (K V v : Nat)
    (result : List Nat) (hrange : InRange adjacencyList V) (hv : v < V)
    (hres : result.length = V) :
    V - v ≤ V ∧
    ∃ flag r, r.length = V ∧ colorGraph adjacencyList K result v = .ok (flag, r) ∧
      ∀ fuel, V - v ≤ fuel → colorGraphFuel adjacencyList K fuel v result = .ok (flag, r) :=
  ⟨Nat.sub_le V v, colorGraph_returns K hrange hv hres⟩

/-- The theorem `colorGraph_terminates` applied to the triangle with two
usable colours, from vertex 0. -/
theorem colorGraph_terminates_witness :
    InRange [[1, 2], [0, 2], [0, 1]] 3 ∧ 0 < 3 ∧ [0, 0, 0].length = 3 ∧
    (3 - 0 ≤ 3 ∧
      ∃ flag r, r.length = 3 ∧
        colorGraph [[1, 2], [0, 2], [0, 1]] 3 [0, 0, 0] 0 = .ok (flag, r) ∧
        ∀ fuel, 3 - 0 ≤ fuel →
          colorGraphFuel [[1, 2], [0, 2], [0, 1]] 3 fuel 0 [0, 0, 0] = .ok (flag, r)) :=
  ⟨by decide, by decide, rfl,
    colorGraph_terminates [[1, 2], [0, 2], [0, 1]] 3 3 0 [0, 0, 0] (by decide)
      (by decide) rfl⟩

/-! ## C15: `sortedKeys` -/

/-- C15. `sortedKeys` sorts a map by value: for every map `m` from colour id to
count (its keys distinct), every enumeration `keys` of its keys and every
library sort keeping its promise, `sortedKeys(m)` contains every key of `m`
exactly once, its length is `len(m)`, and the counts `m[key]` are
non-increasing along the returned list. -/
theorem sortedKeys_sorted (sort : (Nat → Nat → Bool) → List Nat → List Nat) (m : Memory)
    (keys : List Nat) (hsort : IsSort sort) (hm : (memKeys m).Nodup)
    (hkeys : keys.Perm (memKeys m)) :
    (sortedKeys sort m keys).Perm (memKeys m) ∧ (sortedKeys sort m keys).Nodup ∧
      (sortedKeys sort m keys).length = m.length ∧
      (sortedKeys sort m keys).Pairwise (fun a b => memGet m b ≤ memGet m a) := by
  have hS : sortedKeys sort m keys =
      sort (fun a b => decide (memGet m a > memGet m b)) keys := rfl
  obtain ⟨h1, h2⟩ := hsort (memGet m) keys
  rw [← hS] at h1 h2
  have hp := h1.trans hkeys
  refine ⟨hp, hp.nodup_iff.mpr hm, ?_, h2⟩
  rw [hp.length_eq]
  simp [memKeys]

/-- The theorem `sortedKeys_sorted` applied to the map `{1: 2, 2: 3, 3: 3}`
enumerated as `3, 1, 2`, with the library's insertion sort. -/
theorem sortedKeys_sorted_witness :
    IsSort insertionSort ∧ (memKeys [(1, 2), (2, 3), (3, 3)]).Nodup ∧
    [3, 1, 2].Perm (memKeys [(1, 2), (2, 3), (3, 3)]) ∧
    sortedKeys insertionSort [(1, 2), (2, 3), (3, 3)] [3, 1, 2] = [3, 2, 1] ∧
    ((sortedKeys insertionSort [(1, 2), (2, 3), (3, 3)] [3, 1, 2]).Perm
        (memKeys [(1, 2), (2, 3), (3, 3)]) ∧
      (sortedKeys insertionSort [(1, 2), (2, 3), (3, 3)] [3, 1, 2]).Nodup ∧
      (sortedKeys insertionSort [(1, 2), (2, 3), (3, 3)] [3, 1, 2]).length =
        [(1, 2), (2, 3), (3, 3)].length ∧
      (sortedKeys insertionSort [(1, 2), (2, 3), (3, 3)] [3, 1, 2]).Pairwise
        (fun a b => memGet [(1, 2), (2, 3), (3, 3)] b ≤ memGet [(1, 2), (2, 3), (3, 3)] a)) :=
  ⟨isSort_insertionSort, by decide, by decide, by decide,
    sortedKeys_sorted insertionSort [(1, 2), (2, 3), (3, 3)] [3, 1, 2] isSort_insertionSort
      (by decide) (by decide)⟩

/-! ## The graph of the pipeline -/

/-- Each id below the number of vertices is the index of a value of the table. -/
theorem IsTableOf.exists_value {L : List (List String)} {m : VarMap} {vs : List String}
    (h : IsTableOf L m vs) {i : Nat} (hi : i < vs.length) :
    ∃ u ∈ values m, u.index = i := by
  have h1 : i ∈ (values m).map (fun u => u.index) := by
    rw [h.ids, List.mem_range]
    have := h.length_eq
    simp only [values, List.length_map] at this
    omega
  obtain ⟨u, hu, e⟩ := List.mem_map.mp h1
  exact ⟨u, hu, e⟩

theorem appendNeighbours_nodup (each : variableUsage) {others : List variableUsage}
    (h : (others.map (fun u => u.index)).Nodup) :
    (appendNeighbours each [] others).Nodup := by
  rw [appendNeighbours_eq, List.nil_append]
  exact List.Nodup.sublist ((List.filter_sublist _).map _) h

/-- The graph built by `parseFile`, whatever the enumeration orders: it is an
adjacency list over the ids `0..V-1`, and the row of each variable lists, each
once, the ids of the other variables that `intersects` accepts. -/
theorem parseFile_graph {lines : List Line} {outer : List variableUsage}
    {inner : Nat → List variableUsage} {p : Parsed}
    (h : Enumerates (extract lines).allVariables outer inner)
    (hp : parseFile lines outer inner = .ok p) :
    p.allVariables = (extract lines).allVariables ∧
    p.vertices = (extract lines).vertices ∧
    p.result = List.replicate p.vertices.length 0 ∧
    InRange p.adjacencyList p.vertices.length ∧
    ∀ a ∈ values p.allVariables,
      (neighbours p.adjacencyList a.index).Nodup ∧
      ∀ b, b ∈ neighbours p.adjacencyList a.index ↔
        ∃ other ∈ values p.allVariables, other.index = b ∧ a.index ≠ other.index ∧
          intersects a other = true := by
  have hn := parseFile_neighbours h hp
  obtain ⟨adj, h1, h2, h3⟩ := parseFile_spec lines outer inner h
  rw [h1] at hp
  cases hp
  have ht := (extract_isTableOf lines).1
  dsimp only at hn ⊢
  refine ⟨rfl, rfl, rfl, ⟨h2, fun a ha b hb => ?_⟩, fun a ha => ⟨?_, hn a ha⟩⟩
  · obtain ⟨u, hu, rfl⟩ := ht.exists_value ha
    obtain ⟨o, ho, rfl, -, -⟩ := (hn u hu b).mp hb
    exact ht.index_lt ho
  · obtain ⟨row, hrow, hperm⟩ := h3 a ha
    have e : neighbours adj a.index = row := by
      simp [neighbours, List.getD_eq_getElem?_getD, hrow]
    rw [e, hperm.nodup_iff]
    exact appendNeighbours_nodup a ht.nodup_ids

/-! ## C16: the empty graph -/

/-- C16 (the code departs from the claim). For the stream `addressStream`, which
has no operand of length at most 2, the variable table and the graph are empty,
and every run of `main` with the palette size 12 stops with an index out of
range: `colorGraph(0)` reads `adjacencyList[0]` in `isPossible(0, 1)`. -/
theorem main_faults_on_empty_graph (outer : List variableUsage)
    (inner : Nat → List variableUsage)
    (sort : (Nat → Nat → Bool) → List Nat → List Nat) (keys : List Nat) (registers : Int)
    (h : Enumerates (extract addressStream).allVariables outer inner) :
    parseFile addressStream outer inner =
        .ok { allVariables := [], vertices := [], adjacencyList := [], result := [] } ∧
      colorGraph [] 12 [] 0 = .error .indexOutOfRange ∧
      main 12 addressStream outer inner sort keys registers = .error .indexOutOfRange := by
  obtain ⟨adj, h1, h2, -⟩ := parseFile_spec addressStream outer inner h
  have e1 : (extract addressStream).allVariables = [] := by decide
  have e2 : (extract addressStream).vertices = [] := by decide
  simp only [e1, e2, List.length_nil, List.replicate_zero] at h1 h2
  have e3 : adj = [] := List.length_eq_zero.mp h2
  subst e3
  refine ⟨h1, rfl, ?_⟩
  unfold main
  rw [h1]
  rfl

/-- The theorem `main_faults_on_empty_graph` on the run that enumerates the
(empty) map in the order of insertion. -/
theorem main_faults_on_empty_graph_witness :
    Enumerates (extract addressStream).allVariables
      (values (extract addressStream).allVariables)
      (insertionOrder (extract addressStream).allVariables) ∧
    (parseFile addressStream (values (extract addressStream).allVariables)
        (insertionOrder (extract addressStream).allVariables) =
        .ok { allVariables := [], vertices := [], adjacencyList := [], result := [] } ∧
      colorGraph [] 12 [] 0 = .error .indexOutOfRange ∧
      main 12 addressStream (values (extract addressStream).allVariables)
        (insertionOrder (extract addressStream).allVariables) insertionSort [] 2 =
          .error .indexOutOfRange) :=
  ⟨⟨List.Perm.refl _, fun _ => List.Perm.refl _⟩,
    main_faults_on_empty_graph _ _ insertionSort [] 2
      ⟨List.Perm.refl _, fun _ => List.Perm.refl _⟩⟩

/-- On a graph built from a stream with at least one variable, `colorGraph(0)`
returns a flag: no index is out of range. -/
theorem colorGraph_on_parsed {lines : List Line} {outer : List variableUsage}
    {inner : Nat → List variableUsage} {p : Parsed} (K : Nat)
    (h : Enumerates (extract lines).allVariables outer inner)
    (hp : parseFile lines outer inner = .ok p) (hV : 1 ≤ p.vertices.length) :
    ∃ flag r, colorGraph p.adjacencyList K p.result 0 = .ok (flag, r) ∧
      r.length = p.vertices.length := by
  obtain ⟨-, -, hres, hrange, -⟩ := parseFile_graph h hp
  have hlen : p.result.length = p.vertices.length := by
    rw [hres]; simp
  exact colorGraph_total K hrange (by omega) hlen

/-! ## C17: the two directions of the graph builder -/

/-- A name first seen earlier in the flattened parameter list is first used in
an instruction that is not later. -/
theorem first_le_first_of_indexOf {L : List (List String)} {x y : String} {f g : Nat}
    (hx : FirstAt L x f) (hy : FirstAt L y g)
    (h : L.flatten.indexOf x < L.flatten.indexOf y) : f ≤ g := by
  by_contra hgf
  have hgf : g < f := by omega
  have hsplit : L.flatten = (L.take (g + 1)).flatten ++ (L.drop (g + 1)).flatten := by
    rw [← List.flatten_append, List.take_append_drop]
  have hgL : g < L.length := by
    by_contra hge
    have := hy.1
    rw [paramsAt_of_le (by omega)] at this
    cases this
  have hyA : y ∈ (L.take (g + 1)).flatten := by
    rw [List.mem_flatten]
    refine ⟨L[g], ?_, ?_⟩
    · rw [List.mem_take_iff_getElem]
      exact ⟨g, by simp; omega, rfl⟩
    · simpa [paramsAt, List.getD_eq_getElem?_getD, List.getElem?_eq_getElem hgL] using hy.1
  have hxA : x ∉ (L.take (g + 1)).flatten := by
    rw [List.mem_flatten]
    rintro ⟨l, hl, hxl⟩
    rw [List.mem_take_iff_getElem] at hl
    obtain ⟨t, ht, rfl⟩ := hl
    have ht1 : t < g + 1 ∧ t < L.length := by simpa using ht
    apply hx.2 t (by omega)
    simpa [paramsAt, List.getD_eq_getElem?_getD, List.getElem?_eq_getElem ht1.2] using hxl
  rw [hsplit, List.indexOf_append_of_mem hyA, List.indexOf_append_of_not_mem hxA] at h
  have := List.indexOf_lt_length.mpr hyA
  omega
/-- The entry of the table at position `i` has the index `i` and the key
`vertices[i]`. -/
theorem IsTableOf.entry_at {L : List (List String)} {m : VarMap} {vs : List String}
    (h : IsTableOf L m vs) {e : String × variableUsage} (he : e ∈ m) :
    e.2.index < vs.length ∧ vs[e.2.index]? = some e.1 ∧ m[e.2.index]? = some e := by
  obtain ⟨i, hi, rfl⟩ := List.getElem_of_mem he
  have h1 : ((values m).map (fun u => u.index))[i]? = (List.range m.length)[i]? := by
    rw [h.ids]
  have h2 : (m[i]).2.index = i := by
    simpa [values, List.getElem?_map, List.getElem?_eq_getElem hi,
      List.getElem?_range hi] using h1
  have h3 : (m.map Prod.fst)[i]? = vs[i]? := by rw [h.keys]
  have hlen : m.length = vs.length := by rw [← h.keys]; simp
  rw [h2]
  refine ⟨by omega, ?_, List.getElem?_eq_getElem hi⟩
  rw [← h3]
  simp [List.getElem?_map, List.getElem?_eq_getElem hi]

/-- The ids follow the first uses: a variable of lower id is first used in an
instruction that is not later. -/
theorem IsTableOf.first_mono {L : List (List String)} {m : VarMap} {vs : List String}
    (h : IsTableOf L m vs) {e1 e2 : String × variableUsage} (h1 : e1 ∈ m) (h2 : e2 ∈ m)
    (hlt : e1.2.index < e2.2.index) : e1.2.first ≤ e2.2.first := by
  obtain ⟨hi, hk1, -⟩ := h.entry_at h1
  obtain ⟨hj, hk2, -⟩ := h.entry_at h2
  have hord := List.pairwise_iff_getElem.mp h.order e1.2.index e2.2.index hi hj hlt
  have e1k : vs[e1.2.index] = e1.1 := by
    have := List.getElem?_eq_getElem hi
    rw [hk1] at this
    exact (Option.some.inj this).symm
  have e2k : vs[e2.2.index] = e2.1 := by
    have := List.getElem?_eq_getElem hj
    rw [hk2] at this
    exact (Option.some.inj this).symm
  rw [e1k, e2k] at hord
  exact first_le_first_of_indexOf (h.first e1 h1) (h.first e2 h2) hord

/-- The facts on two values of the table that the graph builder relies on. -/
theorem IsTableOf.value_facts {L : List (List String)} {m : VarMap} {vs : List String}
    (h : IsTableOf L m vs) {u w : variableUsage} (hu : u ∈ values m) (hw : w ∈ values m) :
    u.first ≤ u.last ∧ (u.index < w.index → u.first ≤ w.first) := by
  obtain ⟨e1, he1, rfl⟩ := List.mem_map.mp hu
  obtain ⟨e2, he2, rfl⟩ := List.mem_map.mp hw
  exact ⟨first_le_last_of (h.first e1 he1) (h.last e1 he1), fun hlt => h.first_mono he1 he2 hlt⟩

theorem overlaps_of_intersects {a b : variableUsage} (ha : a.first ≤ a.last)
    (h : intersects a b = true) : overlaps a b := by
  unfold intersects at h
  unfold overlaps
  simp only [ge_iff_le, Bool.or_eq_true, Bool.and_eq_true, decide_eq_true_eq] at h
  omega

/-- Overlapping intervals are detected from the side of the variable that
starts later. -/
theorem intersects_of_overlaps {a b : variableUsage} (hab : a.first ≤ b.first)
    (h : overlaps a b) : intersects b a = true := by
  unfold overlaps at h
  unfold intersects
  simp only [ge_iff_le, Bool.or_eq_true, Bool.and_eq_true, decide_eq_true_eq]
  omega

/-- What the graph builder guarantees, whatever the enumeration orders. -/
theorem parseFile_edges {lines : List Line} {outer : List variableUsage}
    {inner : Nat → List variableUsage} {p : Parsed}
    (h : Enumerates (extract lines).allVariables outer inner)
    (hp : parseFile lines outer inner = .ok p) :
    (∀ a ∈ values p.allVariables,
      (neighbours p.adjacencyList a.index).Nodup ∧
      ∀ b ∈ neighbours p.adjacencyList a.index,
        ∃ other ∈ values p.allVariables, other.index = b ∧ other.index ≠ a.index ∧
          overlaps a other) ∧
    ∀ a ∈ values p.allVariables, ∀ b ∈ values p.allVariables,
      a.index < b.index → overlaps a b → a.index ∈ neighbours p.adjacencyList b.index := by
  obtain ⟨hm, -, -, -, hrow⟩ := parseFile_graph h hp
  have ht := (extract_isTableOf lines).1
  rw [← hm] at ht
  refine ⟨fun a ha => ⟨(hrow a ha).1, fun b hb => ?_⟩, fun a ha b hb hlt hov => ?_⟩
  · obtain ⟨o, ho, e1, e2, e3⟩ := ((hrow a ha).2 b).mp hb
    exact ⟨o, ho, e1, fun e => e2 e.symm, overlaps_of_intersects (ht.value_facts ha ho).1 e3⟩
  · refine ((hrow b hb).2 a.index).mpr ⟨a, ha, rfl, Nat.ne_of_gt hlt, ?_⟩
    exact intersects_of_overlaps ((ht.value_facts ha hb).2 hlt) hov

/-- C17. What the graph builder guarantees in each direction: for every
instruction stream and every run (whatever the enumeration orders of the map),
every id listed in `adjacencyList[a]` belongs to a variable distinct from `a`
whose interval overlaps the interval of `a`, and is listed once; and whenever
the intervals of two distinct variables overlap, the variable with the larger
id lists the variable with the smaller id. -/
theorem parseFile_edges_each_direction (lines : List Line) (outer : List variableUsage)
    (inner : Nat → List variableUsage) (p : Parsed)
    (h : Enumerates (extract lines).allVariables outer inner)
    (hp : parseFile lines outer inner = .ok p) :
    (∀ a ∈ values p.allVariables,
      (neighbours p.adjacencyList a.index).Nodup ∧
      ∀ b ∈ neighbours p.adjacencyList a.index,
        ∃ other ∈ values p.allVariables, other.index = b ∧ other.index ≠ a.index ∧
          overlaps a other) ∧
    ∀ a ∈ values p.allVariables, ∀ b ∈ values p.allVariables,
      a.index < b.index → overlaps a b → a.index ∈ neighbours p.adjacencyList b.index :=
  parseFile_edges h hp

/-- The theorem `parseFile_edges_each_direction` on the run over
`enclosedStream` that enumerates the map in the order of insertion. -/
theorem parseFile_edges_each_direction_witness :
    Enumerates (extract enclosedStream).allVariables
      (values (extract enclosedStream).allVariables)
      (insertionOrder (extract enclosedStream).allVariables) ∧
    parseFile enclosedStream (values (extract enclosedStream).allVariables)
        (insertionOrder (extract enclosedStream).allVariables) =
      .ok { allVariables := [("A", ⟨0, 0, 2⟩), ("B", ⟨1, 1, 1⟩)], vertices := ["A", "B"],
            adjacencyList := [[], [0]], result := [0, 0] } ∧
    ((∀ a ∈ values [("A", (⟨0, 0, 2⟩ : variableUsage)), ("B", ⟨1, 1, 1⟩)],
      (neighbours [[], [0]] a.index).Nodup ∧
      ∀ b ∈ neighbours [[], [0]] a.index,
        ∃ other ∈ values [("A", (⟨0, 0, 2⟩ : variableUsage)), ("B", ⟨1, 1, 1⟩)],
          other.index = b ∧ other.index ≠ a.index ∧ overlaps a other) ∧
    ∀ a ∈ values [("A", (⟨0, 0, 2⟩ : variableUsage)), ("B", ⟨1, 1, 1⟩)],
      ∀ b ∈ values [("A", (⟨0, 0, 2⟩ : variableUsage)), ("B", ⟨1, 1, 1⟩)],
        a.index < b.index → overlaps a b → a.index ∈ neighbours [[], [0]] b.index) :=
  ⟨⟨List.Perm.refl _, fun _ => List.Perm.refl _⟩, rfl,
    parseFile_edges_each_direction enclosedStream _ _
      { allVariables := [("A", ⟨0, 0, 2⟩), ("B", ⟨1, 1, 1⟩)], vertices := ["A", "B"],
        adjacencyList := [[], [0]], result := [0, 0] }
      ⟨List.Perm.refl _, fun _ => List.Perm.refl _⟩ rfl⟩

/-! ## C18: overlapping variables never share a colour -/

theorem overlaps_symm {a b : variableUsage} (h : overlaps a b) : overlaps b a := by
  unfold overlaps at h ⊢
  omega

/-- After a successful `colorGraph(0)` on the graph of the pipeline every
variable holds a colour in `1..K-1`, and two distinct variables with
overlapping intervals hold different colours. -/
theorem parsed_colouring {lines : List Line} {outer : List variableUsage}
    {inner : Nat → List variableUsage} {p : Parsed} {K : Nat} {r : List Nat}
    (h : Enumerates (extract lines).allVariables outer inner)
    (hp : parseFile lines outer inner = .ok p)
    (hc : colorGraph p.adjacencyList K p.result 0 = .ok (true, r)) :
    r.length = p.vertices.length ∧
    (∀ u ∈ values p.allVariables, 1 ≤ colorAt r u.index ∧ colorAt r u.index ≤ K - 1) ∧
    ∀ u ∈ values p.allVariables, ∀ w ∈ values p.allVariables, u ≠ w → overlaps u w →
      colorAt r u.index ≠ colorAt r w.index := by
  obtain ⟨hm, hv, hres, hrange, -⟩ := parseFile_graph h hp
  obtain ⟨-, hedge⟩ := parseFile_edges h hp
  have ht := (extract_isTableOf lines).1
  rw [← hm, ← hv] at ht
  obtain ⟨hf, hcol⟩ := colorGraphFuel_spec p.adjacencyList K _ 0 p.result true r hc
  have hcol := hcol rfl
  have hlen : r.length = p.vertices.length := by
    rw [hf.1, hres]; simp
  have hlt : ∀ u ∈ values p.allVariables, u.index < r.length := fun u hu => by
    rw [hlen]; exact ht.index_lt hu
  refine ⟨hlen, fun u hu => ?_, fun u hu w hw hne hov => ?_⟩
  · obtain ⟨h1, h2, -⟩ := hcol u.index (Nat.zero_le _) (hlt u hu)
    exact ⟨h1, by omega⟩
  · have hidx : u.index ≠ w.index := fun e => hne (ht.eq_of_index_eq hu hw e)
    rcases Nat.lt_or_gt_of_ne hidx with hlt1 | hlt1
    · exact (hcol w.index (Nat.zero_le _) (hlt w hw)).2.2 u.index
        (hedge u hu w hw hlt1 hov) hlt1
    · exact ((hcol u.index (Nat.zero_le _) (hlt u hu)).2.2 w.index
        (hedge w hw u hu hlt1 (overlaps_symm hov)) hlt1).symm

/-- The slice `result` after the allocation step: each entry is kept or reset. -/
theorem allocate_result {sort : (Nat → Nat → Bool) → List Nat → List Nat} {keys : List Nat}
    {R : Int} {r : List Nat} {a : Allocation} (h : allocate sort keys R r = .ok a) :
    a.result = r.map (fun c => if c ∈ a.spilled then 0 else c) := by
  unfold allocate at h
  dsimp only at h
  split at h
  · cases h
  · split at h
    · cases h
    · simp only [Except.ok.injEq] at h
      subst h
      exact foldl_spill _ _

/-- C18. End-to-end non-interference of storage: for every instruction stream
and every run, if `colorGraph(0)` on the graph built by `parseFile` returns true,
then any two distinct variables whose intervals overlap hold different colours
in `1..K-1` before the demotion; and after the allocation step (for any budget
and any outcome of the sort) they do not hold the same register: an entry that
is not reset to 0 differs from the entry of the other variable. -/
theorem overlapping_variables_differ (lines : List Line) (outer : List variableUsage)
    (inner : Nat → List variableUsage) (p : Parsed) (K : Nat) (r : List Nat)
    (h : Enumerates (extract lines).allVariables outer inner)
    (hp : parseFile lines outer inner = .ok p)
    (hc : colorGraph p.adjacencyList K p.result 0 = .ok (true, r)) :
    ∀ u ∈ values p.allVariables, ∀ w ∈ values p.allVariables, u ≠ w → overlaps u w →
      (1 ≤ colorAt r u.index ∧ colorAt r u.index ≤ K - 1) ∧
      (1 ≤ colorAt r w.index ∧ colorAt r w.index ≤ K - 1) ∧
      colorAt r u.index ≠ colorAt r w.index ∧
      ∀ (sort : (Nat → Nat → Bool) → List Nat → List Nat) (keys : List Nat) (R : Int)
        (a : Allocation), allocate sort keys R r = .ok a →
        colorAt a.result u.index ≠ 0 →
          colorAt a.result u.index ≠ colorAt a.result w.index := by
  obtain ⟨hlen, hcol, hdiff⟩ := parsed_colouring h hp hc
  obtain ⟨hm, hv, -, -, -⟩ := parseFile_graph h hp
  have ht := (extract_isTableOf lines).1
  rw [← hm, ← hv] at ht
  intro u hu w hw hne hov
  refine ⟨hcol u hu, hcol w hw, hdiff u hu w hw hne hov, ?_⟩
  intro sort keys R a ha hnz
  have hu1 : u.index < r.length := by rw [hlen]; exact ht.index_lt hu
  have hw1 : w.index < r.length := by rw [hlen]; exact ht.index_lt hw
  rw [allocate_result ha, colorAt_map_of_lt _ hu1] at hnz ⊢
  rw [colorAt_map_of_lt _ hw1]
  have hd := hdiff u hu w hw hne hov
  have h1 := (hcol u hu).1
  split at hnz
  · exact absurd rfl hnz
  · rename_i hu2
    rw [if_neg hu2]
    split
    · omega
    · exact hd

/-- The theorem `overlapping_variables_differ` on the run over `enclosedStream`
that enumerates the map in the order of insertion, with the palette size 12. -/
theorem overlapping_variables_differ_witness :
    Enumerates (extract enclosedStream).allVariables
      (values (extract enclosedStream).allVariables)
      (insertionOrder (extract enclosedStream).allVariables) ∧
    parseFile enclosedStream (values (extract enclosedStream).allVariables)
        (insertionOrder (extract enclosedStream).allVariables) =
      .ok { allVariables := [("A", ⟨0, 0, 2⟩), ("B", ⟨1, 1, 1⟩)], vertices := ["A", "B"],
            adjacencyList := [[], [0]], result := [0, 0] } ∧
    colorGraph [[], [0]] 12 [0, 0] 0 = .ok (true, [1, 2]) ∧
    ∀ u ∈ values [("A", (⟨0, 0, 2⟩ : variableUsage)), ("B", ⟨1, 1, 1⟩)],
      ∀ w ∈ values [("A", (⟨0, 0, 2⟩ : variableUsage)), ("B", ⟨1, 1, 1⟩)],
        u ≠ w → overlaps u w →
      (1 ≤ colorAt [1, 2] u.index ∧ colorAt [1, 2] u.index ≤ 12 - 1) ∧
      (1 ≤ colorAt [1, 2] w.index ∧ colorAt [1, 2] w.index ≤ 12 - 1) ∧
      colorAt [1, 2] u.index ≠ colorAt [1, 2] w.index ∧
      ∀ (sort : (Nat → Nat → Bool) → List Nat → List Nat) (keys : List Nat) (R : Int)
        (a : Allocation), allocate sort keys R [1, 2] = .ok a →
        colorAt a.result u.index ≠ 0 →
          colorAt a.result u.index ≠ colorAt a.result w.index :=
  ⟨⟨List.Perm.refl _, fun _ => List.Perm.refl _⟩, rfl, rfl,
    overlapping_variables_differ enclosedStream _ _
      { allVariables := [("A", ⟨0, 0, 2⟩), ("B", ⟨1, 1, 1⟩)], vertices := ["A", "B"],
        adjacencyList := [[], [0]], result := [0, 0] } 12 [1, 2]
      ⟨List.Perm.refl _, fun _ => List.Perm.refl _⟩ rfl rfl⟩

/-! ## The counting colourer is the colourer -/

theorem dropCount_colorLoopCount {adjacencyList : List (List Nat)} {v : Nat}
    {next : List Nat → Except Fault (Bool × List Nat)}
    {nextCount : List Nat → Except Fault (Bool × List Nat × Nat)}
    (hnext : ∀ res, dropCount (nextCount res) = next res) :
    ∀ (todo i : Nat) (result : List Nat) (n : Nat),
      dropCount (colorLoopCount adjacencyList nextCount v todo i result n) =
        colorLoop adjacencyList next v todo i result := by
  intro todo
  induction todo with
  | zero => intro i result n; rfl
  | succ todo ih =>
    intro i result n
    rw [colorLoopCount, colorLoop]
    cases hp : isPossible adjacencyList result v i with
    | error e => rfl
    | ok p =>
      cases p with
      | false => exact ih (i + 1) result n
      | true =>
        dsimp only
        cases ha : assign result v i with
        | error e => rfl
        | ok result1 =>
          dsimp only
          split
          · rw [← hnext result1]
            cases hn : nextCount result1 with
            | error e => rfl
            | ok out =>
              obtain ⟨flag2, r2, k⟩ := out
              cases flag2 with
              | true => rfl
              | false => exact ih (i + 1) r2 (n + k)
          · rfl

theorem dropCount_colorGraphFuelCount (adjacencyList : List (List Nat)) (K : Nat) :
    ∀ (fuel v : Nat) (result : List Nat),
      dropCount (colorGraphFuelCount adjacencyList K fuel v result) =
        colorGraphFuel adjacencyList K fuel v result := by
  intro fuel
  induction fuel with
  | zero => intro v result; rfl
  | succ fuel ih =>
    intro v result
    rw [colorGraphFuelCount, colorGraphFuel]
    exact dropCount_colorLoopCount (fun res => ih (v + 1) res) _ _ result 0

/-- Forgetting the count of the counting colourer gives `colorGraph`. -/
theorem dropCount_colorGraphCount (adjacencyList : List (List Nat)) (K : Nat)
    (result : List Nat) (v : Nat) :
    dropCount (colorGraphCount adjacencyList K result v) =
      colorGraph adjacencyList K result v :=
  dropCount_colorGraphFuelCount adjacencyList K _ v result

theorem colorGraph_of_colorGraphCount {adjacencyList : List (List Nat)} {K : Nat}
    {result : List Nat} {v : Nat} {flag : Bool} {r : List Nat} {n : Nat}
    (h : colorGraphCount adjacencyList K result v = .ok (flag, r, n)) :
    colorGraph adjacencyList K result v = .ok (flag, r) := by
  rw [← dropCount_colorGraphCount, h]
  rfl

/-! ## First fit without backtracking -/

theorem colorLoopCount_skip {adjacencyList : List (List Nat)}
    {next : List Nat → Except Fault (Bool × List Nat × Nat)} {v n : Nat}
    {result : List Nat} :
    ∀ (k todo i : Nat),
      (∀ j, i ≤ j → j < i + k → isPossible adjacencyList result v j = .ok false) →
      colorLoopCount adjacencyList next v (todo + k) i result n =
        colorLoopCount adjacencyList next v todo (i + k) result n := by
  intro k
  induction k with
  | zero => intro todo i _; rfl
  | succ k ih =>
    intro todo i h
    have h0 := h i (le_refl i) (by omega)
    have e : todo + (k + 1) = (todo + k) + 1 := by omega
    rw [e, colorLoopCount, h0]
    dsimp only
    rw [ih todo (i + 1) (fun j h1 h2 => h j (by omega) (by omega))]
    congr 1
    omega

/-- First fit at a vertex, with the count: when the colours `1..c-1` are
rejected, `c ≤ K-1` is accepted and the nested call (if any) succeeds with no
exhausted call, the call succeeds with no exhausted call. -/
theorem colorLoopCount_first_fit {adjacencyList : List (List Nat)}
    {next : List Nat → Except Fault (Bool × List Nat × Nat)} {K v c : Nat}
    {result r : List Nat}
    (hc1 : 1 ≤ c) (hcK : c < K) (hv : v < result.length)
    (hrej : ∀ j, 1 ≤ j → j < c → isPossible adjacencyList result v j = .ok false)
    (hacc : isPossible adjacencyList result v c = .ok true)
    (hnext : if v + 1 < result.length then next (result.set v c) = .ok (true, r, 0)
      else r = result.set v c) :
    colorLoopCount adjacencyList next v (K - 1) 1 result 0 = .ok (true, r, 0) := by
  have e : K - 1 = (K - 1 - (c - 1)) + (c - 1) := by omega
  rw [e, colorLoopCount_skip (c - 1) _ 1 (fun j h1 h2 => hrej j h1 (by omega))]
  have e1 : 1 + (c - 1) = c := by omega
  have e2 : K - 1 - (c - 1) = (K - 1 - c) + 1 := by omega
  rw [e1, e2, colorLoopCount, hacc]
  dsimp only
  rw [assign_eq_ok.mpr ⟨hv, rfl⟩]
  dsimp only
  split at hnext
  · rename_i hlt
    have hlt1 : v + 1 < (result.set v c).length := by simpa using hlt
    rw [if_pos hlt1, hnext]
  · rename_i hlt
    have hlt1 : ¬ v + 1 < (result.set v c).length := by simpa using hlt
    rw [if_neg hlt1, hnext]

theorem mem_lowerNeighbours {adjacencyList : List (List Nat)} {v b : Nat} :
    b ∈ lowerNeighbours adjacencyList v ↔ b ∈ neighbours adjacencyList v ∧ b < v := by
  simp [lowerNeighbours]

/-- Among the colours `1..K-1` there is a first one that no neighbour of lower
id holds, when these neighbours are fewer than `K - 1`. -/
theorem exists_first_free {adjacencyList : List (List Nat)} {K v : Nat}
    (result : List Nat)
    (hfew : (lowerNeighbours adjacencyList v).toFinset.card + 1 ≤ K - 1) :
    ∃ c, 1 ≤ c ∧ c < K ∧
      (∀ b ∈ lowerNeighbours adjacencyList v, colorAt result b ≠ c) ∧
      ∀ j, 1 ≤ j → j < c → ∃ b ∈ lowerNeighbours adjacencyList v, colorAt result b = j := by
  classical
  have hcard : ((lowerNeighbours adjacencyList v).toFinset.image (colorAt result)).card <
      (Finset.Icc 1 (K - 1)).card := by
    have h1 := Finset.card_image_le (s := (lowerNeighbours adjacencyList v).toFinset)
      (f := colorAt result)
    rw [Nat.card_Icc]
    omega
  have hsub : ¬ (Finset.Icc 1 (K - 1) ⊆
      (lowerNeighbours adjacencyList v).toFinset.image (colorAt result)) :=
    fun hs => absurd (Finset.card_le_card hs) (by omega)
  obtain ⟨c, hc, hcB⟩ := Finset.not_subset.mp hsub
  have hex : ∃ c, 1 ≤ c ∧
      c ∉ (lowerNeighbours adjacencyList v).toFinset.image (colorAt result) :=
    ⟨c, (Finset.mem_Icc.mp hc).1, hcB⟩
  have hle : Nat.find hex ≤ c := Nat.find_min' hex ⟨(Finset.mem_Icc.mp hc).1, hcB⟩
  obtain ⟨h1, h2⟩ := Nat.find_spec hex
  refine ⟨Nat.find hex, h1, ?_, ?_, ?_⟩
  · have := (Finset.mem_Icc.mp hc).2
    omega
  · intro b hb e
    apply h2
    exact Finset.mem_image.mpr ⟨b, List.mem_toFinset.mpr hb, e⟩
  · intro j hj1 hj2
    have := Nat.find_min hex hj2
    simp only [not_and, not_not] at this
    obtain ⟨b, hb, e⟩ := Finset.mem_image.mp (this hj1)
    exact ⟨b, List.mem_toFinset.mp hb, e⟩
/-- The first-fit descent: on a graph in which every vertex has fewer than
`K - 1` neighbours of lower id, a call `colorGraph(v)` entered with the vertices
from `v` on uncoloured succeeds, no call exhausts its colours, and every vertex
from `v` on gets the first colour that none of its neighbours of lower id holds. -/
theorem colorGraphFuelCount_first_fit {adjacencyList : List (List Nat)} {K V : Nat}
    (hrange : InRange adjacencyList V) (hfew : FewLower adjacencyList K) :
    ∀ (fuel v : Nat) (result : List Nat), v < V → V ≤ fuel + v → result.length = V →
      (∀ w, v ≤ w → colorAt result w = 0) →
      ∃ r, colorGraphFuelCount adjacencyList K fuel v result = .ok (true, r, 0) ∧
        Frame v result r ∧ FirstFitFrom adjacencyList K v r := by
  intro fuel
  induction fuel with
  | zero => intro v result hv hf; omega
  | succ fuel ih =>
    intro v result hv hf hres hzero
    obtain ⟨c, hc1, hcK, hfree, hused⟩ :=
      exists_first_free result (hfew v (by rw [hrange.1]; exact hv))
    have hrej : ∀ j, 1 ≤ j → j < c → isPossible adjacencyList result v j = .ok false := by
      intro j h1 h2
      obtain ⟨b, hb, e⟩ := hused j h1 h2
      exact isPossible_eq_ok_false hrange hres hv (mem_lowerNeighbours.mp hb).1 e
    have hacc : isPossible adjacencyList result v c = .ok true := by
      apply isPossible_eq_ok_true_of hrange hres hv
      intro b hb
      by_cases hbv : b < v
      · exact hfree b (mem_lowerNeighbours.mpr ⟨hb, hbv⟩)
      · rw [hzero b (by omega)]; omega
    have hvl : v < result.length := by omega
    -- the vertex `v` in any final `r` framed by `result.set v c`
    have key : ∀ r, Frame (v + 1) (result.set v c) r →
        FirstFitFrom adjacencyList K (v + 1) r → FirstFitFrom adjacencyList K v r := by
      intro r hf1 hff w hw hlt
      rcases Nat.eq_or_lt_of_le hw with rfl | hw1
      · have e1 : colorAt r v = c := by
          rw [hf1.2 v (Nat.lt_succ_self v), colorAt_set_self c hvl]
        have e2 : ∀ b, b < v → colorAt r b = colorAt result b := fun b hbv => by
          rw [hf1.2 b (by omega), colorAt_set_ne c (Nat.ne_of_gt hbv)]
        rw [e1]
        refine ⟨hc1, hcK, fun b hb hbv => ?_, fun j h1 h2 => ?_⟩
        · rw [e2 b hbv]
          exact hfree b (mem_lowerNeighbours.mpr ⟨hb, hbv⟩)
        · obtain ⟨b, hb, e⟩ := hused j h1 h2
          obtain ⟨hb1, hb2⟩ := mem_lowerNeighbours.mp hb
          exact ⟨b, hb1, hb2, by rw [e2 b hb2]; exact e⟩
      · exact hff w hw1 hlt
    rw [colorGraphFuelCount]
    by_cases hlast : v + 1 < V
    · obtain ⟨r, hr, hfr, hffr⟩ := ih (v + 1) (result.set v c) hlast (by omega)
        (by simpa using hres)
        (fun w hw => by rw [colorAt_set_ne c (by omega), hzero w (by omega)])
      refine ⟨r, ?_, (Frame.set v c).trans (hfr.mono (Nat.le_succ v)), key r hfr hffr⟩
      apply colorLoopCount_first_fit hc1 hcK hvl hrej hacc
      rw [if_pos (by omega)]
      exact hr
    · refine ⟨result.set v c, ?_, Frame.set v c, key _ (Frame.refl _ _) ?_⟩
      · apply colorLoopCount_first_fit hc1 hcK hvl hrej hacc
        rw [if_neg (by omega)]
      · intro w hw hlt
        simp only [List.length_set] at hlt
        omega

/-- On a graph over `0..V-1`, `V ≥ 1`, in which every vertex has fewer than
`K - 1` neighbours of lower id, `colorGraph(0)` from the all-zero assignment
succeeds without backtracking and leaves the first-fit colouring. -/
theorem colorGraphCount_first_fit {adjacencyList : List (List Nat)} {K V : Nat}
    (hrange : InRange adjacencyList V) (hfew : FewLower adjacencyList K) (hV : 1 ≤ V) :
    ∃ r, colorGraphCount adjacencyList K (List.replicate V 0) 0 = .ok (true, r, 0) ∧
      r.length = V ∧ FirstFitFrom adjacencyList K 0 r := by
  obtain ⟨r, h1, h2, h3⟩ := colorGraphFuelCount_first_fit hrange hfew
    ((List.replicate V 0).length + 1) 0 (List.replicate V 0) (by omega) (by simp)
    (by simp) (fun w _ => by
      simp only [colorAt, List.getD_eq_getElem?_getD, List.getElem?_replicate]
      split <;> rfl)
  exact ⟨r, h1, by rw [h2.1]; simp, h3⟩

/-! ## The graph of the pipeline and the covered instructions -/

theorem overlaps_of_covers {u w : variableUsage} {t : Nat} (hu : covers u t = true)
    (hw : covers w t = true) : overlaps u w := by
  unfold covers at hu hw
  unfold overlaps
  simp only [decide_eq_true_eq] at hu hw
  omega

theorem IsTableOf.nodup_values {L : List (List String)} {m : VarMap} {vs : List String}
    (h : IsTableOf L m vs) : (values m).Nodup :=
  List.Nodup.of_map _ h.nodup_ids

/-- A variable of lower id that overlaps `u` is live at the first use of `u`. -/
theorem covers_first_of_lower {L : List (List String)} {m : VarMap} {vs : List String}
    (h : IsTableOf L m vs) {u o : variableUsage} (hu : u ∈ values m) (ho : o ∈ values m)
    (hlt : o.index < u.index) (hov : overlaps u o) : covers o u.first = true := by
  have h1 := (h.value_facts ho hu).2 hlt
  unfold overlaps at hov
  unfold covers
  simp only [decide_eq_true_eq]
  omega

theorem covers_first_self {L : List (List String)} {m : VarMap} {vs : List String}
    (h : IsTableOf L m vs) {u : variableUsage} (hu : u ∈ values m) :
    covers u u.first = true := by
  have h1 := (h.value_facts hu hu).1
  unfold covers
  simp only [decide_eq_true_eq]
  omega

/-- When no instruction is covered by more than `K - 1` intervals, every vertex
of the built graph has fewer than `K - 1` neighbours of lower id. -/
theorem fewLower_of_cover {lines : List Line} {outer : List variableUsage}
    {inner : Nat → List variableUsage} {p : Parsed} {K : Nat}
    (h : Enumerates (extract lines).allVariables outer inner)
    (hp : parseFile lines outer inner = .ok p)
    (hcover : ∀ t, cover (values p.allVariables) t ≤ K - 1) :
    FewLower p.adjacencyList K := by
  obtain ⟨hm, hv, -, hrange, -⟩ := parseFile_graph h hp
  obtain ⟨hedge, -⟩ := parseFile_edges h hp
  have ht := (extract_isTableOf lines).1
  rw [← hm, ← hv] at ht
  intro v hvlt
  rw [hrange.1] at hvlt
  obtain ⟨u, hu, rfl⟩ := ht.exists_value hvlt
  have hsub : insert u.index (lowerNeighbours p.adjacencyList u.index).toFinset ⊆
      (((values p.allVariables).filter (fun w => covers w u.first)).map
        (fun w => w.index)).toFinset := by
    intro b hb
    rw [List.mem_toFinset, List.mem_map]
    rcases Finset.mem_insert.mp hb with rfl | hb1
    · exact ⟨u, List.mem_filter.mpr ⟨hu, covers_first_self ht hu⟩, rfl⟩
    · obtain ⟨hb2, hb3⟩ := mem_lowerNeighbours.mp (List.mem_toFinset.mp hb1)
      obtain ⟨o, ho, rfl, -, hov⟩ := (hedge u hu).2 b hb2
      exact ⟨o, List.mem_filter.mpr ⟨ho, covers_first_of_lower ht hu ho hb3 hov⟩, rfl⟩
  have hnot : u.index ∉ (lowerNeighbours p.adjacencyList u.index).toFinset := by
    intro hmem
    have := (mem_lowerNeighbours.mp (List.mem_toFinset.mp hmem)).2
    omega
  have h1 := Finset.card_le_card hsub
  rw [Finset.card_insert_of_not_mem hnot] at h1
  have h2 := List.toFinset_card_le
    (((values p.allVariables).filter (fun w => covers w u.first)).map (fun w => w.index))
  have h3 := hcover u.first
  unfold cover at h3
  rw [List.length_map] at h2
  omega

/-- When the variables live at one instruction hold pairwise different colours
of `1..M`, at most `M` variables are live there. -/
theorem cover_le_of_colouring {vals : List variableUsage} {r : List Nat} {M : Nat}
    (hnd : vals.Nodup)
    (hcol : ∀ u ∈ vals, 1 ≤ colorAt r u.index ∧ colorAt r u.index ≤ M)
    (hdiff : ∀ u ∈ vals, ∀ w ∈ vals, u ≠ w → overlaps u w →
      colorAt r u.index ≠ colorAt r w.index) (t : Nat) :
    cover vals t ≤ M := by
  have hnd1 : ((vals.filter (fun u => covers u t)).map (fun u => colorAt r u.index)).Nodup := by
    refine List.Nodup.map_on ?_ (hnd.filter _)
    intro u hu w hw e
    by_contra hne
    obtain ⟨hu1, hu2⟩ := List.mem_filter.mp hu
    obtain ⟨hw1, hw2⟩ := List.mem_filter.mp hw
    exact hdiff u hu1 w hw1 hne (overlaps_of_covers hu2 hw2) e
  have hsub : ((vals.filter (fun u => covers u t)).map
      (fun u => colorAt r u.index)).toFinset ⊆ Finset.Icc 1 M := by
    intro c hc
    obtain ⟨u, hu, rfl⟩ := List.mem_map.mp (List.mem_toFinset.mp hc)
    exact Finset.mem_Icc.mpr (hcol u (List.mem_filter.mp hu).1)
  have h1 := Finset.card_le_card hsub
  rw [List.toFinset_card_of_nodup hnd1, Nat.card_Icc, List.length_map] at h1
  unfold cover
  omega

/-! ## C19: when the pipeline finds a colouring -/

/-- On the graph of the pipeline, with at least one variable: `colorGraph(0)`
returns true exactly when no instruction is covered by more than `K - 1`
intervals, and then it leaves the first-fit colouring without backtracking. -/
theorem parsed_success {lines : List Line} {outer : List variableUsage}
    {inner : Nat → List variableUsage} {p : Parsed} (K : Nat)
    (h : Enumerates (extract lines).allVariables outer inner)
    (hp : parseFile lines outer inner = .ok p) (hV : 1 ≤ p.vertices.length) :
    ∃ flag r, colorGraph p.adjacencyList K p.result 0 = .ok (flag, r) ∧
      (flag = true ↔ ∀ t, cover (values p.allVariables) t ≤ K - 1) ∧
      ((∀ t, cover (values p.allVariables) t ≤ K - 1) →
        colorGraphCount p.adjacencyList K p.result 0 = .ok (true, r, 0) ∧
          FirstFitFrom p.adjacencyList K 0 r) := by
  obtain ⟨hm, hv, hres, hrange, -⟩ := parseFile_graph h hp
  have ht := (extract_isTableOf lines).1
  rw [← hm, ← hv] at ht
  obtain ⟨flag, r, hc, -⟩ := colorGraph_on_parsed K h hp hV
  have hfit : (∀ t, cover (values p.allVariables) t ≤ K - 1) →
      colorGraphCount p.adjacencyList K p.result 0 = .ok (true, r, 0) ∧
        FirstFitFrom p.adjacencyList K 0 r := by
    intro hcover
    obtain ⟨r1, h1, -, h3⟩ :=
      colorGraphCount_first_fit hrange (fewLower_of_cover h hp hcover) hV
    rw [← hres] at h1
    have h4 := colorGraph_of_colorGraphCount h1
    rw [hc] at h4
    simp only [Except.ok.injEq, Prod.mk.injEq] at h4
    obtain ⟨-, rfl⟩ := h4
    exact ⟨h1, h3⟩
  refine ⟨flag, r, hc, ⟨fun hflag => ?_, fun hcover => ?_⟩, hfit⟩
  · subst hflag
    obtain ⟨-, hcol, hdiff⟩ := parsed_colouring h hp hc
    exact cover_le_of_colouring ht.nodup_values hcol hdiff
  · have h4 := colorGraph_of_colorGraphCount (hfit hcover).1
    rw [hc] at h4
    simp only [Except.ok.injEq, Prod.mk.injEq] at h4
    exact h4.1

/-- C19. Pipeline-level success criterion: for every instruction stream with at
least one variable, every run and every palette size `K`, `colorGraph(0)` on the
graph built by `parseFile` (from the all-zero assignment) returns true if and
only if no instruction index `t` is covered by more than `K - 1` variable
intervals; when that holds, no call of `colorGraph` in the run returns false
(the count of the exhausted calls is 0): the search succeeds without
backtracking. -/
theorem pipeline_success_iff (lines : List Line) (outer : List variableUsage)
    (inner : Nat → List variableUsage) (p : Parsed) (K : Nat)
    (h : Enumerates (extract lines).allVariables outer inner)
    (hp : parseFile lines outer inner = .ok p) (hV : 1 ≤ p.vertices.length) :
    ∃ flag r, colorGraph p.adjacencyList K p.result 0 = .ok (flag, r) ∧
      (flag = true ↔ ∀ t, cover (values p.allVariables) t ≤ K - 1) ∧
      ((∀ t, cover (values p.allVariables) t ≤ K - 1) →
        colorGraphCount p.adjacencyList K p.result 0 = .ok (true, r, 0)) := by
  obtain ⟨flag, r, h1, h2, h3⟩ := parsed_success K h hp hV
  exact ⟨flag, r, h1, h2, fun hc => (h3 hc).1⟩

/-- The theorem `pipeline_success_iff` on the run over `exampleStream` that
enumerates the map in the order of insertion, with the palette size 12. -/
theorem pipeline_success_iff_witness :
    Enumerates (extract exampleStream).allVariables
      (values (extract exampleStream).allVariables)
      (insertionOrder (extract exampleStream).allVariables) ∧
    parseFile exampleStream (values (extract exampleStream).allVariables)
        (insertionOrder (extract exampleStream).allVariables) =
      .ok { allVariables := [("A", ⟨0, 0, 2⟩), ("B", ⟨1, 1, 1⟩), ("C", ⟨2, 3, 3⟩)]
            vertices := ["A", "B", "C"]
            adjacencyList := [[], [0], []]
            result := [0, 0, 0] } ∧
    1 ≤ ["A", "B", "C"].length ∧
    ∃ flag r, colorGraph [[], [0], []] 12 [0, 0, 0] 0 = .ok (flag, r) ∧
      (flag = true ↔ ∀ t, cover (values
        [("A", (⟨0, 0, 2⟩ : variableUsage)), ("B", ⟨1, 1, 1⟩), ("C", ⟨2, 3, 3⟩)]) t ≤ 12 - 1) ∧
      ((∀ t, cover (values
        [("A", (⟨0, 0, 2⟩ : variableUsage)), ("B", ⟨1, 1, 1⟩), ("C", ⟨2, 3, 3⟩)]) t ≤ 12 - 1) →
        colorGraphCount [[], [0], []] 12 [0, 0, 0] 0 = .ok (true, r, 0)) :=
  ⟨⟨List.Perm.refl _, fun _ => List.Perm.refl _⟩, rfl, by decide,
    pipeline_success_iff exampleStream _ _
      { allVariables := [("A", ⟨0, 0, 2⟩), ("B", ⟨1, 1, 1⟩), ("C", ⟨2, 3, 3⟩)]
        vertices := ["A", "B", "C"]
        adjacencyList := [[], [0], []]
        result := [0, 0, 0] } 12
      ⟨List.Perm.refl _, fun _ => List.Perm.refl _⟩ rfl (by decide)⟩

/-! ## C20: the number of needed registers -/

/-- The variable `max` after the counting loop resumed at `st`. -/
theorem foldl_tallyStep_max (l : List Nat) :
    ∀ (st : Memory × Int),
      st.2 ≤ (l.foldl tallyStep st).2 ∧
      (∀ c ∈ l, (c : Int) ≤ (l.foldl tallyStep st).2) ∧
      ((l.foldl tallyStep st).2 = st.2 ∨ ∃ c ∈ l, (l.foldl tallyStep st).2 = (c : Int)) := by
  induction l with
  | nil => intro st; simp
  | cons v rest ih =>
    intro st
    obtain ⟨h1, h2, h3⟩ := ih (tallyStep st v)
    have hstep : (tallyStep st v).2 = if (v : Int) > st.2 then (v : Int) else st.2 := rfl
    rw [List.foldl_cons]
    refine ⟨?_, ?_, ?_⟩
    · rw [hstep] at h1
      split at h1 <;> omega
    · intro c hc
      rcases List.mem_cons.mp hc with rfl | hc1
      · rw [hstep] at h1
        split at h1 <;> omega
      · exact h2 c hc1
    · rcases h3 with h3 | ⟨c, hc, h3⟩
      · rw [h3, hstep]
        split
        · exact Or.inr ⟨v, List.mem_cons_self _ _, rfl⟩
        · exact Or.inl rfl
      · exact Or.inr ⟨c, List.mem_cons_of_mem _ hc, h3⟩

/-- The value of `max` after the counting loop on a non-empty `result`: the
largest entry. -/
theorem tally_max {result : List Nat} (hne : result ≠ []) :
    ∃ M : Nat, (tally result).2 = (M : Int) ∧ M ∈ result ∧ ∀ c ∈ result, c ≤ M := by
  obtain ⟨-, h2, h3⟩ := foldl_tallyStep_max result ([], -1)
  rcases h3 with h3 | ⟨M, hM, h3⟩
  · obtain ⟨c, hc⟩ := List.exists_mem_of_ne_nil result hne
    have := h2 c hc
    rw [h3] at this
    simp at this
    omega
  · refine ⟨M, h3, hM, fun c hc => ?_⟩
    have := h2 c hc
    rw [h3] at this
    exact_mod_cast this

theorem mem_iff_colorAt {r : List Nat} {c : Nat} :
    c ∈ r ↔ ∃ w, w < r.length ∧ colorAt r w = c := by
  constructor
  · intro h
    obtain ⟨w, hw, rfl⟩ := List.getElem_of_mem h
    exact ⟨w, hw, by simp [colorAt, List.getD_eq_getElem?_getD, hw]⟩
  · rintro ⟨w, hw, rfl⟩
    exact colorAt_mem hw
theorem allocate_max {sort : (Nat → Nat → Bool) → List Nat → List Nat} {keys : List Nat}
    {R : Int} {r : List Nat} {a : Allocation} (h : allocate sort keys R r = .ok a) :
    a.max = (tally r).2 := by
  unfold allocate at h
  dsimp only at h
  split at h
  · cases h
  · split at h
    · cases h
    · simp only [Except.ok.injEq] at h
      subst h
      rfl

/-- After a successful `colorGraph(0)` on the graph of the pipeline, the largest
colour in `result` is the largest number of intervals covering one instruction,
and every colour up to it is in use. -/
theorem parsed_registers_needed {lines : List Line} {outer : List variableUsage}
    {inner : Nat → List variableUsage} {p : Parsed} {K : Nat} {r : List Nat}
    (h : Enumerates (extract lines).allVariables outer inner)
    (hp : parseFile lines outer inner = .ok p) (hV : 1 ≤ p.vertices.length)
    (hc : colorGraph p.adjacencyList K p.result 0 = .ok (true, r)) :
    ∃ M : Nat, (tally r).2 = (M : Int) ∧
      (∀ t, cover (values p.allVariables) t ≤ M) ∧
      (∃ t, cover (values p.allVariables) t = M) ∧
      r.toFinset = Finset.Icc 1 M := by
  obtain ⟨hm, hv, -, -, -⟩ := parseFile_graph h hp
  obtain ⟨hedge, -⟩ := parseFile_edges h hp
  have ht := (extract_isTableOf lines).1
  rw [← hm, ← hv] at ht
  obtain ⟨hlen, hcol, hdiff⟩ := parsed_colouring h hp hc
  -- the run is the first-fit descent
  obtain ⟨flag, r1, hc1, hiff, hfit⟩ := parsed_success K h hp hV
  rw [hc] at hc1
  simp only [Except.ok.injEq, Prod.mk.injEq] at hc1
  obtain ⟨rfl, rfl⟩ := hc1
  have hff := (hfit (hiff.mp rfl)).2
  -- the largest colour
  have hne : r ≠ [] := by
    intro e; rw [e] at hlen; simp at hlen; omega
  obtain ⟨M, hmax, hM, hle⟩ := tally_max hne
  obtain ⟨w0, hw0, hcw0⟩ := mem_iff_colorAt.mp hM
  obtain ⟨u0, hu0, rfl⟩ := ht.exists_value (by rw [← hlen]; exact hw0)
  have hidx : ∀ u ∈ values p.allVariables, u.index < r.length := fun u hu => by
    rw [hlen]; exact ht.index_lt hu
  -- every colour below that of `u0` is held by a variable of lower id live at `u0.first`
  have hbelow : ∀ j, 1 ≤ j → j < M →
      ∃ o ∈ values p.allVariables, covers o u0.first = true ∧ colorAt r o.index = j := by
    intro j h1 h2
    obtain ⟨b, hb, hblt, hbj⟩ := (hff u0.index (Nat.zero_le _) hw0).2.2.2 j h1
      (by rw [hcw0]; exact h2)
    obtain ⟨o, ho, rfl, -, hov⟩ := (hedge u0 hu0).2 b hb
    exact ⟨o, ho, covers_first_of_lower ht hu0 ho hblt hov, hbj⟩
  refine ⟨M, hmax, ?_, ⟨u0.first, ?_⟩, ?_⟩
  · exact cover_le_of_colouring ht.nodup_values
      (fun u hu => ⟨(hcol u hu).1, hle _ (colorAt_mem (hidx u hu))⟩) hdiff
  · apply Nat.le_antisymm
    · exact cover_le_of_colouring ht.nodup_values
        (fun u hu => ⟨(hcol u hu).1, hle _ (colorAt_mem (hidx u hu))⟩) hdiff u0.first
    · have hsub : Finset.Icc 1 M ⊆
          (((values p.allVariables).filter (fun u => covers u u0.first)).map
            (fun u => colorAt r u.index)).toFinset := by
        intro j hj
        obtain ⟨hj1, hj2⟩ := Finset.mem_Icc.mp hj
        rw [List.mem_toFinset, List.mem_map]
        rcases Nat.eq_or_lt_of_le hj2 with rfl | hlt
        · exact ⟨u0, List.mem_filter.mpr ⟨hu0, covers_first_self ht hu0⟩, hcw0⟩
        · obtain ⟨o, ho, hoc, hoj⟩ := hbelow j hj1 hlt
          exact ⟨o, List.mem_filter.mpr ⟨ho, hoc⟩, hoj⟩
      have h1 := Finset.card_le_card hsub
      have h2 := List.toFinset_card_le
        (((values p.allVariables).filter (fun u => covers u u0.first)).map
          (fun u => colorAt r u.index))
      rw [Nat.card_Icc] at h1
      rw [List.length_map] at h2
      unfold cover
      omega
  · ext c
    rw [List.mem_toFinset, Finset.mem_Icc]
    constructor
    · intro hcr
      obtain ⟨w, hw, rfl⟩ := mem_iff_colorAt.mp hcr
      exact ⟨(hff w (Nat.zero_le _) hw).1, hle _ hcr⟩
    · rintro ⟨hc1, hc2⟩
      rcases Nat.eq_or_lt_of_le hc2 with rfl | hlt
      · exact hM
      · obtain ⟨o, ho, -, hoj⟩ := hbelow c hc1 hlt
        rw [← hoj]
        exact colorAt_mem (hidx o ho)

/-- C20. The reported number of needed registers on pipeline inputs: for every
instruction stream with at least one variable and every run for which
`colorGraph(0)` succeeds, the value `max` computed by the counting loop of `main`
(the largest colour id in `result` before the demotion, printed as the number of
needed registers) equals the maximum, over the instruction indices `t`, of the
number of variables with `first ≤ t ≤ last`, and equals the number of distinct
colours used (the colours used are exactly `1..max`). -/
theorem registers_needed_is_max_cover (lines : List Line) (outer : List variableUsage)
    (inner : Nat → List variableUsage) (p : Parsed) (K : Nat) (r : List Nat)
    (h : Enumerates (extract lines).allVariables outer inner)
    (hp : parseFile lines outer inner = .ok p) (hV : 1 ≤ p.vertices.length)
    (hc : colorGraph p.adjacencyList K p.result 0 = .ok (true, r)) :
    ∃ M : Nat, (tally r).2 = (M : Int) ∧
      (∀ (sort : (Nat → Nat → Bool) → List Nat → List Nat) (keys : List Nat) (R : Int)
        (a : Allocation), allocate sort keys R r = .ok a → a.max = (M : Int)) ∧
      (∀ t, cover (values p.allVariables) t ≤ M) ∧
      (∃ t, cover (values p.allVariables) t = M) ∧
      r.toFinset = Finset.Icc 1 M ∧ r.toFinset.card = M := by
  obtain ⟨M, h1, h2, h3, h4⟩ := parsed_registers_needed h hp hV hc
  refine ⟨M, h1, fun sort keys R a ha => ?_, h2, h3, h4, ?_⟩
  · rw [allocate_max ha, h1]
  · rw [h4, Nat.card_Icc]
    omega

/-- The theorem `registers_needed_is_max_cover` on the run over `exampleStream`
that enumerates the map in the order of insertion, with the palette size 12. -/
theorem registers_needed_is_max_cover_witness :
    Enumerates (extract exampleStream).allVariables
      (values (extract exampleStream).allVariables)
      (insertionOrder (extract exampleStream).allVariables) ∧
    parseFile exampleStream (values (extract exampleStream).allVariables)
        (insertionOrder (extract exampleStream).allVariables) =
      .ok { allVariables := [("A", ⟨0, 0, 2⟩), ("B", ⟨1, 1, 1⟩), ("C", ⟨2, 3, 3⟩)]
            vertices := ["A", "B", "C"]
            adjacencyList := [[], [0], []]
            result := [0, 0, 0] } ∧
    1 ≤ ["A", "B", "C"].length ∧
    colorGraph [[], [0], []] 12 [0, 0, 0] 0 = .ok (true, [1, 2, 1]) ∧
    ∃ M : Nat, (tally [1, 2, 1]).2 = (M : Int) ∧
      (∀ (sort : (Nat → Nat → Bool) → List Nat → List Nat) (keys : List Nat) (R : Int)
        (a : Allocation), allocate sort keys R [1, 2, 1] = .ok a → a.max = (M : Int)) ∧
      (∀ t, cover (values
        [("A", (⟨0, 0, 2⟩ : variableUsage)), ("B", ⟨1, 1, 1⟩), ("C", ⟨2, 3, 3⟩)]) t ≤ M) ∧
      (∃ t, cover (values
        [("A", (⟨0, 0, 2⟩ : variableUsage)), ("B", ⟨1, 1, 1⟩), ("C", ⟨2, 3, 3⟩)]) t = M) ∧
      [1, 2, 1].toFinset = Finset.Icc 1 M ∧ [1, 2, 1].toFinset.card = M :=
  ⟨⟨List.Perm.refl _, fun _ => List.Perm.refl _⟩, rfl, by decide, rfl,
    registers_needed_is_max_cover exampleStream _ _
      { allVariables := [("A", ⟨0, 0, 2⟩), ("B", ⟨1, 1, 1⟩), ("C", ⟨2, 3, 3⟩)]
        vertices := ["A", "B", "C"]
        adjacencyList := [[], [0], []]
        result := [0, 0, 0] } 12 [1, 2, 1]
      ⟨List.Perm.refl _, fun _ => List.Perm.refl _⟩ rfl (by decide) rfl⟩

/-! ## The reference search: what it returns -/

theorem admissible_eq_true {adjacencyList : List (List Nat)} {assignment : List Nat}
    {v c : Nat} :
    admissible adjacencyList assignment v c = true ↔
      ∀ b ∈ neighbours adjacencyList v, b < v → colorAt assignment b ≠ c := by
  simp only [admissible, List.all_eq_true, Bool.not_eq_true', Bool.and_eq_false_imp,
    decide_eq_true_eq, decide_eq_false_iff_not]

theorem admissible_eq_false {adjacencyList : List (List Nat)} {assignment : List Nat}
    {v c b : Nat} (hb : b ∈ lowerNeighbours adjacencyList v)
    (hc : colorAt assignment b = c) :
    admissible adjacencyList assignment v c = false := by
  obtain ⟨hb1, hb2⟩ := mem_lowerNeighbours.mp hb
  cases h : admissible adjacencyList assignment v c with
  | false => rfl
  | true => exact absurd hc (admissible_eq_true.mp h b hb1 hb2)

/-- What the reference treatment of one vertex guarantees about its outcome. -/
theorem specLoop_spec {adjacencyList : List (List Nat)} {K v : Nat}
    {next : List Nat → Bool × List Nat} {n : Nat} (hv : v < n)
    (hnext : ∀ a flag found, a.length = n → next a = (flag, found) →
      Frame (v + 1) a found ∧ (flag = true → ColouredFrom adjacencyList K (v + 1) found)) :
    ∀ (todo c : Nat) (a : List Nat) (flag : Bool) (found : List Nat),
      1 ≤ c → todo ≤ K - c → a.length = n →
      specLoop adjacencyList next v todo c a = (flag, found) →
      Frame v a found ∧ (flag = true → ColouredFrom adjacencyList K v found) := by
  intro todo
  induction todo with
  | zero =>
    intro c a flag found _ _ _ h
    simp only [specLoop, Prod.mk.injEq] at h
    obtain ⟨rfl, rfl⟩ := h
    exact ⟨Frame.set v 0, fun h => by cases h⟩
  | succ todo ih =>
    intro c a flag found hc hK hlen h
    have hv : v < a.length := by omega
    rw [specLoop] at h
    split at h
    · rename_i hadm
      have hposs := admissible_eq_true.mp hadm
      have key : ∀ r, Frame (v + 1) (a.set v c) r →
          ColouredFrom adjacencyList K (v + 1) r → ColouredFrom adjacencyList K v r := by
        intro r hf hcol w hw hlt
        rcases Nat.eq_or_lt_of_le hw with rfl | hw1
        · have e1 : colorAt r v = c := by
            rw [hf.2 v (Nat.lt_succ_self v), colorAt_set_self c hv]
          refine ⟨by omega, by omega, fun b hb hbv => ?_⟩
          rw [e1, hf.2 b (by omega), colorAt_set_ne c (Nat.ne_of_gt hbv)]
          exact hposs b hb hbv
        · exact hcol w hw1 hlt
      cases hn : next (a.set v c) with
      | mk flag2 r2 =>
        rw [hn] at h
        obtain ⟨hf2, hc2⟩ := hnext _ _ _ (by simpa using hlen) hn
        cases flag2 with
        | true =>
          simp only [Prod.mk.injEq] at h
          obtain ⟨rfl, rfl⟩ := h
          exact ⟨(Frame.set v c).trans (hf2.mono (Nat.le_succ v)),
            fun _ => key _ hf2 (hc2 rfl)⟩
        | false =>
          dsimp only at h
          have hlen2 : r2.length = n := by
            rw [hf2.1]; simpa using hlen
          obtain ⟨hf3, hc3⟩ := ih (c + 1) r2 flag found (by omega) (by omega) hlen2 h
          exact ⟨((Frame.set v c).trans (hf2.mono (Nat.le_succ v))).trans hf3, hc3⟩
    · exact ih (c + 1) a flag found (by omega) (by omega) hlen h

/-- The outcome of the reference search from `v` on: the entries below `v` are
left alone, and on success every vertex from `v` on holds a colour in `1..K-1`
that none of its neighbours of lower id holds. -/
theorem specSearchFrom_spec (adjacencyList : List (List Nat)) (K : Nat) :
    ∀ (remaining v : Nat) (a : List Nat) (flag : Bool) (found : List Nat),
      v + remaining = a.length →
      specSearchFrom adjacencyList K remaining v a = (flag, found) →
      Frame v a found ∧ (flag = true → ColouredFrom adjacencyList K v found) := by
  intro remaining
  induction remaining with
  | zero =>
    intro v a flag found hlen h
    simp only [specSearchFrom, Prod.mk.injEq] at h
    obtain ⟨rfl, rfl⟩ := h
    exact ⟨Frame.refl _ _, fun _ w hw hlt => by omega⟩
  | succ remaining ih =>
    intro v a flag found hlen h
    rw [specSearchFrom] at h
    have hv : v < a.length := by omega
    exact specLoop_spec hv (fun a1 flag1 found1 hl1 h1 =>
        ih (v + 1) a1 flag1 found1 (by omega) h1)
      (K - 1) 1 a flag found (le_refl 1) (le_refl _) rfl h

theorem specLoop_skip {adjacencyList : List (List Nat)}
    {next : List Nat → Bool × List Nat} {v : Nat} {a : List Nat} :
    ∀ (k todo c : Nat),
      (∀ j, c ≤ j → j < c + k → admissible adjacencyList a v j = false) →
      specLoop adjacencyList next v (todo + k) c a =
        specLoop adjacencyList next v todo (c + k) a := by
  intro k
  induction k with
  | zero => intro todo c _; rfl
  | succ k ih =>
    intro todo c h
    have h0 := h c (le_refl c) (by omega)
    have e : todo + (k + 1) = (todo + k) + 1 := by omega
    rw [e, specLoop, h0]
    simp only [Bool.false_eq_true, if_false]
    rw [ih todo (c + 1) (fun j h1 h2 => h j (by omega) (by omega))]
    congr 1
    omega

/-- First fit in the reference search: when the colours `1..c-1` are not
admissible, `c ≤ K-1` is, and the search of the next vertices succeeds, the
search succeeds with the same assignment. -/
theorem specLoop_first_fit {adjacencyList : List (List Nat)}
    {next : List Nat → Bool × List Nat} {K v c : Nat} {a found : List Nat}
    (hc1 : 1 ≤ c) (hcK : c < K)
    (hrej : ∀ j, 1 ≤ j → j < c → admissible adjacencyList a v j = false)
    (hacc : admissible adjacencyList a v c = true)
    (hnext : next (a.set v c) = (true, found)) :
    specLoop adjacencyList next v (K - 1) 1 a = (true, found) := by
  have e : K - 1 = (K - 1 - (c - 1)) + (c - 1) := by omega
  rw [e, specLoop_skip (c - 1) _ 1 (fun j h1 h2 => hrej j h1 (by omega))]
  have e1 : 1 + (c - 1) = c := by omega
  have e2 : K - 1 - (c - 1) = (K - 1 - c) + 1 := by omega
  rw [e1, e2, specLoop, hacc, if_pos rfl, hnext]

/-- The reference search on a graph in which every vertex has fewer than
`K - 1` neighbours of lower id succeeds, and gives every vertex from `v` on the
first colour that none of its neighbours of lower id holds. -/
theorem specSearchFrom_first_fit {adjacencyList : List (List Nat)} {K V : Nat}
    (hlen : adjacencyList.length = V) (hfew : FewLower adjacencyList K) :
    ∀ (remaining v : Nat) (a : List Nat), v + remaining = V → a.length = V →
      ∃ found, specSearchFrom adjacencyList K remaining v a = (true, found) ∧
        Frame v a found ∧ FirstFitFrom adjacencyList K v found := by
  intro remaining
  induction remaining with
  | zero =>
    intro v a hv ha
    exact ⟨a, rfl, Frame.refl _ _, fun w hw hlt => by omega⟩
  | succ remaining ih =>
    intro v a hv ha
    have hvl : v < a.length := by omega
    obtain ⟨c, hc1, hcK, hfree, hused⟩ :=
      exists_first_free a (hfew v (by omega))
    have hrej : ∀ j, 1 ≤ j → j < c → admissible adjacencyList a v j = false := by
      intro j h1 h2
      obtain ⟨b, hb, e⟩ := hused j h1 h2
      exact admissible_eq_false hb e
    have hacc : admissible adjacencyList a v c = true :=
      admissible_eq_true.mpr (fun b hb hbv => hfree b (mem_lowerNeighbours.mpr ⟨hb, hbv⟩))
    obtain ⟨found, hn, hf, hff⟩ := ih (v + 1) (a.set v c) (by omega) (by simpa using ha)
    refine ⟨found, ?_, (Frame.set v c).trans (hf.mono (Nat.le_succ v)), ?_⟩
    · rw [specSearchFrom]
      exact specLoop_first_fit hc1 hcK hrej hacc hn
    · intro w hw hlt
      rcases Nat.eq_or_lt_of_le hw with rfl | hw1
      · have e1 : colorAt found v = c := by
          rw [hf.2 v (Nat.lt_succ_self v), colorAt_set_self c hvl]
        have e2 : ∀ b, b < v → colorAt found b = colorAt a b := fun b hbv => by
          rw [hf.2 b (by omega), colorAt_set_ne c (Nat.ne_of_gt hbv)]
        rw [e1]
        refine ⟨hc1, hcK, fun b hb hbv => ?_, fun j h1 h2 => ?_⟩
        · rw [e2 b hbv]
          exact hfree b (mem_lowerNeighbours.mpr ⟨hb, hbv⟩)
        · obtain ⟨b, hb, e⟩ := hused j h1 h2
          obtain ⟨hb1, hb2⟩ := mem_lowerNeighbours.mp hb
          exact ⟨b, hb1, hb2, by rw [e2 b hb2]; exact e⟩
      · exact hff w hw1 hlt

theorem eq_of_colorAt_eq {r c : List Nat} (hlen : c.length = r.length)
    (h : ∀ w, w < r.length → colorAt c w = colorAt r w) : c = r := by
  apply List.ext_getElem hlen
  intro w h1 h2
  have := h w h2
  simpa [colorAt, List.getD_eq_getElem?_getD, h1, h2] using this

/-- A first-fit colouring comes first, in the lexicographic order, among the
assignments of positive colours in which each vertex differs from its
neighbours of lower id. -/
theorem firstFit_lex_least {adjacencyList : List (List Nat)} {K : Nat} {r c : List Nat}
    (hr : FirstFitFrom adjacencyList K 0 r) (hlen : c.length = r.length)
    (hpos : ∀ w, w < r.length → 1 ≤ colorAt c w)
    (hdiff : ∀ w, w < r.length → ∀ b ∈ neighbours adjacencyList w, b < w →
      colorAt c b ≠ colorAt c w) :
    c = r ∨ LexBefore r.length r c := by
  classical
  by_cases hall : ∀ w, w < r.length → colorAt c w = colorAt r w
  · exact Or.inl (eq_of_colorAt_eq hlen hall)
  · right
    have hex : ∃ w, w < r.length ∧ colorAt c w ≠ colorAt r w := by
      by_contra hno
      apply hall
      intro w hw
      by_contra hne
      exact hno ⟨w, hw, hne⟩
    obtain ⟨hv, hne⟩ := Nat.find_spec hex
    have hmin : ∀ w, w < Nat.find hex → colorAt c w = colorAt r w := by
      intro w hw
      by_contra hne1
      exact Nat.find_min hex hw ⟨by omega, hne1⟩
    refine ⟨Nat.find hex, hv, hmin, ?_⟩
    by_contra hlt
    have hlt1 : colorAt c (Nat.find hex) < colorAt r (Nat.find hex) := by omega
    obtain ⟨b, hb, hbv, hbj⟩ := (hr _ (Nat.zero_le _) hv).2.2.2 _ (hpos _ hv) hlt1
    apply hdiff _ hv b hb hbv
    rw [hmin b hbv, hbj]

/-- Two first-fit colourings of the same graph are the same. -/
theorem firstFit_unique {adjacencyList : List (List Nat)} {K : Nat} {r c : List Nat}
    (hr : FirstFitFrom adjacencyList K 0 r) (hc : FirstFitFrom adjacencyList K 0 c)
    (hlen : c.length = r.length) : c = r := by
  have h1 := firstFit_lex_least hr hlen
    (fun w hw => (hc w (Nat.zero_le _) (by omega)).1)
    (fun w hw b hb hbv => (hc w (Nat.zero_le _) (by omega)).2.2.1 b hb hbv)
  have h2 := firstFit_lex_least hc hlen.symm
    (fun w hw => (hr w (Nat.zero_le _) (by omega)).1)
    (fun w hw b hb hbv => (hr w (Nat.zero_le _) (by omega)).2.2.1 b hb hbv)
  rcases h1 with h1 | ⟨v, hv, hv1, hv2⟩
  · exact h1
  · rcases h2 with h2 | ⟨u, hu, hu1, hu2⟩
    · exact h2.symm
    · exfalso
      rcases Nat.lt_trichotomy u v with huv | huv | huv
      · have := hv1 u huv; omega
      · subst huv; omega
      · have := hu1 v huv; omega

/-! ## Proper colourings of the graph of the pipeline -/

theorem ProperColoring.colouredFrom {adjacencyList : List (List Nat)} {K : Nat}
    {c : List Nat} (h : ProperColoring adjacencyList K c) :
    ColouredFrom adjacencyList K 0 c := by
  obtain ⟨hlen, hcol, hne⟩ := h
  intro w _ hw
  rw [hlen] at hw
  obtain ⟨h1, h2⟩ := hcol w hw
  exact ⟨h1, by omega, fun b hb _ => (hne w hw b hb).symm⟩

/-- On the graph of the pipeline, an assignment in which every vertex holds a
colour in `1..K-1` that none of its listed neighbours of lower id holds gives
different colours to any two distinct variables with overlapping intervals. -/
theorem colouredFrom_parsed {lines : List Line} {outer : List variableUsage}
    {inner : Nat → List variableUsage} {p : Parsed} {K : Nat} {c : List Nat}
    (h : Enumerates (extract lines).allVariables outer inner)
    (hp : parseFile lines outer inner = .ok p) (hlen : c.length = p.vertices.length)
    (hcol : ColouredFrom p.adjacencyList K 0 c) :
    (∀ u ∈ values p.allVariables, 1 ≤ colorAt c u.index ∧ colorAt c u.index ≤ K - 1) ∧
    ∀ u ∈ values p.allVariables, ∀ w ∈ values p.allVariables, u ≠ w → overlaps u w →
      colorAt c u.index ≠ colorAt c w.index := by
  obtain ⟨hm, hv, -, -, -⟩ := parseFile_graph h hp
  obtain ⟨-, hedge⟩ := parseFile_edges h hp
  have ht := (extract_isTableOf lines).1
  rw [← hm, ← hv] at ht
  have hlt : ∀ u ∈ values p.allVariables, u.index < c.length := fun u hu => by
    rw [hlen]; exact ht.index_lt hu
  refine ⟨fun u hu => ?_, fun u hu w hw hne hov => ?_⟩
  · obtain ⟨h1, h2, -⟩ := hcol u.index (Nat.zero_le _) (hlt u hu)
    exact ⟨h1, by omega⟩
  · have hidx : u.index ≠ w.index := fun e => hne (ht.eq_of_index_eq hu hw e)
    rcases Nat.lt_or_gt_of_ne hidx with hlt1 | hlt1
    · exact (hcol w.index (Nat.zero_le _) (hlt w hw)).2.2 u.index
        (hedge u hu w hw hlt1 hov) hlt1
    · exact ((hcol u.index (Nat.zero_le _) (hlt u hu)).2.2 w.index
        (hedge w hw u hu hlt1 (overlaps_symm hov)) hlt1).symm

/-- On the graph of the pipeline, such an assignment exists only if no
instruction is covered by more than `K - 1` intervals. -/
theorem cover_le_of_colouredFrom {lines : List Line} {outer : List variableUsage}
    {inner : Nat → List variableUsage} {p : Parsed} {K : Nat} {c : List Nat}
    (h : Enumerates (extract lines).allVariables outer inner)
    (hp : parseFile lines outer inner = .ok p) (hlen : c.length = p.vertices.length)
    (hcol : ColouredFrom p.adjacencyList K 0 c) :
    ∀ t, cover (values p.allVariables) t ≤ K - 1 := by
  obtain ⟨hm, hv, -, -, -⟩ := parseFile_graph h hp
  have ht := (extract_isTableOf lines).1
  rw [← hm, ← hv] at ht
  obtain ⟨h1, h2⟩ := colouredFrom_parsed h hp hlen hcol
  exact cover_le_of_colouring ht.nodup_values h1 h2

/-- After a successful `colorGraph(0)` on the graph of the pipeline, `result`
is a proper colouring of the adjacency list as built. -/
theorem properColoring_parsed {lines : List Line} {outer : List variableUsage}
    {inner : Nat → List variableUsage} {p : Parsed} {K : Nat} {r : List Nat}
    (h : Enumerates (extract lines).allVariables outer inner)
    (hp : parseFile lines outer inner = .ok p)
    (hc : colorGraph p.adjacencyList K p.result 0 = .ok (true, r)) :
    ProperColoring p.adjacencyList K r := by
  obtain ⟨hm, hv, -, hrange, -⟩ := parseFile_graph h hp
  obtain ⟨hedge, -⟩ := parseFile_edges h hp
  have ht := (extract_isTableOf lines).1
  rw [← hm, ← hv] at ht
  obtain ⟨hlen, hcol, hdiff⟩ := parsed_colouring h hp hc
  refine ⟨by rw [hlen, hrange.1], fun a ha => ?_, fun a ha b hb => ?_⟩
  · rw [hrange.1] at ha
    obtain ⟨u, hu, rfl⟩ := ht.exists_value ha
    exact hcol u hu
  · rw [hrange.1] at ha
    obtain ⟨u, hu, rfl⟩ := ht.exists_value ha
    obtain ⟨o, ho, rfl, hne, hov⟩ := (hedge u hu).2 b hb
    exact hdiff u hu o ho (fun e => hne (by rw [e])) hov

/-! ## C2 and C11, amended: the search on the graphs of the pipeline -/

/-- On the graph of the pipeline, with at least one variable: `colorGraph(0)`
returns true whenever the adjacency list has a proper colouring with the colours
`1..K-1`, and then it returns what the reference search returns. -/
theorem parsed_search {lines : List Line} {outer : List variableUsage}
    {inner : Nat → List variableUsage} {p : Parsed} (K : Nat)
    (h : Enumerates (extract lines).allVariables outer inner)
    (hp : parseFile lines outer inner = .ok p) (hV : 1 ≤ p.vertices.length) :
    ∃ flag r, colorGraph p.adjacencyList K p.result 0 = .ok (flag, r) ∧
      ((∃ c, ProperColoring p.adjacencyList K c) → flag = true) ∧
      (specSearch p.adjacencyList K p.vertices.length).1 = flag ∧
      (flag = true →
        (specSearch p.adjacencyList K p.vertices.length).2 = r ∧
        ProperColoring p.adjacencyList K r ∧
        ∀ c, ProperColoring p.adjacencyList K c → c = r ∨ LexBefore p.vertices.length r c) := by
  obtain ⟨-, -, -, hrange, -⟩ := parseFile_graph h hp
  obtain ⟨flag, r, hc, hiff, hfit⟩ := parsed_success K h hp hV
  have hproper : (∃ c, ProperColoring p.adjacencyList K c) → flag = true := by
    rintro ⟨c, hcp⟩
    exact hiff.mpr (cover_le_of_colouredFrom h hp (by rw [hcp.1, hrange.1]) hcp.colouredFrom)
  refine ⟨flag, r, hc, hproper, ?_, ?_⟩
  · cases hs : specSearch p.adjacencyList K p.vertices.length with
    | mk sflag found =>
      dsimp only
      cases flag with
      | true =>
        obtain ⟨found1, h1, -, -⟩ := specSearchFrom_first_fit hrange.1
          (fewLower_of_cover h hp (hiff.mp rfl)) p.vertices.length 0
          (List.replicate p.vertices.length 0) (by omega) (by simp)
        rw [specSearch, h1] at hs
        simp only [Prod.mk.injEq] at hs
        exact hs.1.symm
      | false =>
        cases sflag with
        | false => rfl
        | true =>
          exfalso
          obtain ⟨hf, hcol⟩ := specSearchFrom_spec p.adjacencyList K p.vertices.length 0
            (List.replicate p.vertices.length 0) true found (by simp) hs
          have hlen : found.length = p.vertices.length := by rw [hf.1]; simp
          have := hiff.mpr (cover_le_of_colouredFrom h hp hlen (hcol rfl))
          cases this
  · intro hflag
    subst hflag
    obtain ⟨hlen, -, -⟩ := parsed_colouring h hp hc
    have hff := (hfit (hiff.mp rfl)).2
    obtain ⟨found, h1, h2, h3⟩ := specSearchFrom_first_fit hrange.1
      (fewLower_of_cover h hp (hiff.mp rfl)) p.vertices.length 0
      (List.replicate p.vertices.length 0) (by omega) (by simp)
    have hfl : found.length = r.length := by rw [h2.1, hlen]; simp
    refine ⟨?_, properColoring_parsed h hp hc, fun c hcp => ?_⟩
    · rw [specSearch, h1]
      exact firstFit_unique hff h3 hfl
    · have hcl : c.length = r.length := by rw [hcp.1, hrange.1, hlen]
      have := firstFit_lex_least hff hcl
        (fun w hw => (hcp.2.1 w (by rw [← hcp.1, hcl]; exact hw)).1)
        (fun w hw b hb _ => (hcp.2.2 w (by rw [← hcp.1, hcl]; exact hw) b hb).symm)
      rw [hlen] at this
      exact this

/-- C2, amended. Completeness of the colourer on the graphs of the program: for
every palette size `K`, every instruction stream with at least one variable and
every run, on the adjacency list built by `parseFile`, starting from the
all-zero assignment, `colorGraph(0)` returns a flag, and returns false only if
no assignment of the colours `1..K-1` to the vertices exists in which adjacent
vertices differ (whenever a proper colouring exists, it returns true). -/
theorem pipeline_complete (lines : List Line) (outer : List variableUsage)
    (inner : Nat → List variableUsage) (p : Parsed) (K : Nat)
    (h : Enumerates (extract lines).allVariables outer inner)
    (hp : parseFile lines outer inner = .ok p) (hV : 1 ≤ p.vertices.length) :
    ∃ flag r, colorGraph p.adjacencyList K p.result 0 = .ok (flag, r) ∧
      (flag = false → ¬ ∃ c, ProperColoring p.adjacencyList K c) ∧
      ((∃ c, ProperColoring p.adjacencyList K c) → flag = true) := by
  obtain ⟨flag, r, h1, h2, -, -⟩ := parsed_search K h hp hV
  refine ⟨flag, r, h1, fun hf hex => ?_, h2⟩
  rw [h2 hex] at hf
  cases hf

/-- The theorem `pipeline_complete` on the run over `twelveStream` that
enumerates the map in the order of insertion, with the palette size 12: twelve
variables used by one instruction have no proper colouring with 11 colours. -/
theorem pipeline_complete_witness :
    Enumerates (extract twelveStream).allVariables
      (values (extract twelveStream).allVariables)
      (insertionOrder (extract twelveStream).allVariables) ∧
    parseFile twelveStream (values (extract twelveStream).allVariables)
        (insertionOrder (extract twelveStream).allVariables) =
      .ok { allVariables := (extract twelveStream).allVariables
            vertices := ["A", "B", "C", "D", "E", "F", "G", "H", "I", "J", "K", "L"]
            adjacencyList :=
              [[1, 2, 3, 4, 5, 6, 7, 8, 9, 10, 11], [0, 2, 3, 4, 5, 6, 7, 8, 9, 10, 11],
               [0, 1, 3, 4, 5, 6, 7, 8, 9, 10, 11], [0, 1, 2, 4, 5, 6, 7, 8, 9, 10, 11],
               [0, 1, 2, 3, 5, 6, 7, 8, 9, 10, 11], [0, 1, 2, 3, 4, 6, 7, 8, 9, 10, 11],
               [0, 1, 2, 3, 4, 5, 7, 8, 9, 10, 11], [0, 1, 2, 3, 4, 5, 6, 8, 9, 10, 11],
               [0, 1, 2, 3, 4, 5, 6, 7, 9, 10, 11], [0, 1, 2, 3, 4, 5, 6, 7, 8, 10, 11],
               [0, 1, 2, 3, 4, 5, 6, 7, 8, 9, 11], [0, 1, 2, 3, 4, 5, 6, 7, 8, 9, 10]]
            result := List.replicate 12 0 } ∧
    1 ≤ ["A", "B", "C", "D", "E", "F", "G", "H", "I", "J", "K", "L"].length ∧
    ∃ flag r,
      colorGraph
          [[1, 2, 3, 4, 5, 6, 7, 8, 9, 10, 11], [0, 2, 3, 4, 5, 6, 7, 8, 9, 10, 11],
           [0, 1, 3, 4, 5, 6, 7, 8, 9, 10, 11], [0, 1, 2, 4, 5, 6, 7, 8, 9, 10, 11],
           [0, 1, 2, 3, 5, 6, 7, 8, 9, 10, 11], [0, 1, 2, 3, 4, 6, 7, 8, 9, 10, 11],
           [0, 1, 2, 3, 4, 5, 7, 8, 9, 10, 11], [0, 1, 2, 3, 4, 5, 6, 8, 9, 10, 11],
           [0, 1, 2, 3, 4, 5, 6, 7, 9, 10, 11], [0, 1, 2, 3, 4, 5, 6, 7, 8, 10, 11],
           [0, 1, 2, 3, 4, 5, 6, 7, 8, 9, 11], [0, 1, 2, 3, 4, 5, 6, 7, 8, 9, 10]]
          12 (List.replicate 12 0) 0 = .ok (flag, r) ∧
      (flag = false → ¬ ∃ c, ProperColoring
          [[1, 2, 3, 4, 5, 6, 7, 8, 9, 10, 11], [0, 2, 3, 4, 5, 6, 7, 8, 9, 10, 11],
           [0, 1, 3, 4, 5, 6, 7, 8, 9, 10, 11], [0, 1, 2, 4, 5, 6, 7, 8, 9, 10, 11],
           [0, 1, 2, 3, 5, 6, 7, 8, 9, 10, 11], [0, 1, 2, 3, 4, 6, 7, 8, 9, 10, 11],
           [0, 1, 2, 3, 4, 5, 7, 8, 9, 10, 11], [0, 1, 2, 3, 4, 5, 6, 8, 9, 10, 11],
           [0, 1, 2, 3, 4, 5, 6, 7, 9, 10, 11], [0, 1, 2, 3, 4, 5, 6, 7, 8, 10, 11],
           [0, 1, 2, 3, 4, 5, 6, 7, 8, 9, 11], [0, 1, 2, 3, 4, 5, 6, 7, 8, 9, 10]] 12 c) ∧
      ((∃ c, ProperColoring
          [[1, 2, 3, 4, 5, 6, 7, 8, 9, 10, 11], [0, 2, 3, 4, 5, 6, 7, 8, 9, 10, 11],
           [0, 1, 3, 4, 5, 6, 7, 8, 9, 10, 11], [0, 1, 2, 4, 5, 6, 7, 8, 9, 10, 11],
           [0, 1, 2, 3, 5, 6, 7, 8, 9, 10, 11], [0, 1, 2, 3, 4, 6, 7, 8, 9, 10, 11],
           [0, 1, 2, 3, 4, 5, 7, 8, 9, 10, 11], [0, 1, 2, 3, 4, 5, 6, 8, 9, 10, 11],
           [0, 1, 2, 3, 4, 5, 6, 7, 9, 10, 11], [0, 1, 2, 3, 4, 5, 6, 7, 8, 10, 11],
           [0, 1, 2, 3, 4, 5, 6, 7, 8, 9, 11], [0, 1, 2, 3, 4, 5, 6, 7, 8, 9, 10]] 12 c) →
        flag = true) :=
  ⟨⟨List.Perm.refl _, fun _ => List.Perm.refl _⟩, rfl, by decide,
    pipeline_complete twelveStream _ _
      { allVariables := (extract twelveStream).allVariables
        vertices := ["A", "B", "C", "D", "E", "F", "G", "H", "I", "J", "K", "L"]
        adjacencyList :=
          [[1, 2, 3, 4, 5, 6, 7, 8, 9, 10, 11], [0, 2, 3, 4, 5, 6, 7, 8, 9, 10, 11],
           [0, 1, 3, 4, 5, 6, 7, 8, 9, 10, 11], [0, 1, 2, 4, 5, 6, 7, 8, 9, 10, 11],
           [0, 1, 2, 3, 5, 6, 7, 8, 9, 10, 11], [0, 1, 2, 3, 4, 6, 7, 8, 9, 10, 11],
           [0, 1, 2, 3, 4, 5, 7, 8, 9, 10, 11], [0, 1, 2, 3, 4, 5, 6, 8, 9, 10, 11],
           [0, 1, 2, 3, 4, 5, 6, 7, 9, 10, 11], [0, 1, 2, 3, 4, 5, 6, 7, 8, 10, 11],
           [0, 1, 2, 3, 4, 5, 6, 7, 8, 9, 11], [0, 1, 2, 3, 4, 5, 6, 7, 8, 9, 10]]
        result := List.replicate 12 0 } 12
      ⟨List.Perm.refl _, fun _ => List.Perm.refl _⟩ rfl (by decide)⟩

/-- C11, amended. Equivalence with the specified search on the graphs of the
program: for every palette size `K`, every instruction stream with at least one
variable and every run, on the adjacency list built by `parseFile`, starting
from the all-zero assignment, `colorGraph(0)` returns the same success flag and,
on success, the same assignment as the reference depth-first search of the
specification (`specSearch`); on success this assignment is a proper colouring
and comes first in the lexicographic order among the proper colourings. -/
theorem pipeline_matches_specSearch (lines : List Line) (outer : List variableUsage)
    (inner : Nat → List variableUsage) (p : Parsed) (K : Nat)
    (h : Enumerates (extract lines).allVariables outer inner)
    (hp : parseFile lines outer inner = .ok p) (hV : 1 ≤ p.vertices.length) :
    ∃ flag r, colorGraph p.adjacencyList K p.result 0 = .ok (flag, r) ∧
      (specSearch p.adjacencyList K p.vertices.length).1 = flag ∧
      (flag = true →
        (specSearch p.adjacencyList K p.vertices.length).2 = r ∧
        ProperColoring p.adjacencyList K r ∧
        ∀ c, ProperColoring p.adjacencyList K c → c = r ∨ LexBefore p.vertices.length r c) := by
  obtain ⟨flag, r, h1, -, h3, h4⟩ := parsed_search K h hp hV
  exact ⟨flag, r, h1, h3, h4⟩

/-- The theorem `pipeline_matches_specSearch` on the run over `exampleStream`
that enumerates the map in the order of insertion, with the palette size 12. -/
theorem pipeline_matches_specSearch_witness :
    Enumerates (extract exampleStream).allVariables
      (values (extract exampleStream).allVariables)
      (insertionOrder (extract exampleStream).allVariables) ∧
    parseFile exampleStream (values (extract exampleStream).allVariables)
        (insertionOrder (extract exampleStream).allVariables) =
      .ok { allVariables := [("A", ⟨0, 0, 2⟩), ("B", ⟨1, 1, 1⟩), ("C", ⟨2, 3, 3⟩)]
            vertices := ["A", "B", "C"]
            adjacencyList := [[], [0], []]
            result := [0, 0, 0] } ∧
    1 ≤ ["A", "B", "C"].length ∧
    specSearch [[], [0], []] 12 3 = (true, [1, 2, 1]) ∧
    ∃ flag r, colorGraph [[], [0], []] 12 [0, 0, 0] 0 = .ok (flag, r) ∧
      (specSearch [[], [0], []] 12 ["A", "B", "C"].length).1 = flag ∧
      (flag = true →
        (specSearch [[], [0], []] 12 ["A", "B", "C"].length).2 = r ∧
        ProperColoring [[], [0], []] 12 r ∧
        ∀ c, ProperColoring [[], [0], []] 12 c →
          c = r ∨ LexBefore ["A", "B", "C"].length r c) :=
  ⟨⟨List.Perm.refl _, fun _ => List.Perm.refl _⟩, rfl, by decide, rfl,
    pipeline_matches_specSearch exampleStream _ _
      { allVariables := [("A", ⟨0, 0, 2⟩), ("B", ⟨1, 1, 1⟩), ("C", ⟨2, 3, 3⟩)]
        vertices := ["A", "B", "C"]
        adjacencyList := [[], [0], []]
        result := [0, 0, 0] } 12
      ⟨List.Perm.refl _, fun _ => List.Perm.refl _⟩ rfl (by decide)⟩

end GraphColoring
